import Mathlib

/-!
# pipesort: a pipeline sort over bounded channels

A shallow embedding of `assignment_3/pipesort/pipesort.c`.

* the bounded buffer between two threads (an `int` array of `buffer_size` slots guarded by the
  semaphores `full` and `empty`) is `Channel`; `sem_wait`, `send_value` and the four-line receive
  sequence are embedded line by line;
* the loop bodies of `comparator` and `output` are the pure functions `comparator_body` and
  `output_body`;
* the threads (`generator`, `comparator`, `output`) are records of their local variables with a
  program counter; `step` lets one thread run from one blocking call to the next, and a schedule
  is the list of thread indices that take the successive steps;
* `pthread_create` passes the address of a variable in the stack frame of the creating thread;
  the created thread is an `entry` until it has read it, which it can do only while the creator
  has not returned.

`int` values are `Int`; the counter `received` is incremented with 32-bit wrap-around.
-/

namespace PipeSort

/-! ## Data model -/

/-- Modelled from the spec: the `State` enum of `pipesort.h`, which is not among the sources; its
four tags are the ones `pipesort.c` uses. -/
inductive State where
  | INITIAL
  | COMPARE_NO_THREAD
  | COMPARE
  | END
  deriving DecidableEq, Repr

/-- Modelled from the spec: the struct `Comparator_params` of `pipesort.h`, which is not among
the sources; `pipesort.c` uses its three fields `buffer`, `full` and `empty`. A channel is the
three objects they point at: the `int` array and the two semaphores, `full` counting the filled
slots and `empty` the free slots. -/
structure Channel where
  buffer : List Int
  full : Nat
  empty : Nat
  deriving DecidableEq, Repr

/-- The allocation of a channel (lines 205-210 and 331-339): `malloc(sizeof(int) * buffer_size)`,
`sem_init(full, 0, 0)`, `sem_init(empty, 0, buffer_size)`. The slots are uninitialised in C;
they are zero here and never read before they are written. -/
def newChannel (buffer_size : Nat) : Channel :=
  { buffer := List.replicate buffer_size 0, full := 0, empty := buffer_size }

/-- The call `sem_wait(sem)` on a semaphore of value `n`: blocks (`none`) at zero, otherwise
decrements. -/
def sem_wait (n : Nat) : Option Nat :=
  if n = 0 then none else some (n - 1)

/-- The call `sem_post(sem)`. -/
def sem_post (n : Nat) : Nat := n + 1

/-- Line 181 (and 350, 359): `sem_wait(write_empty)`. -/
def waitEmpty (ch : Channel) : Option Channel :=
  (sem_wait ch.empty).map fun e => { ch with empty := e }

/-- Lines 183-187 (and 352-354, 360-362): store the value at `write_in`, advance `write_in`
modulo `buffer_size`, `sem_post(write_full)`; returns the channel and the next `write_in`. -/
def writeSlot (buffer_size : Nat) (ch : Channel) (write_in : Nat) (value : Int) :
    Channel × Nat :=
  ({ ch with buffer := ch.buffer.set write_in value, full := sem_post ch.full },
    (write_in + 1) % buffer_size)

/-- The function `send_value` as a whole (lines 180-188): `none` while it blocks. -/
def send_value (buffer_size : Nat) (ch : Channel) (write_in : Nat) (value : Int) :
    Option (Channel × Nat) :=
  (waitEmpty ch).map fun ch1 => writeSlot buffer_size ch1 write_in value

/-- Line 219 (and 128): `sem_wait(read_full)`. -/
def waitFull (ch : Channel) : Option Channel :=
  (sem_wait ch.full).map fun f => { ch with full := f }

/-- Lines 220-223 (and 129-131): read the slot at `read_out`, advance `read_out` modulo
`buffer_size`, `sem_post(read_empty)`; returns the value read, the channel and the next
`read_out`. -/
def readSlot (buffer_size : Nat) (ch : Channel) (read_out : Nat) : Int × Channel × Nat :=
  (ch.buffer.getD read_out 0, { ch with empty := sem_post ch.empty },
    (read_out + 1) % buffer_size)

/-! ## One channel with one writer and one reader -/

/-- The steps two threads take on one channel: the two halves of `send_value` and the two
halves of the receive sequence. -/
inductive ChanOp where
  | putWait
  | putWrite (value : Int)
  | getWait
  | getRead
  deriving DecidableEq, Repr

/-- One channel together with the writer's `write_in`, the reader's `read_out` and where each
of them stands: `wheld` after the writer's `sem_wait(empty)` and before its `sem_post(full)`,
`rheld` after the reader's `sem_wait(full)` and before its `sem_post(empty)`. -/
structure ChanSys where
  ch : Channel
  write_in : Nat
  read_out : Nat
  wheld : Bool
  rheld : Bool
  deriving DecidableEq, Repr

/-- A freshly constructed channel: both indices 0, nothing in progress. -/
def ChanSys.init (buffer_size : Nat) : ChanSys :=
  { ch := newChannel buffer_size, write_in := 0, read_out := 0, wheld := false, rheld := false }

/-- One step on the channel; the second component is the value a `getRead` returns. A step that
the semaphores or the thread's own position do not allow is `none`. -/
def chanStep (buffer_size : Nat) (s : ChanSys) : ChanOp → Option (ChanSys × Option Int)
  | .putWait =>
    if s.wheld then none
    else (waitEmpty s.ch).map fun ch => ({ s with ch := ch, wheld := true }, none)
  | .putWrite v =>
    if s.wheld then
      let r := writeSlot buffer_size s.ch s.write_in v
      some ({ s with ch := r.1, write_in := r.2, wheld := false }, none)
    else none
  | .getWait =>
    if s.rheld then none
    else (waitFull s.ch).map fun ch => ({ s with ch := ch, rheld := true }, none)
  | .getRead =>
    if s.rheld then
      let r := readSlot buffer_size s.ch s.read_out
      some ({ s with ch := r.2.1, read_out := r.2.2, rheld := false }, some r.1)
    else none

/-- Run a sequence of steps; returns the final state and the values the reads returned, in
order. -/
def chanRun (buffer_size : Nat) : ChanSys → List ChanOp → Option (ChanSys × List Int)
  | s, [] => some (s, [])
  | s, op :: ops =>
    match chanStep buffer_size s op with
    | none => none
    | some (s1, r) =>
      match chanRun buffer_size s1 ops with
      | none => none
      | some (s2, rs) => some (s2, r.toList ++ rs)

/-- The values written by a sequence of steps, in order. -/
def putsOf : List ChanOp → List Int
  | [] => []
  | .putWrite v :: ops => v :: putsOf ops
  | _ :: ops => putsOf ops

/-- Number of operations in progress on the channel (0, 1 or 2). -/
def ChanSys.inProgress (s : ChanSys) : Nat :=
  (if s.wheld then 1 else 0) + (if s.rheld then 1 else 0)

/-- Number of items currently buffered: the filled slots the semaphore `full` counts, and the
one a reader has claimed by `sem_wait(full)` but not read yet. -/
def ChanSys.buffered (s : ChanSys) : Nat :=
  s.ch.full + (if s.rheld then 1 else 0)

/-! ## The loop bodies -/

/-- The two routines `pthread_create` is called with inside the pipeline. -/
inductive Routine where
  | comparator
  | output
  deriving DecidableEq, Repr

/-- What one iteration of the loop of `comparator` does after the read (lines 244-309): the
next `state` and `stored_number`, the thread it creates (if any, before it sends), the values
it passes to `send_value`, in order, and whether it leaves the loop by `break`. -/
structure Iter where
  state : State
  stored_number : Int
  create : Option Routine
  sends : List Int
  brk : Bool
  deriving DecidableEq, Repr

/-- Lines 244-309 of `comparator`, for the value `read_val` just read. -/
def comparator_body (state : State) (stored_number read_val : Int) : Iter :=
  match state with
  | .INITIAL =>
    -- lines 244-247
    { state := .COMPARE_NO_THREAD, stored_number := read_val, create := none, sends := [],
      brk := false }
  | .COMPARE_NO_THREAD =>
    if read_val = -1 then
      -- lines 255-267
      { state := .END, stored_number := stored_number, create := some .output,
        sends := [read_val, stored_number], brk := false }
    else if stored_number > read_val then
      -- lines 270-277
      { state := .COMPARE, stored_number := stored_number, create := some .comparator,
        sends := [read_val], brk := false }
    else
      -- lines 270-273, 279-280
      { state := .COMPARE, stored_number := read_val, create := some .comparator,
        sends := [stored_number], brk := false }
  | .COMPARE =>
    if read_val = -1 then
      -- lines 283-292
      { state := .END, stored_number := stored_number, create := none,
        sends := [read_val, stored_number], brk := false }
    else if stored_number > read_val then
      -- lines 295-296
      { state := .COMPARE, stored_number := stored_number, create := none,
        sends := [read_val], brk := false }
    else
      -- lines 298-299
      { state := .COMPARE, stored_number := read_val, create := none,
        sends := [stored_number], brk := false }
  | .END =>
    -- lines 301-309
    { state := .END, stored_number := stored_number, create := none, sends := [read_val],
      brk := decide (read_val = -1) }

/-- The increment `received++` on a 32-bit `int`, with two's-complement wrap-around. -/
def int_incr (n : Int) : Int := (n + 1 + 2147483648) % 4294967296 - 2147483648

/-- The local variables of `output` that its loop updates (lines 111-115), together with
`observed`: the real values that reach lines 144-152, in order (the lines printed under `-v`). -/
structure OutVars where
  state : State
  received : Int
  correct : Int
  prev_read_val : Int
  observed : List Int
  deriving DecidableEq, Repr

/-- Lines 112-115: the initial values. -/
def OutVars.init : OutVars :=
  { state := .INITIAL, received := 0, correct := 1, prev_read_val := -1, observed := [] }

/-- Lines 144-152 of `output`: a real value is printed, counted and compared with its
predecessor. -/
def OutVars.real (o : OutVars) (read_val : Int) : OutVars :=
  { o with
      observed := o.observed ++ [read_val]
      received := int_incr o.received
      correct := if o.prev_read_val > read_val then 0 else o.correct
      prev_read_val := read_val }

/-- Lines 133-152 of `output`, for the value `read_val` just read; the flag says whether the
loop is left by `break`. -/
def output_body (o : OutVars) (read_val : Int) : OutVars × Bool :=
  if read_val = -1 then
    if o.state = .INITIAL then ({ o with state := .END }, false)
    else (o, true)
  else
    (o.real read_val, false)

/-- The loop of `output` (lines 127-153) on the sequence of values it reads: stops at the
`break`; the flag says whether the `break` was reached. -/
def output_loop (o : OutVars) : List Int → OutVars × Bool
  | [] => (o, false)
  | v :: vs =>
    let r := output_body o v
    if r.2 then (r.1, true) else output_loop r.1 vs

/-- The iterations of the loop of `output` on real values only (lines 144-152 each time). -/
def OutVars.feed (o : OutVars) (vs : List Int) : OutVars :=
  vs.foldl OutVars.real o

/-- What the loop of `comparator` has done after reading a sequence of values: the state, the
stored number, all values passed to `send_value` so far, the routine of the thread it created,
and whether it has left the loop. -/
structure Trace where
  state : State
  stored_number : Int
  sent : List Int
  created : Option Routine
  brk : Bool
  deriving DecidableEq, Repr

/-- Lines 215-216: `stored_number` is uninitialised in C (zero here; it is assigned in state
`INITIAL` before it is read), `state = INITIAL`. -/
def Trace.init : Trace :=
  { state := .INITIAL, stored_number := 0, sent := [], created := none, brk := false }

/-- One more iteration of the loop of `comparator`; nothing is read after the `break`. -/
def Trace.next (t : Trace) (read_val : Int) : Trace :=
  if t.brk then t
  else
    let r := comparator_body t.state t.stored_number read_val
    { state := r.state, stored_number := r.stored_number, sent := t.sent ++ r.sends,
      created := if r.create.isSome then r.create else t.created, brk := r.brk }

/-- The loop of `comparator` (lines 218-310) on the sequence of values it reads. -/
def comparator_loop (t : Trace) (vs : List Int) : Trace :=
  vs.foldl Trace.next t

/-! ## Threads -/

/-- Where a `comparator` thread stands between two blocking calls:
`recv` before `sem_wait(read_full)` (line 219); `read` after it (line 220);
`send vs brk` before the `sem_wait(write_empty)` of the `send_value` call for the head of `vs`
(line 181) with the rest of `vs` still to be sent in this iteration and `brk` saying whether the
iteration ends in `break`; `write vs brk` after that `sem_wait` (line 183);
`done` after the `break` (line 312). -/
inductive Pc where
  | recv
  | read
  | send (vs : List Int) (brk : Bool)
  | write (vs : List Int) (brk : Bool)
  | done
  deriving DecidableEq, Repr

/-- Where the thread goes once the values `vs` of the iteration are still to be sent. -/
def Pc.after (vs : List Int) (brk : Bool) : Pc :=
  match vs with
  | [] => if brk then .done else .recv
  | _ :: _ => .send vs brk

/-- The local variables of a `comparator` thread (lines 198-216). `inp` is the channel its
parameter points at, `outp` the channel it allocates; `got` and `put` list the values it has read
at line 220 and written at line 183 so far (the two commented-out `printf` calls). -/
structure Comparator where
  inp : Nat
  outp : Nat
  read_out : Nat
  write_in : Nat
  stored_number : Int
  state : State
  pc : Pc
  got : List Int
  put : List Int
  deriving DecidableEq, Repr

/-- Lines 197-216, for a parameter pointing at channel `inp` and a fresh channel `outp`. -/
def Comparator.init (inp outp : Nat) : Comparator :=
  { inp := inp, outp := outp, read_out := 0, write_in := 0, stored_number := 0,
    state := .INITIAL, pc := .recv, got := [], put := [] }

/-- Where the `generator` thread stands: `start` before line 341, `wait` before a
`sem_wait(empty)` (lines 350, 359), `write` after it, `done` after the second loop. -/
inductive GenPc where
  | start
  | wait
  | write
  | done
  deriving DecidableEq, Repr

/-- The `generator` thread: `rands` are the values `rand()` returns in the iterations of the
first loop that are still to come, `ends` the iterations left of the second loop, `outp` the
channel it allocates, `put` the values written so far. -/
structure Generator where
  pc : GenPc
  rands : List Int
  ends : Nat
  outp : Nat
  next_in : Nat
  put : List Int
  deriving DecidableEq, Repr

/-- The generator for `length` values, `rands` being the `length` results of `rand()`. -/
def Generator.init (rands : List Int) : Generator :=
  { pc := .start, rands := rands, ends := 2, outp := 0, next_in := 0, put := [] }

/-- The value the current iteration writes: `rand()` in the first loop (line 352), `-1` in the
second (line 360). -/
def Generator.value (g : Generator) : Int :=
  match g.rands with
  | v :: _ => v
  | [] => -1

/-- The end of an iteration: the loop counter advances; the thread is done after the second
loop. -/
def Generator.advance (g : Generator) : Generator :=
  match g.rands with
  | _ :: rs => { g with rands := rs, pc := .wait }
  | [] => { g with ends := g.ends - 1, pc := if g.ends - 1 = 0 then .done else .wait }

/-- Where the `output` thread stands: before `sem_wait(read_full)` (line 128), after it
(line 129), after the `break` and `sem_post(&sorted)` (line 167). -/
inductive OutPc where
  | recv
  | read
  | done
  deriving DecidableEq, Repr

/-- The `output` thread: `inp` is the channel its parameter points at, `got` the values read so
far. -/
structure Output where
  inp : Nat
  read_out : Nat
  vars : OutVars
  pc : OutPc
  got : List Int
  deriving DecidableEq, Repr

/-- Lines 105-115. -/
def Output.init (inp : Nat) : Output :=
  { inp := inp, read_out := 0, vars := OutVars.init, pc := .recv, got := [] }

/-- A thread of the pipeline. A thread that `pthread_create` has made is an `entry` until it has
run the first lines of its routine: `params` is the thread in whose stack frame the
`Comparator_params` lie that its parameter `p` points at (`&params_next`, lines 257, 270 and
346). -/
inductive Thread where
  | generator (g : Generator)
  | comparator (x : Comparator)
  | output (o : Output)
  | entry (r : Routine) (params : Nat)
  deriving DecidableEq, Repr

/-- The thread has reached the end of its routine and has returned: its stack frame is gone. -/
def Thread.finished : Thread → Bool
  | .generator g => decide (g.pc = .done)
  | .comparator x => decide (x.pc = .done)
  | .output o => decide (o.pc = .done)
  | .entry _ _ => false

/-- The channel the variable `params_next` in the stack frame of the thread points at: the
channel the thread writes (lines 251-254 and 343-345). -/
def Thread.params_next : Thread → Nat
  | .generator g => g.outp
  | .comparator x => x.outp
  | .output _ => 0
  | .entry _ _ => 0

/-- The process: its threads in creation order, the channels allocated so far, the semaphore
`sorted` that `main` waits on, and the `pthread_create` calls made so far (index of the calling
thread, routine). -/
structure Sys where
  threads : List Thread
  chans : List Channel
  sorted : Nat
  created : List (Nat × Routine)
  deriving DecidableEq, Repr

/-- The state after `main` has created the generator thread (line 83) and the generator has
allocated its channel (lines 327-339, which touch nothing another thread can see); `rands` are
the results of the `length` calls of `rand()`, `sorted` is 0 (line 70). -/
def Sys.init (buffer_size : Nat) (rands : List Int) : Sys :=
  { threads := [.generator (Generator.init rands)], chans := [newChannel buffer_size],
    sorted := 0, created := [] }

/-- A `pthread_create` by thread `i` (lines 257, 270, 346): the new thread gets the address of
the variable `params_next` of thread `i` and has not run yet. -/
def Sys.spawn (s : Sys) (i : Nat) : Option Routine → Sys
  | none => s
  | some r =>
    { s with
        threads := s.threads ++ [.entry r i]
        created := s.created ++ [(i, r)] }

/-- One step of the generator thread `i`. -/
def stepGenerator (buffer_size : Nat) (s : Sys) (i : Nat) (g : Generator) : Option Sys :=
  match g.pc with
  | .start =>
    -- lines 341-346: create the first comparator
    let s1 : Sys := { s with threads := s.threads.set i (.generator { g with pc := .wait }) }
    some (s1.spawn i (some .comparator))
  | .wait =>
    -- lines 350, 359
    match s.chans[g.outp]? with
    | none => none
    | some ch =>
      match waitEmpty ch with
      | none => none
      | some ch1 =>
        some { s with
                threads := s.threads.set i (.generator { g with pc := .write })
                chans := s.chans.set g.outp ch1 }
  | .write =>
    -- lines 352-354, 360-362
    match s.chans[g.outp]? with
    | none => none
    | some ch =>
      let r := writeSlot buffer_size ch g.next_in g.value
      let g1 := { g with next_in := r.2, put := g.put ++ [g.value] }
      some { s with
              threads := s.threads.set i (.generator g1.advance)
              chans := s.chans.set g.outp r.1 }
  | .done => none

/-- One step of the comparator thread `i`. -/
def stepComparator (buffer_size : Nat) (s : Sys) (i : Nat) (x : Comparator) : Option Sys :=
  match x.pc with
  | .recv =>
    -- line 219
    match s.chans[x.inp]? with
    | none => none
    | some ch =>
      match waitFull ch with
      | none => none
      | some ch1 =>
        some { s with
                threads := s.threads.set i (.comparator { x with pc := .read })
                chans := s.chans.set x.inp ch1 }
  | .read =>
    -- lines 220-223, then the body up to its first `send_value`
    match s.chans[x.inp]? with
    | none => none
    | some ch =>
      let r := readSlot buffer_size ch x.read_out
      let it := comparator_body x.state x.stored_number r.1
      let x1 : Comparator :=
        { x with
            read_out := r.2.2, got := x.got ++ [r.1], state := it.state
            stored_number := it.stored_number, pc := Pc.after it.sends it.brk }
      let s1 : Sys :=
        { s with
            threads := s.threads.set i (.comparator x1)
            chans := s.chans.set x.inp r.2.1 }
      some (s1.spawn i it.create)
  | .send vs brk =>
    -- line 181
    match s.chans[x.outp]? with
    | none => none
    | some ch =>
      match waitEmpty ch with
      | none => none
      | some ch1 =>
        some { s with
                threads := s.threads.set i (.comparator { x with pc := .write vs brk })
                chans := s.chans.set x.outp ch1 }
  | .write vs brk =>
    -- lines 183-187, then on to the next blocking call
    match vs, s.chans[x.outp]? with
    | v :: rest, some ch =>
      let r := writeSlot buffer_size ch x.write_in v
      let x1 : Comparator :=
        { x with write_in := r.2, put := x.put ++ [v], pc := Pc.after rest brk }
      some { s with
              threads := s.threads.set i (.comparator x1)
              chans := s.chans.set x.outp r.1 }
    | _, _ => none
  | .done => none

/-- One step of the output thread `i`. -/
def stepOutput (buffer_size : Nat) (s : Sys) (i : Nat) (o : Output) : Option Sys :=
  match o.pc with
  | .recv =>
    -- line 128
    match s.chans[o.inp]? with
    | none => none
    | some ch =>
      match waitFull ch with
      | none => none
      | some ch1 =>
        some { s with
                threads := s.threads.set i (.output { o with pc := .read })
                chans := s.chans.set o.inp ch1 }
  | .read =>
    -- lines 129-131, the body, and after a `break` lines 155-167
    match s.chans[o.inp]? with
    | none => none
    | some ch =>
      let r := readSlot buffer_size ch o.read_out
      let b := output_body o.vars r.1
      let o1 : Output :=
        { o with
            read_out := r.2.2, got := o.got ++ [r.1], vars := b.1
            pc := if b.2 then .done else .recv }
      some { s with
              threads := s.threads.set i (.output o1)
              chans := s.chans.set o.inp r.2.1
              sorted := if b.2 then sem_post s.sorted else s.sorted }
  | .done => none

/-- The first step of the created thread `i`, up to its first `sem_wait` (lines 197-216 of
`comparator`, 104-115 of `output`): it reads the `Comparator_params` its parameter points at,
which lie in the stack frame of thread `params`, and a comparator allocates its write channel.
Nothing synchronises this read with the creator. The storage of `params_next` is the stack
frame of the creator, which stays allocated until the routine of the creator returns (also in
`comparator`, which declares the variable inside the block of lines 248-282: the routine has one
frame). Once the creator has returned, the frame is gone and the read is undefined behaviour:
the thread has no step then. -/
def stepEntry (buffer_size : Nat) (s : Sys) (i : Nat) (r : Routine) (params : Nat) :
    Option Sys :=
  match s.threads[params]? with
  | none => none
  | some u =>
    if u.finished then none
    else
      match r with
      | .comparator =>
        some { s with
                threads :=
                  s.threads.set i (.comparator (Comparator.init u.params_next s.chans.length))
                chans := s.chans ++ [newChannel buffer_size] }
      | .output =>
        some { s with threads := s.threads.set i (.output (Output.init u.params_next)) }

/-- Thread `i` runs from one blocking call to the next; `none` when it is blocked in a
`sem_wait`, has finished, does not exist, or is about to read a parameter that points into a
stack frame that is gone. -/
def step (buffer_size : Nat) (s : Sys) (i : Nat) : Option Sys :=
  match s.threads[i]? with
  | none => none
  | some (.generator g) => stepGenerator buffer_size s i g
  | some (.comparator x) => stepComparator buffer_size s i x
  | some (.output o) => stepOutput buffer_size s i o
  | some (.entry r params) => stepEntry buffer_size s i r params

/-- A schedule is the list of the threads that take the successive steps; `exec` is `none`
when the schedule asks a thread to step that cannot. -/
def exec (buffer_size : Nat) : Sys → List Nat → Option Sys
  | s, [] => some s
  | s, i :: sched =>
    match step buffer_size s i with
    | none => none
    | some s1 => exec buffer_size s1 sched

/-- No thread can take a step. -/
def terminal (buffer_size : Nat) (s : Sys) : Bool :=
  (List.range s.threads.length).all fun i => (step buffer_size s i).isNone

/-- Some created thread is still to read its parameter, and the stack frame the parameter
points into is gone: the behaviour of the program is undefined from here on. -/
def Sys.dangling (s : Sys) : Bool :=
  s.threads.any fun t =>
    match t with
    | .entry _ params =>
      match s.threads[params]? with
      | some u => u.finished
      | none => false
    | _ => false

/-- A complete run of the process on the values `rands` under the schedule `sched` ends in
`s`. -/
def Run (buffer_size : Nat) (rands : List Int) (sched : List Nat) (s : Sys) : Prop :=
  exec buffer_size (Sys.init buffer_size rands) sched = some s ∧ terminal buffer_size s = true

/-! ## The streams -/

/-- The stream of values on the channel into thread `k + 1`: the generator writes the `rands`
and two markers, and every comparator writes what its loop sends on the stream it reads. -/
def stream (rands : List Int) : Nat → List Int
  | 0 => rands ++ [-1, -1]
  | k + 1 => (comparator_loop Trace.init (stream rands k)).sent

/-- The values a comparator that holds `h` sends on while it reads the real values `vs`
(lines 275-281 and 294-300): each time the smaller of the value read and the value held. -/
def passed (h : Int) : List Int → List Int
  | [] => []
  | v :: vs => if h > v then v :: passed h vs else h :: passed v vs

/-- The value a comparator that holds `h` holds after it has read the real values `vs`. -/
def kept (h : Int) : List Int → Int
  | [] => h
  | v :: vs => if h > v then kept h vs else kept v vs

/-- The real values that are still unsorted `k` stages down the pipeline. -/
def unsorted (rands : List Int) : Nat → List Int
  | 0 => rands
  | k + 1 =>
    match unsorted rands k with
    | [] => []
    | v :: vs => passed v vs

/-- The values the first `k` stages hold at their first marker, last stage first. -/
def flushed (rands : List Int) : Nat → List Int
  | 0 => []
  | k + 1 =>
    match unsorted rands k with
    | [] => flushed rands k
    | v :: vs => kept v vs :: flushed rands k

/-! ## Views of a thread -/

/-- The values the thread has written to its channel. -/
def Thread.put : Thread → List Int
  | .generator g => g.put
  | .comparator x => x.put
  | .output _ => []
  | .entry _ _ => []

/-- The values the current iteration of a comparator still has to send. -/
def Pc.pend : Pc → List Int
  | .send vs _ => vs
  | .write vs _ => vs
  | _ => []

/-- The values the thread is still to write without reading anything more. -/
def Thread.pend : Thread → List Int
  | .generator g => g.rands ++ List.replicate g.ends (-1)
  | .comparator x => x.pc.pend
  | .output _ => []
  | .entry _ _ => []

/-- The thread is between the `sem_wait(empty)` and the `sem_post(full)` of a write. -/
def Thread.wheld : Thread → Bool
  | .generator g => decide (g.pc = .write)
  | .comparator x =>
    match x.pc with
    | .write _ _ => true
    | _ => false
  | .output _ => false
  | .entry _ _ => false

/-- The write index of the thread. -/
def Thread.widx : Thread → Nat
  | .generator g => g.next_in
  | .comparator x => x.write_in
  | .output _ => 0
  | .entry _ _ => 0

/-- The values the thread has read from its inbound channel. -/
def Thread.got : Thread → List Int
  | .generator _ => []
  | .comparator x => x.got
  | .output o => o.got
  | .entry _ _ => []

/-- The thread is between the `sem_wait(full)` and the `sem_post(empty)` of a read. -/
def Thread.rheld : Thread → Bool
  | .generator _ => false
  | .comparator x => decide (x.pc = .read)
  | .output o => decide (o.pc = .read)
  | .entry _ _ => false

/-- The read index of the thread. -/
def Thread.ridx : Thread → Nat
  | .generator _ => 0
  | .comparator x => x.read_out
  | .output o => o.read_out
  | .entry _ _ => 0

/-- The routine the thread runs, for the threads created inside the pipeline. -/
def Thread.routine : Thread → Option Routine
  | .generator _ => none
  | .comparator _ => some .comparator
  | .output _ => some .output
  | .entry r _ => some r

/-- The thread has a channel that it writes: the generator, and a comparator once it has run its
first lines. -/
def Thread.owner : Thread → Bool
  | .generator _ => true
  | .comparator _ => true
  | .output _ => false
  | .entry _ _ => false

/-- The routine of the thread this thread has created, if it has created one. -/
def Thread.created : Thread → Option Routine
  | .generator g => if g.pc = .start then none else some .comparator
  | .comparator x => (comparator_loop Trace.init x.got).created
  | .output _ => none
  | .entry _ _ => none

/-- The number of `sem_post(&sorted)` calls of the thread. -/
def Thread.posted : Thread → Nat
  | .output o => if o.pc = .done then 1 else 0
  | _ => 0

/-- The number of steps the thread has taken. -/
def Thread.work : Thread → Nat
  | .generator g =>
    (if g.pc = .start then 0 else 1) + 2 * g.put.length + (if g.pc = .write then 1 else 0)
  | .comparator x =>
    1 + 2 * x.got.length + (if x.pc = .read then 1 else 0) + 2 * x.put.length +
      (match x.pc with
        | .write _ _ => 1
        | _ => 0)
  | .output o => 1 + 2 * o.got.length + (if o.pc = .read then 1 else 0)
  | .entry _ _ => 0

/-- The number of steps all threads have taken. -/
def Sys.work (s : Sys) : Nat := (s.threads.map Thread.work).sum

/-- A thread as the reader of its inbound channel: the values read, whether it is in the
middle of a read, and its read index. -/
structure Reader where
  got : List Int
  held : Bool
  idx : Nat
  deriving DecidableEq, Repr

/-- The thread as a reader. -/
def Thread.reader (t : Thread) : Reader :=
  { got := t.got, held := t.rheld, idx := t.ridx }

/-- The reader at position `j`; while there is no thread `j` yet, nothing has been read. -/
def readerAt (ts : List Thread) (j : Nat) : Reader :=
  match ts[j]? with
  | some t => t.reader
  | none => { got := [], held := false, idx := 0 }

/-! ## Invariants -/

/-- The state of a channel of capacity `c` against the values `put` its writer has written and
the values `got` its reader has read, `wheld` and `rheld` saying whether the writer and the
reader are between their `sem_wait` and their `sem_post`. -/
structure ChanInv (c : Nat) (ch : Channel) (put : List Int) (wheld : Bool) (write_in : Nat)
    (got : List Int) (rheld : Bool) (read_out : Nat) : Prop where
  size : ch.buffer.length = c
  widx : write_in = put.length % c
  ridx : read_out = got.length % c
  count : got.length + ch.full + (if rheld then 1 else 0) = put.length
  sems : ch.empty + ch.full + (if wheld then 1 else 0) + (if rheld then 1 else 0) = c
  fifo : got = put.take got.length
  ring : ∀ j, got.length ≤ j → j < put.length → ch.buffer.getD (j % c) 0 = put.getD j 0

/-- The program counter of a comparator against the `break` flag of its loop so far. -/
def PcOk (pc : Pc) (brk : Bool) : Prop :=
  match pc with
  | .recv => brk = false
  | .read => brk = false
  | .send vs b => vs ≠ [] ∧ b = brk
  | .write vs b => vs ≠ [] ∧ b = brk
  | .done => brk = true

/-- The local state of thread `i` against the values it has read: a comparator is where its loop
is after the values `got`, and has written or is about to write what the loop has sent; the
generator has written or is about to write `rands` and two markers; the output thread is where
its loop is after the values `got`. -/
def Thread.Ok (rands : List Int) (i : Nat) : Thread → Prop
  | .generator g =>
    i = 0 ∧ g.outp = 0 ∧ g.put ++ (g.rands ++ List.replicate g.ends (-1)) = rands ++ [-1, -1] ∧
      (g.pc = .done → g.rands = [] ∧ g.ends = 0) ∧ (g.pc ≠ .done → 1 ≤ g.ends)
  | .comparator x =>
    x.inp + 1 = i ∧ x.outp = i ∧
      x.state = (comparator_loop Trace.init x.got).state ∧
      x.stored_number = (comparator_loop Trace.init x.got).stored_number ∧
      x.put ++ x.pc.pend = (comparator_loop Trace.init x.got).sent ∧
      PcOk x.pc (comparator_loop Trace.init x.got).brk
  | .output o =>
    o.inp + 1 = i ∧ output_loop OutVars.init o.got = (o.vars, decide (o.pc = .done))
  | .entry _ params => params + 1 = i

/-- The invariant of the process of capacity `c` on the values `rands`. -/
structure Inv (c : Nat) (rands : List Int) (s : Sys) : Prop where
  ok : ∀ (i : Nat) (t : Thread), s.threads[i]? = some t → t.Ok rands i
  chan : ∀ (i : Nat) (t : Thread), s.threads[i]? = some t → t.owner = true →
    ∃ ch, s.chans[i]? = some ch ∧
      ChanInv c ch t.put t.wheld t.widx (readerAt s.threads (i + 1)).got
        (readerAt s.threads (i + 1)).held (readerAt s.threads (i + 1)).idx
  succ : ∀ (i : Nat) (t : Thread), s.threads[i]? = some t →
    match t.created with
    | none => s.threads.length = i + 1
    | some r => ∃ u, s.threads[i + 1]? = some u ∧ u.routine = some r
  nchan : ∀ (i : Nat), i < s.chans.length → ∃ t, s.threads[i]? = some t ∧ t.owner = true
  pos : 0 < s.threads.length
  posted : s.sorted = (s.threads.map Thread.posted).sum
  log : s.created = (s.threads.tail.map fun t => t.routine.getD .comparator).enum

/-- What holds of the loop of a comparator at every point: it has created a thread exactly when
it has left the states `INITIAL` and `COMPARE_NO_THREAD`, it has sent nothing before that, and
it leaves the loop only from state `END`. -/
structure TraceWf (t : Trace) : Prop where
  created_iff : t.created = none ↔ t.state = .INITIAL ∨ t.state = .COMPARE_NO_THREAD
  sent_nil : t.created = none → t.sent = []
  brk_end : t.brk = true → t.state = .END

/-- The states in which a comparator compares. -/
def Comparing (t : Trace) : Prop :=
  (t.state = .COMPARE_NO_THREAD ∧ t.created = none ∨
    t.state = .COMPARE ∧ t.created = some .comparator) ∧ t.brk = false

/-- The list `a` is an initial segment of the list `b`. -/
def Pre (a b : List Int) : Prop := ∃ e, b = a ++ e

/-- The number of comparator threads of a run on `rands`: one per value, and one when there is
no value at all. -/
def stages (rands : List Int) : Nat := max rands.length 1

/-- The number of markers in a list of values. -/
def markers (vs : List Int) : Nat := vs.count (-1)

/-- A bound on the number of steps of a run on `n` values. -/
def workBound (n : Nat) : Nat := (n + 3) * (4 * (n + 2) + 3)

/-- A schedule of a complete run on the values `[5, 3, 8, 1]` with capacity 1: each time the
first thread that can take a step. -/
def demoSchedule : List Nat :=
  [0, 0, 0, 1, 1, 1, 0, 0, 1, 1, 0, 0, 1, 1, 1, 1, 0, 0, 2, 2, 2, 1, 1, 1, 1, 0, 0, 2, 2, 1, 1,
    1, 1, 0, 0, 2, 2, 2, 2, 1, 1, 3, 3, 3, 2, 2, 2, 2, 1, 1, 1, 1, 3, 3, 2, 2, 3, 3, 3, 3, 2, 2,
    2, 2, 1, 1, 4, 4, 4, 3, 3, 4, 4, 3, 3, 3, 3, 2, 2, 2, 2, 4, 4, 5, 5, 5, 4, 4, 4, 4, 3, 3, 3,
    3, 2, 2, 5, 5, 4, 4, 4, 4, 3, 3, 3, 3, 5, 5, 4, 4, 4, 4, 3, 3, 5, 5, 4, 4, 4, 4, 5, 5, 4, 4,
    5, 5]

/-- A schedule of a complete run on no value at all with capacity 1: each time the first
thread that can take a step. -/
def emptySchedule : List Nat := [0, 0, 0, 1, 1, 1, 0, 0, 1, 1, 1, 1, 2, 2, 2, 1, 1, 2, 2]

/-- A schedule of a complete run with capacity 1 on the values `[5, -1, 3]`, of which one is
equal to the marker: each time the first thread that can take a step. -/
def collisionSchedule : List Nat :=
  [0, 0, 0, 1, 1, 1, 0, 0, 1, 1, 0, 0, 1, 1, 2, 2, 2, 1, 1, 1, 1, 0, 0, 2, 2, 1, 1, 1, 1, 0, 0,
    2, 2, 1, 1, 2, 2]

/-- A schedule on four values with capacity 6 (`-l 4 -b 6`), each time the first thread that can
take a step: the generator creates the first comparator, writes its six values without ever
waiting, and returns before the comparator has run. -/
def danglingSchedule : List Nat := [0, 0, 0, 0, 0, 0, 0, 0, 0, 0, 0, 0, 0]

/-- A schedule on no value at all with capacity 2 (`-l 0 -b 2`), each time the first thread that
can take a step: the generator creates the first comparator, writes the two markers and
returns. -/
def emptyDanglingSchedule : List Nat := [0, 0, 0, 0, 0]

/-- The `pthread_create` calls of the loop of `comparator` (lines 257 and 270) on the values it
reads, in order: the routine of each. -/
def comparator_creates (t : Trace) : List Int → List Routine
  | [] => []
  | v :: vs =>
    (if t.brk then [] else (comparator_body t.state t.stored_number v).create.toList) ++
      comparator_creates (t.next v) vs

/-! ## The driver -/

/-- The C library function `isspace`, on the character codes. -/
def isspace (c : Char) : Bool := c.toNat = 32 || (9 ≤ c.toNat && c.toNat ≤ 13)

/-- The C library function `isdigit`, on the character codes. -/
def isdigit (c : Char) : Bool := 48 ≤ c.toNat && c.toNat ≤ 57

/-- The decimal digits at the head of a string, as a number. -/
def atoi_digits (acc : Int) : List Char → Int
  | [] => acc
  | c :: cs => if isdigit c then atoi_digits (acc * 10 + ((c.toNat - 48 : Nat) : Int)) cs else acc

/-- The number a string starts with: white space is skipped, then an optional sign (`-` is
character 45, `+` is 43) and the decimal digits that follow are converted, whatever comes after
them; a string without digits there gives 0. -/
def leading_number (s : String) : Int :=
  match s.toList.dropWhile isspace with
  | [] => 0
  | c :: cs =>
    if c.toNat = 45 then -atoi_digits 0 cs
    else if c.toNat = 43 then atoi_digits 0 cs
    else atoi_digits 0 (c :: cs)

/-- The C library function `strtol` in base 10 on a 64-bit `long`: the number the string starts
with, and the nearest bound of `long` when that number is out of its range. -/
def strtol (s : String) : Int :=
  max (-9223372036854775808) (min (leading_number s) 9223372036854775807)

/-- The conversion of a `long` to a 32-bit `int`: the low 32 bits in two's complement. -/
def int_of_long (v : Int) : Int := (v + 2147483648) % 4294967296 - 2147483648

/-- The C library function `atoi` that `main` calls on the option arguments (lines 39, 42, 45),
as the C library defines it: `(int) strtol(nptr, NULL, 10)`. Its result is a 32-bit `int`. -/
def atoi (s : String) : Int := int_of_long (strtol s)

/-- The value is one of a 32-bit `int`. -/
def is_int (v : Int) : Bool := decide (-2147483648 ≤ v) && decide (v < 2147483648)

/-- What one call of `getopt(argc, argv, "l:s:b:v")` in the loop of `main` returns (line 36):
one of the four options, with its argument `optarg` for the first three; the character `?` for
an unknown option or an option without its argument (`err`); or any other character, which the
`switch` sends to its `default` label (`other`). The end of the options is the end of the
list. -/
inductive GetOpt where
  | l (optarg : String)
  | s (optarg : String)
  | b (optarg : String)
  | v
  | err
  | other
  deriving DecidableEq, Repr

/-- The configuration `main` reads: its locals `length` and `seed` and the globals
`buffer_size` and `verbose`, all of type `int`; they hold their initial values or results of
`atoi`. -/
structure Config where
  length : Int
  seed : Int
  buffer_size : Int
  verbose : Int
  deriving DecidableEq, Repr

/-- The initial values (lines 15, 16, 32, 33). -/
def Config.init : Config := { length := 100, seed := 42, buffer_size := 1, verbose := 0 }

/-- The option loop of `main` (lines 36-64): the configuration at the end of the options, or
the status `main` returns from inside the loop. -/
def main_loop (cfg : Config) : List GetOpt → Except Int Config
  | [] => .ok cfg
  | .l a :: opts => main_loop { cfg with length := atoi a } opts
  | .s a :: opts => main_loop { cfg with seed := atoi a } opts
  | .b a :: opts => main_loop { cfg with buffer_size := atoi a } opts
  | .v :: opts => main_loop { cfg with verbose := 1 } opts
  | .err :: _ => .error (-1)
  | .other :: _ => .error (-1)

/-- How far `main` gets before it waits: it returns a status from the option loop, before any
thread exists, or it creates the generator thread with a configuration (line 83). -/
inductive MainResult where
  | returned (status : Int)
  | started (cfg : Config)
  deriving DecidableEq, Repr

/-- Lines 29-83 of `main`. -/
def main (opts : List GetOpt) : MainResult :=
  match main_loop Config.init opts with
  | .error status => .returned status
  | .ok cfg => .started cfg

/-! ## The channel -/

theorem mod_ne_of_lt_of_sub_lt {c j n : Nat} (hjn : j < n) (hlt : n - j < c) :
    j % c ≠ n % c := by
  intro h
  have hd : c ∣ n - j := (Nat.modEq_iff_dvd' (Nat.le_of_lt hjn)).mp h
  have := Nat.le_of_dvd (by omega) hd
  omega

theorem succ_mod_mod (n c : Nat) : (n % c + 1) % c = (n + 1) % c := by
  rw [Nat.add_mod, Nat.mod_mod, ← Nat.add_mod]

theorem chanInv_new (c : Nat) : ChanInv c (newChannel c) [] false 0 [] false 0 where
  size := by simp [newChannel]
  widx := by simp
  ridx := by simp
  count := by simp [newChannel]
  sems := by simp [newChannel]
  fifo := by simp
  ring := by intro j _ h; simp at h

theorem waitEmpty_eq_none {ch : Channel} : waitEmpty ch = none ↔ ch.empty = 0 := by
  unfold waitEmpty sem_wait
  by_cases h : ch.empty = 0 <;> simp [h]

theorem waitFull_eq_none {ch : Channel} : waitFull ch = none ↔ ch.full = 0 := by
  unfold waitFull sem_wait
  by_cases h : ch.full = 0 <;> simp [h]

theorem waitEmpty_eq_some {ch ch1 : Channel} (h : waitEmpty ch = some ch1) :
    0 < ch.empty ∧ ch1 = { ch with empty := ch.empty - 1 } := by
  unfold waitEmpty sem_wait at h
  by_cases h0 : ch.empty = 0
  · simp [h0] at h
  · simp [h0] at h
    exact ⟨by omega, h.symm⟩

theorem waitFull_eq_some {ch ch1 : Channel} (h : waitFull ch = some ch1) :
    0 < ch.full ∧ ch1 = { ch with full := ch.full - 1 } := by
  unfold waitFull sem_wait at h
  by_cases h0 : ch.full = 0
  · simp [h0] at h
  · simp [h0] at h
    exact ⟨by omega, h.symm⟩

theorem chanInv_waitEmpty {c : Nat} {ch ch1 : Channel} {put got : List Int} {wi ro : Nat}
    {rh : Bool} (inv : ChanInv c ch put false wi got rh ro) (h : waitEmpty ch = some ch1) :
    ChanInv c ch1 put true wi got rh ro := by
  obtain ⟨hpos, rfl⟩ := waitEmpty_eq_some h
  have hs := inv.sems
  exact
    { size := inv.size, widx := inv.widx, ridx := inv.ridx, count := inv.count
      sems := by simp at hs ⊢; omega
      fifo := inv.fifo, ring := inv.ring }

theorem chanInv_waitFull {c : Nat} {ch ch1 : Channel} {put got : List Int} {wi ro : Nat}
    {wh : Bool} (inv : ChanInv c ch put wh wi got false ro) (h : waitFull ch = some ch1) :
    ChanInv c ch1 put wh wi got true ro := by
  obtain ⟨hpos, rfl⟩ := waitFull_eq_some h
  have hs := inv.sems
  have hc := inv.count
  exact
    { size := inv.size, widx := inv.widx, ridx := inv.ridx
      count := by simp at hc ⊢; omega
      sems := by simp at hs ⊢; omega
      fifo := inv.fifo, ring := inv.ring }

theorem chanInv_writeSlot {c : Nat} {ch : Channel} {put got : List Int} {wi ro : Nat}
    {rh : Bool} (inv : ChanInv c ch put true wi got rh ro) (v : Int) :
    ChanInv c (writeSlot c ch wi v).1 (put ++ [v]) false (writeSlot c ch wi v).2 got rh ro := by
  have hs := inv.sems
  have hc := inv.count
  have hcpos : 0 < c := by simp at hs; omega
  have hgp : got.length ≤ put.length := by omega
  refine
    { size := by simp [PipeSort.writeSlot, inv.size]
      widx := by simp [PipeSort.writeSlot, inv.widx, succ_mod_mod]
      ridx := inv.ridx
      count := by simp [PipeSort.writeSlot, sem_post] at hc ⊢; omega
      sems := by simp [PipeSort.writeSlot, sem_post] at hs ⊢; omega
      fifo := ?_
      ring := ?_ }
  · rw [List.take_append_of_le_length hgp]
    exact inv.fifo
  · intro j hj hlt
    simp only [List.length_append, List.length_singleton] at hlt
    simp only [PipeSort.writeSlot, inv.widx]
    have hmodlt : put.length % c < ch.buffer.length := by
      rw [inv.size]; exact Nat.mod_lt _ hcpos
    by_cases hjp : j = put.length
    · subst hjp
      simp [List.getD_eq_getElem?_getD, List.getElem?_set, hmodlt]
    · have hjlt : j < put.length := by omega
      have hne : put.length % c ≠ j % c := by
        have := @mod_ne_of_lt_of_sub_lt c j put.length hjlt (by simp at hs; omega)
        exact fun h => this h.symm
      have := inv.ring j hj hjlt
      simp only [List.getD_eq_getElem?_getD] at this ⊢
      rw [List.getElem?_set_ne hne, this, List.getElem?_append_left hjlt]

theorem chanInv_readSlot {c : Nat} {ch : Channel} {put got : List Int} {wi ro : Nat}
    {wh : Bool} (inv : ChanInv c ch put wh wi got true ro) :
    (readSlot c ch ro).1 = put.getD got.length 0 ∧ got.length < put.length ∧
    ChanInv c (readSlot c ch ro).2.1 put wh wi (got ++ [(readSlot c ch ro).1]) false
      (readSlot c ch ro).2.2 := by
  have hs := inv.sems
  have hc := inv.count
  have hlt : got.length < put.length := by simp at hc; omega
  have hval : (PipeSort.readSlot c ch ro).1 = put.getD got.length 0 := by
    simp only [PipeSort.readSlot, inv.ridx]
    exact inv.ring got.length (le_refl _) hlt
  refine ⟨hval, hlt, ?_⟩
  refine
    { size := by simp [PipeSort.readSlot, inv.size]
      widx := inv.widx
      ridx := by simp [PipeSort.readSlot, inv.ridx, succ_mod_mod]
      count := by simp [PipeSort.readSlot] at hc ⊢; omega
      sems := by simp [PipeSort.readSlot, sem_post] at hs ⊢; omega
      fifo := ?_
      ring := ?_ }
  · rw [hval]
    simp only [List.length_append, List.length_singleton]
    rw [List.take_succ, ← inv.fifo]
    simp [List.getD_eq_getElem?_getD, List.getElem?_eq_getElem hlt]
  · intro j hj hjlt
    simp only [List.length_append, List.length_singleton] at hj
    simp only [PipeSort.readSlot]
    exact inv.ring j (by omega) hjlt

theorem chanRun_inv (c : Nat) : ∀ (ops : List ChanOp) (s s1 : ChanSys) (put got outs : List Int),
    ChanInv c s.ch put s.wheld s.write_in got s.rheld s.read_out →
    chanRun c s ops = some (s1, outs) →
    ChanInv c s1.ch (put ++ putsOf ops) s1.wheld s1.write_in (got ++ outs) s1.rheld
      s1.read_out := by
  intro ops
  induction ops with
  | nil =>
    intro s s1 put got outs inv h
    simp only [chanRun, Option.some.injEq, Prod.mk.injEq] at h
    obtain ⟨rfl, rfl⟩ := h
    simpa [putsOf] using inv
  | cons op ops ih =>
    intro s s1 put got outs inv h
    simp only [chanRun] at h
    cases hstep : chanStep c s op with
    | none => simp [hstep] at h
    | some p =>
      obtain ⟨s2, r⟩ := p
      simp only [hstep] at h
      cases hrun : chanRun c s2 ops with
      | none => simp [hrun] at h
      | some q =>
        obtain ⟨s3, rs⟩ := q
        simp only [hrun, Option.some.injEq, Prod.mk.injEq] at h
        obtain ⟨rfl, rfl⟩ := h
        cases op with
        | putWait =>
          simp only [chanStep] at hstep
          by_cases hw : s.wheld = true
          · simp [hw] at hstep
          · simp only [hw, Bool.false_eq_true, ↓reduceIte, Option.map_eq_some', Prod.mk.injEq] at hstep
            obtain ⟨ch1, hch1, rfl, rfl⟩ := hstep
            have hw' : s.wheld = false := by simpa using hw
            rw [hw'] at inv
            have := ih _ _ put got rs (by simpa using chanInv_waitEmpty inv hch1) hrun
            simpa [putsOf] using this
        | putWrite v =>
          simp only [chanStep] at hstep
          by_cases hw : s.wheld = true
          · simp only [hw, ↓reduceIte, Option.some.injEq, Prod.mk.injEq] at hstep
            obtain ⟨rfl, rfl⟩ := hstep
            rw [hw] at inv
            have := ih _ _ (put ++ [v]) got rs (by simpa using chanInv_writeSlot inv v) hrun
            simpa [putsOf] using this
          · simp [hw] at hstep
        | getWait =>
          simp only [chanStep] at hstep
          by_cases hw : s.rheld = true
          · simp [hw] at hstep
          · simp only [hw, Bool.false_eq_true, ↓reduceIte, Option.map_eq_some', Prod.mk.injEq] at hstep
            obtain ⟨ch1, hch1, rfl, rfl⟩ := hstep
            have hw' : s.rheld = false := by simpa using hw
            rw [hw'] at inv
            have := ih _ _ put got rs (by simpa using chanInv_waitFull inv hch1) hrun
            simpa [putsOf] using this
        | getRead =>
          simp only [chanStep] at hstep
          by_cases hw : s.rheld = true
          · simp only [hw, ↓reduceIte, Option.some.injEq, Prod.mk.injEq] at hstep
            obtain ⟨rfl, rfl⟩ := hstep
            rw [hw] at inv
            have := ih _ _ put (got ++ [(readSlot c s.ch s.read_out).1]) rs
              (by simpa using (chanInv_readSlot inv).2.2) hrun
            simpa [putsOf] using this
          · simp [hw] at hstep

/-- C8. On one channel of any capacity, under every sequence of the half-steps of `send_value`
and of the receive sequence that the semaphores `empty` and `full` permit, starting from a fresh
channel with both indices 0, the values the reads return are, in order, the first values
written: the `i`-th read returns the `i`-th value written. -/
theorem channel_fifo (c : Nat) (ops : List ChanOp) (s : ChanSys) (outs : List Int)
    (h : chanRun c (ChanSys.init c) ops = some (s, outs)) :
    outs.length ≤ (putsOf ops).length ∧
      ∀ i, i < outs.length → outs[i]? = (putsOf ops)[i]? := by
  have inv := chanRun_inv c ops (ChanSys.init c) s [] [] outs
    (by simpa [ChanSys.init] using chanInv_new c) h
  simp only [List.nil_append] at inv
  have hc := inv.count
  refine ⟨by omega, fun i hi => ?_⟩
  have hf := inv.fifo
  rw [hf, List.getElem?_take_of_lt (by simpa using hi)]

theorem channel_fifo_witness :
    chanRun 2 (ChanSys.init 2)
        [.putWait, .putWrite 5, .putWait, .getWait, .putWrite 3, .getRead, .putWait, .getWait,
          .getRead, .putWrite 8, .getWait, .getRead] =
      some (⟨⟨[8, 3], 0, 2⟩, 1, 1, false, false⟩, [5, 3, 8]) ∧
    ([5, 3, 8] : List Int).length ≤
      (putsOf [.putWait, .putWrite 5, .putWait, .getWait, .putWrite 3, .getRead, .putWait,
        .getWait, .getRead, .putWrite 8, .getWait, .getRead]).length ∧
    ∀ i, i < ([5, 3, 8] : List Int).length →
      ([5, 3, 8] : List Int)[i]? = (putsOf [.putWait, .putWrite 5, .putWait, .getWait,
        .putWrite 3, .getRead, .putWait, .getWait, .getRead, .putWrite 8, .getWait,
        .getRead])[i]? :=
  ⟨by decide,
    channel_fifo 2
      [.putWait, .putWrite 5, .putWait, .getWait, .putWrite 3, .getRead, .putWait, .getWait,
        .getRead, .putWrite 8, .getWait, .getRead]
      ⟨⟨[8, 3], 0, 2⟩, 1, 1, false, false⟩ [5, 3, 8] (by decide)⟩

/-- C10. In every state reachable from a fresh channel of capacity `c` by steps the semaphores
permit: the number of values written is the number read plus the number buffered, the number
buffered is at most `c`, and free slots plus filled slots plus operations in progress is `c`. -/
theorem channel_invariant (c : Nat) (ops : List ChanOp) (s : ChanSys) (outs : List Int)
    (h : chanRun c (ChanSys.init c) ops = some (s, outs)) :
    (putsOf ops).length = outs.length + s.buffered ∧ s.buffered ≤ c ∧
      s.ch.empty + s.ch.full + s.inProgress = c := by
  have inv := chanRun_inv c ops (ChanSys.init c) s [] [] outs
    (by simpa [ChanSys.init] using chanInv_new c) h
  simp only [List.nil_append] at inv
  have hc := inv.count
  have hs := inv.sems
  simp only [ChanSys.buffered, ChanSys.inProgress]
  refine ⟨by omega, by omega, by omega⟩

theorem channel_invariant_witness :
    chanRun 2 (ChanSys.init 2) [.putWait, .putWrite 5, .putWait, .getWait, .putWrite 3] =
      some (⟨⟨[5, 3], 1, 0⟩, 0, 0, false, true⟩, []) ∧
    (putsOf [.putWait, .putWrite 5, .putWait, .getWait, .putWrite 3]).length =
      ([] : List Int).length + ChanSys.buffered ⟨⟨[5, 3], 1, 0⟩, 0, 0, false, true⟩ ∧
    ChanSys.buffered ⟨⟨[5, 3], 1, 0⟩, 0, 0, false, true⟩ ≤ 2 ∧
    (0 : Nat) + 1 + ChanSys.inProgress ⟨⟨[5, 3], 1, 0⟩, 0, 0, false, true⟩ = 2 :=
  ⟨by decide,
    channel_invariant 2 [.putWait, .putWrite 5, .putWait, .getWait, .putWrite 3]
      ⟨⟨[5, 3], 1, 0⟩, 0, 0, false, true⟩ [] (by decide)⟩

/-! ## The output thread -/

theorem int_incr_eq {n : Int} (h0 : 0 ≤ n) (h1 : n + 1 < 2147483648) : int_incr n = n + 1 := by
  unfold int_incr
  omega

theorem output_body_real (o : OutVars) {v : Int} (hv : v ≠ -1) :
    output_body o v = (o.real v, false) := by
  simp [output_body, hv]

@[simp] theorem feed_nil (o : OutVars) : o.feed [] = o := rfl

@[simp] theorem feed_cons (o : OutVars) (v : Int) (vs : List Int) :
    o.feed (v :: vs) = (o.real v).feed vs := rfl

theorem feed_append (o : OutVars) (vs ws : List Int) :
    o.feed (vs ++ ws) = (o.feed vs).feed ws := by
  simp [OutVars.feed, List.foldl_append]

theorem output_loop_feed (o : OutVars) (vs tail : List Int) (hvs : ∀ v ∈ vs, v ≠ -1) :
    output_loop o (vs ++ tail) = output_loop (o.feed vs) tail := by
  induction vs generalizing o with
  | nil => simp
  | cons v vs ih =>
    have hv : v ≠ -1 := hvs v (by simp)
    have := ih (o.real v) (fun w hw => hvs w (by simp [hw]))
    simpa [output_loop, output_body_real o hv] using this

theorem feed_state (o : OutVars) (vs : List Int) : (o.feed vs).state = o.state := by
  induction vs generalizing o with
  | nil => rfl
  | cons v vs ih => simpa [OutVars.real] using ih (o.real v)

theorem feed_observed (o : OutVars) (vs : List Int) :
    (o.feed vs).observed = o.observed ++ vs := by
  induction vs generalizing o with
  | nil => simp
  | cons v vs ih => simpa [OutVars.real] using ih (o.real v)

theorem feed_received (o : OutVars) (vs : List Int)
    (h0 : 0 ≤ o.received) (h1 : o.received + vs.length < 2147483648) :
    (o.feed vs).received = o.received + vs.length := by
  induction vs generalizing o with
  | nil => simp
  | cons v vs ih =>
    simp only [List.length_cons, Nat.cast_add, Nat.cast_one] at h1
    have hi : (o.real v).received = o.received + 1 := int_incr_eq h0 (by omega)
    have := ih (o.real v) (by omega) (by omega)
    simp only [feed_cons, this, hi, List.length_cons, Nat.cast_add, Nat.cast_one]
    omega

theorem feed_correct (o : OutVars) (vs : List Int) :
    ((o.feed vs).correct = 1 ↔ o.correct = 1 ∧ List.Chain (· ≤ ·) o.prev_read_val vs) ∧
      (o.correct = 0 → (o.feed vs).correct = 0) := by
  induction vs generalizing o with
  | nil => simp
  | cons v vs ih =>
    obtain ⟨h1, h2⟩ := ih (o.real v)
    simp only [feed_cons]
    constructor
    · rw [h1, List.chain_cons]
      by_cases hlt : o.prev_read_val > v
      · simp only [OutVars.real, hlt, ↓reduceIte, zero_ne_one, false_and, false_iff, not_and]
        intro _ hle
        omega
      · simp only [OutVars.real, hlt, ↓reduceIte]
        have : o.prev_read_val ≤ v := by omega
        tauto
    · intro h0
      apply h2
      simp only [OutVars.real, h0]
      split <;> rfl

theorem feed_set_state (o : OutVars) (st : State) (vs : List Int) :
    ({ o with state := st } : OutVars).feed vs = { (o.feed vs) with state := st } := by
  induction vs generalizing o with
  | nil => rfl
  | cons v vs ih => simpa [OutVars.real] using ih (o.real v)

/-- The loop of `output` on a stream with two markers: real values, a marker, real values, a
marker, then anything. -/
theorem output_loop_two_markers (pre post rest : List Int) (hpre : ∀ v ∈ pre, v ≠ -1)
    (hpost : ∀ v ∈ post, v ≠ -1) :
    output_loop OutVars.init (pre ++ -1 :: (post ++ -1 :: rest)) =
      ({ (OutVars.init.feed (pre ++ post)) with state := .END }, true) := by
  rw [output_loop_feed _ _ _ hpre]
  have hst : (OutVars.init.feed pre).state = .INITIAL := feed_state OutVars.init pre
  have e1 : output_body (OutVars.init.feed pre) (-1) =
      ({ (OutVars.init.feed pre) with state := .END }, false) := by
    simp [output_body, hst]
  simp only [output_loop, e1, Bool.false_eq_true, ↓reduceIte]
  rw [output_loop_feed _ _ _ hpost, feed_set_state]
  simp [output_loop, output_body, feed_append]

/-- C3, as the claim states it, fails: the sink that has read the marker, the single real
value `-5` and the second marker has observed the non-decreasing sequence `[-5]` and reports
correctness 0, because `prev_read_val` starts at `-1`. -/
theorem sink_flag_counterexample :
    (∀ v ∈ ([-5] : List Int), v ≠ -1) ∧
      (output_loop OutVars.init [-1, -5, -1]).2 = true ∧
      (output_loop OutVars.init [-1, -5, -1]).1.observed = [-5] ∧
      List.Sorted (· ≤ ·) ([-5] : List Int) ∧
      (output_loop OutVars.init [-1, -5, -1]).1.correct = 0 := by
  refine ⟨by decide, by decide, by decide, by simp, by decide⟩

/-- C3, amended. When the sink reads real values `pre`, a marker, real values `post` and a
second marker, it leaves its loop there having observed `pre ++ post`; the flag it reports is 1
or 0, and it is 1 if and only if the observed sequence is non-decreasing and its first value, if
there is one, is at least `-1` (the initial `prev_read_val`); so for values that are all at
least 0 it is 1 if and only if the observed sequence is non-decreasing. The flag is sticky: an
iteration that starts with the flag at 0 ends with the flag at 0. -/
theorem sink_flag_iff (pre post rest : List Int) (hpre : ∀ v ∈ pre, v ≠ -1)
    (hpost : ∀ v ∈ post, v ≠ -1) :
    (output_loop OutVars.init (pre ++ -1 :: (post ++ -1 :: rest))).2 = true ∧
      (output_loop OutVars.init (pre ++ -1 :: (post ++ -1 :: rest))).1.observed = pre ++ post ∧
      ((output_loop OutVars.init (pre ++ -1 :: (post ++ -1 :: rest))).1.correct = 1 ↔
        List.Sorted (· ≤ ·) (pre ++ post) ∧ ∀ v ∈ (pre ++ post).head?, -1 ≤ v) ∧
      ((output_loop OutVars.init (pre ++ -1 :: (post ++ -1 :: rest))).1.correct = 1 ∨
        (output_loop OutVars.init (pre ++ -1 :: (post ++ -1 :: rest))).1.correct = 0) ∧
      (∀ (o : OutVars) (v : Int), o.correct = 0 → (output_body o v).1.correct = 0) ∧
      ((∀ v ∈ pre ++ post, 0 ≤ v) →
        ((output_loop OutVars.init (pre ++ -1 :: (post ++ -1 :: rest))).1.correct = 1 ↔
          List.Sorted (· ≤ ·) (pre ++ post))) := by
  rw [output_loop_two_markers pre post rest hpre hpost]
  obtain ⟨h1, h2⟩ := feed_correct OutVars.init (pre ++ post)
  have hchain : List.Chain (· ≤ ·) (-1 : Int) (pre ++ post) ↔
      List.Sorted (· ≤ ·) (pre ++ post) ∧ ∀ v ∈ (pre ++ post).head?, -1 ≤ v := by
    rw [List.chain_iff_pairwise, List.pairwise_cons]
    constructor
    · rintro ⟨ha, hs⟩
      refine ⟨hs, fun v hv => ha v ?_⟩
      exact List.mem_of_mem_head? hv
    · rintro ⟨hs, hh⟩
      refine ⟨fun v hv => ?_, hs⟩
      cases hl : pre ++ post with
      | nil => simp [hl] at hv
      | cons a l =>
        rw [hl] at hs hh hv
        have ha : -1 ≤ a := hh a (by simp)
        rcases List.mem_cons.mp hv with rfl | hv
        · exact ha
        · exact le_trans ha (List.rel_of_sorted_cons hs v hv)
  have hiff : (OutVars.init.feed (pre ++ post)).correct = 1 ↔
      List.Sorted (· ≤ ·) (pre ++ post) ∧ ∀ v ∈ (pre ++ post).head?, -1 ≤ v := by
    rw [h1, ← hchain]
    simp [OutVars.init]
  refine ⟨rfl, by simp [feed_observed, OutVars.init], hiff, ?_, ?_, ?_⟩
  · show (OutVars.init.feed (pre ++ post)).correct = 1 ∨
      (OutVars.init.feed (pre ++ post)).correct = 0
    by_cases hc : List.Chain (· ≤ ·) (-1 : Int) (pre ++ post)
    · exact Or.inl (h1.mpr ⟨rfl, hc⟩)
    · right
      have key : ∀ (o : OutVars) (vs : List Int), (o.correct = 1 ∨ o.correct = 0) →
          ((o.feed vs).correct = 1 ∨ (o.feed vs).correct = 0) := by
        intro o vs
        induction vs generalizing o with
        | nil => simp
        | cons v vs ih =>
          intro h
          apply ih
          simp only [OutVars.real]
          split
          · exact Or.inr rfl
          · exact h
      rcases key OutVars.init (pre ++ post) (Or.inl rfl) with h | h
      · exact absurd (h1.mp h).2 hc
      · exact h
  · intro o v h0
    unfold output_body
    split
    · split <;> simpa using h0
    · simp only [OutVars.real, h0]
      split <;> rfl
  · intro hnn
    show (OutVars.init.feed (pre ++ post)).correct = 1 ↔ _
    rw [hiff]
    constructor
    · exact fun h => h.1
    · intro hs
      refine ⟨hs, fun v hv => ?_⟩
      have := hnn v (List.mem_of_mem_head? hv)
      omega

theorem sink_flag_iff_witness :
    ((∀ v ∈ ([] : List Int), v ≠ -1) ∧ ∀ v ∈ ([5, 3, 8, 1] : List Int), v ≠ -1) ∧
    (output_loop OutVars.init ([] ++ -1 :: ([5, 3, 8, 1] ++ -1 :: []))).1.correct = 0 ∧
    ((output_loop OutVars.init ([] ++ -1 :: ([5, 3, 8, 1] ++ -1 :: []))).2 = true ∧
      (output_loop OutVars.init ([] ++ -1 :: ([5, 3, 8, 1] ++ -1 :: []))).1.observed =
        [] ++ [5, 3, 8, 1] ∧
      ((output_loop OutVars.init ([] ++ -1 :: ([5, 3, 8, 1] ++ -1 :: []))).1.correct = 1 ↔
        List.Sorted (· ≤ ·) (([] : List Int) ++ [5, 3, 8, 1]) ∧
          ∀ v ∈ (([] : List Int) ++ [5, 3, 8, 1]).head?, -1 ≤ v) ∧
      ((output_loop OutVars.init ([] ++ -1 :: ([5, 3, 8, 1] ++ -1 :: []))).1.correct = 1 ∨
        (output_loop OutVars.init ([] ++ -1 :: ([5, 3, 8, 1] ++ -1 :: []))).1.correct = 0) ∧
      (∀ (o : OutVars) (v : Int), o.correct = 0 → (output_body o v).1.correct = 0) ∧
      ((∀ v ∈ ([] : List Int) ++ [5, 3, 8, 1], 0 ≤ v) →
        ((output_loop OutVars.init ([] ++ -1 :: ([5, 3, 8, 1] ++ -1 :: []))).1.correct = 1 ↔
          List.Sorted (· ≤ ·) (([] : List Int) ++ [5, 3, 8, 1])))) :=
  ⟨⟨by decide, by decide⟩, by decide,
    sink_flag_iff [] [5, 3, 8, 1] [] (by decide) (by decide)⟩

/-! ## The loop of a comparator -/

@[simp] theorem comparator_loop_nil (t : Trace) : comparator_loop t [] = t := rfl

@[simp] theorem comparator_loop_cons (t : Trace) (v : Int) (vs : List Int) :
    comparator_loop t (v :: vs) = comparator_loop (t.next v) vs := rfl

theorem comparator_loop_append (t : Trace) (vs ws : List Int) :
    comparator_loop t (vs ++ ws) = comparator_loop (comparator_loop t vs) ws := by
  simp [comparator_loop, List.foldl_append]

theorem comparator_loop_snoc (t : Trace) (vs : List Int) (v : Int) :
    comparator_loop t (vs ++ [v]) = (comparator_loop t vs).next v := by
  simp [comparator_loop_append]

theorem next_of_brk {t : Trace} (h : t.brk = true) (v : Int) : t.next v = t := by
  simp [Trace.next, h]

theorem comparator_loop_of_brk {t : Trace} (h : t.brk = true) (vs : List Int) :
    comparator_loop t vs = t := by
  induction vs with
  | nil => rfl
  | cons v vs ih => rw [comparator_loop_cons, next_of_brk h, ih]

theorem traceWf_init : TraceWf Trace.init := by
  constructor <;> simp [Trace.init]

theorem traceWf_next {t : Trace} (h : TraceWf t) (v : Int) : TraceWf (t.next v) := by
  unfold Trace.next
  by_cases hb : t.brk = true
  · simpa [hb] using h
  · simp only [hb, Bool.false_eq_true, ↓reduceIte]
    obtain ⟨h1, h2, h3⟩ := h
    cases hs : t.state with
    | INITIAL =>
      have hc : t.created = none := h1.mpr (Or.inl hs)
      constructor <;> simp [comparator_body, hc, h2 hc]
    | COMPARE_NO_THREAD =>
      constructor <;> by_cases hv : v = -1 <;> by_cases hlt : t.stored_number > v <;>
        simp [comparator_body, hv, hlt]
    | COMPARE =>
      have hc : t.created ≠ none := fun hc => by simpa [hs] using h1.mp hc
      constructor <;> by_cases hv : v = -1 <;> by_cases hlt : t.stored_number > v <;>
        simp [comparator_body, hv, hlt, hc]
    | END =>
      have hc : t.created ≠ none := fun hc => by simpa [hs] using h1.mp hc
      constructor <;> simp [comparator_body, hc]

theorem traceWf_loop {t : Trace} (h : TraceWf t) (vs : List Int) :
    TraceWf (comparator_loop t vs) := by
  induction vs generalizing t with
  | nil => exact h
  | cons v vs ih => exact ih (traceWf_next h v)

theorem traceWf_run (vs : List Int) : TraceWf (comparator_loop Trace.init vs) :=
  traceWf_loop traceWf_init vs

/-- The thread created by an iteration: only state `COMPARE_NO_THREAD` creates one. -/
theorem next_created {t : Trace} (h : TraceWf t) (v : Int) :
    (t.next v).created = t.created ∨ (t.created = none ∧ (t.next v).created ≠ none) := by
  unfold Trace.next
  by_cases hb : t.brk = true
  · simp [hb]
  · simp only [hb, Bool.false_eq_true, ↓reduceIte]
    cases hs : t.state with
    | INITIAL => simp [comparator_body]
    | COMPARE_NO_THREAD =>
      have hc : t.created = none := h.created_iff.mpr (Or.inr hs)
      right
      refine ⟨hc, ?_⟩
      by_cases hv : v = -1 <;> by_cases hlt : t.stored_number > v <;>
        simp [comparator_body, hv, hlt]
    | COMPARE =>
      left
      by_cases hv : v = -1 <;> by_cases hlt : t.stored_number > v <;>
        simp [comparator_body, hv, hlt]
    | END => simp [comparator_body]

theorem loop_created_stable {t : Trace} (h : TraceWf t) {r : Routine} (hr : t.created = some r)
    (vs : List Int) : (comparator_loop t vs).created = some r := by
  induction vs generalizing t with
  | nil => exact hr
  | cons v vs ih =>
    have hn : (t.next v).created = some r := by
      rcases next_created h v with h1 | ⟨h1, _⟩
      · rw [h1, hr]
      · rw [hr] at h1; cases h1
    exact ih (traceWf_next h v) hn

/-- What an iteration sends is appended to what has been sent. -/
theorem next_sent (t : Trace) (v : Int) :
    (t.next v).sent =
      t.sent ++ (if t.brk then [] else (comparator_body t.state t.stored_number v).sends) := by
  unfold Trace.next
  by_cases hb : t.brk = true <;> simp [hb]

theorem loop_sent_extends (t : Trace) (vs : List Int) :
    ∃ e, (comparator_loop t vs).sent = t.sent ++ e := by
  induction vs generalizing t with
  | nil => exact ⟨[], by simp⟩
  | cons v vs ih =>
    obtain ⟨e, he⟩ := ih (t.next v)
    refine ⟨(if t.brk then [] else (comparator_body t.state t.stored_number v).sends) ++ e, ?_⟩
    rw [comparator_loop_cons, he, next_sent, List.append_assoc]

/-! ### The loop on a well-formed stream -/

theorem loop_first (v : Int) :
    Trace.init.next v =
      { state := .COMPARE_NO_THREAD, stored_number := v, sent := [], created := none,
        brk := false } := by
  simp [Trace.next, Trace.init, comparator_body]

theorem loop_reals {t : Trace} (ht : Comparing t) (vs : List Int) (hvs : ∀ v ∈ vs, v ≠ -1) :
    comparator_loop t vs =
      { state := if vs = [] then t.state else .COMPARE
        stored_number := kept t.stored_number vs
        sent := t.sent ++ passed t.stored_number vs
        created := if vs = [] then t.created else some .comparator
        brk := false } := by
  induction vs generalizing t with
  | nil =>
    obtain ⟨_, hb⟩ := ht
    simp [kept, passed, ← hb]
  | cons v vs ih =>
    have hv : v ≠ -1 := hvs v (by simp)
    obtain ⟨hst, hb⟩ := ht
    have hnext : t.next v =
        { state := .COMPARE
          stored_number := if t.stored_number > v then t.stored_number else v
          sent := t.sent ++ [if t.stored_number > v then v else t.stored_number]
          created := some .comparator
          brk := false } := by
      unfold Trace.next
      rcases hst with ⟨h1, h2⟩ | ⟨h1, h2⟩ <;>
        by_cases hlt : t.stored_number > v <;>
        simp [hb, h1, h2, comparator_body, hv, hlt]
    have hc : Comparing (t.next v) := by
      rw [hnext]
      exact ⟨Or.inr ⟨rfl, rfl⟩, rfl⟩
    rw [comparator_loop_cons, ih hc (fun w hw => hvs w (by simp [hw])), hnext]
    by_cases hlt : t.stored_number > v <;> by_cases hvs0 : vs = [] <;>
      simp [kept, passed, hlt, hvs0]

theorem loop_flush {t : Trace} (ht : Comparing t) :
    t.next (-1) =
      { state := .END, stored_number := t.stored_number
        sent := t.sent ++ [-1, t.stored_number]
        created := if t.created = none then some .output else t.created
        brk := false } := by
  obtain ⟨hst, hb⟩ := ht
  unfold Trace.next
  rcases hst with ⟨h1, h2⟩ | ⟨h1, h2⟩ <;> simp [hb, h1, h2, comparator_body]

theorem loop_drain {t : Trace} (hs : t.state = .END) (hb : t.brk = false) (vs : List Int)
    (hvs : ∀ v ∈ vs, v ≠ -1) :
    comparator_loop t vs = { t with sent := t.sent ++ vs } := by
  induction vs generalizing t with
  | nil => simp
  | cons v vs ih =>
    have hv : v ≠ -1 := hvs v (by simp)
    have hnext : t.next v = { t with sent := t.sent ++ [v] } := by
      unfold Trace.next
      simp [hb, hs, comparator_body, hv]
    rw [comparator_loop_cons, hnext, ih (by simpa using hs) (by simpa using hb)
      (fun w hw => hvs w (by simp [hw]))]
    simp

theorem loop_last {t : Trace} (hs : t.state = .END) (hb : t.brk = false) :
    t.next (-1) = { t with sent := t.sent ++ [-1], brk := true } := by
  unfold Trace.next
  simp [hb, hs, comparator_body]

/-- The loop of a comparator on a whole stream: a first value, real values, a marker, real
values, a marker. -/
theorem loop_stream (v0 : Int) (a b : List Int) (ha : ∀ v ∈ a, v ≠ -1)
    (hb : ∀ v ∈ b, v ≠ -1) :
    comparator_loop Trace.init (v0 :: a ++ -1 :: (b ++ [-1])) =
      { state := .END, stored_number := kept v0 a
        sent := passed v0 a ++ -1 :: kept v0 a :: (b ++ [-1])
        created := some (if a = [] then .output else .comparator)
        brk := true } := by
  have h0 : Comparing (Trace.init.next v0) := by
    rw [loop_first]; exact ⟨Or.inl ⟨rfl, rfl⟩, rfl⟩
  have h1 := loop_reals h0 a ha
  have hc1 : Comparing (comparator_loop (Trace.init.next v0) a) := by
    rw [h1, loop_first]
    by_cases hnil : a = []
    · simp [hnil, Comparing]
    · simp [hnil, Comparing]
  have h2 := loop_flush hc1
  rw [List.cons_append, comparator_loop_cons, comparator_loop_append, comparator_loop_cons,
    h2, comparator_loop_append, loop_drain (by rfl) (by rfl) b hb, comparator_loop_cons,
    comparator_loop_nil, loop_last (by rfl) (by rfl), h1, loop_first]
  by_cases hnil : a = [] <;> simp [hnil]

/-! ## What the stages keep and pass on -/

theorem passed_length (h : Int) (vs : List Int) : (passed h vs).length = vs.length := by
  induction vs generalizing h with
  | nil => rfl
  | cons v vs ih => unfold passed; split <;> simp [ih]

theorem passed_kept_perm (h : Int) (vs : List Int) :
    (passed h vs ++ [kept h vs]).Perm (h :: vs) := by
  induction vs generalizing h with
  | nil => simp [passed, kept]
  | cons v vs ih =>
    unfold passed kept
    split
    · exact ((ih h).cons v).trans (List.Perm.swap h v vs)
    · exact (ih v).cons h

theorem le_kept (h : Int) (vs : List Int) : ∀ x ∈ h :: vs, x ≤ kept h vs := by
  induction vs generalizing h with
  | nil => simp [kept]
  | cons v vs ih =>
    intro x hx
    unfold kept
    split
    · rename_i hlt
      rcases List.mem_cons.mp hx with rfl | hx
      · exact ih x x (by simp)
      · rcases List.mem_cons.mp hx with rfl | hx
        · exact le_trans (le_of_lt hlt) (ih h h (by simp))
        · exact ih h x (by simp [hx])
    · rename_i hlt
      rcases List.mem_cons.mp hx with rfl | hx
      · exact le_trans (not_lt.mp hlt) (ih v v (by simp))
      · exact ih v x hx

theorem passed_le_kept (h : Int) (vs : List Int) : ∀ x ∈ passed h vs, x ≤ kept h vs := by
  intro x hx
  apply le_kept h vs x
  exact (passed_kept_perm h vs).subset (by simp [hx])

theorem kept_mem (h : Int) (vs : List Int) : kept h vs ∈ h :: vs :=
  (passed_kept_perm h vs).subset (by simp)

theorem passed_subset (h : Int) (vs : List Int) : ∀ x ∈ passed h vs, x ∈ h :: vs :=
  fun x hx => (passed_kept_perm h vs).subset (by simp [hx])

/-! ## The unsorted and the flushed values, stage by stage -/

theorem unsorted_succ_cons {rands : List Int} {k : Nat} {v : Int} {vs : List Int}
    (h : unsorted rands k = v :: vs) : unsorted rands (k + 1) = passed v vs := by
  simp [unsorted, h]

theorem flushed_succ_cons {rands : List Int} {k : Nat} {v : Int} {vs : List Int}
    (h : unsorted rands k = v :: vs) :
    flushed rands (k + 1) = kept v vs :: flushed rands k := by
  simp [flushed, h]

theorem unsorted_succ_nil {rands : List Int} {k : Nat} (h : unsorted rands k = []) :
    unsorted rands (k + 1) = [] := by
  simp [unsorted, h]

theorem flushed_succ_nil {rands : List Int} {k : Nat} (h : unsorted rands k = []) :
    flushed rands (k + 1) = flushed rands k := by
  simp [flushed, h]

theorem unsorted_length (rands : List Int) (k : Nat) :
    (unsorted rands k).length = rands.length - k := by
  induction k with
  | zero => simp [unsorted]
  | succ k ih =>
    cases h : unsorted rands k with
    | nil =>
      rw [unsorted_succ_nil h]
      rw [h] at ih
      simp at ih ⊢
      omega
    | cons v vs =>
      rw [unsorted_succ_cons h, passed_length]
      rw [h] at ih
      simp at ih
      omega

theorem flushed_length (rands : List Int) (k : Nat) :
    (flushed rands k).length = min k rands.length := by
  induction k with
  | zero => simp [flushed]
  | succ k ih =>
    have hl := unsorted_length rands k
    cases h : unsorted rands k with
    | nil =>
      rw [flushed_succ_nil h, ih]
      rw [h] at hl
      simp at hl
      omega
    | cons v vs =>
      rw [flushed_succ_cons h, List.length_cons, ih]
      rw [h] at hl
      simp at hl
      omega

theorem unsorted_flushed_perm (rands : List Int) (k : Nat) :
    (unsorted rands k ++ flushed rands k).Perm rands := by
  induction k with
  | zero => simp [unsorted, flushed]
  | succ k ih =>
    cases h : unsorted rands k with
    | nil =>
      rw [unsorted_succ_nil h, flushed_succ_nil h]
      simpa [h] using ih
    | cons v vs =>
      rw [unsorted_succ_cons h, flushed_succ_cons h]
      rw [h] at ih
      refine List.Perm.trans ?_ ih
      have := (passed_kept_perm v vs).append_right (flushed rands k)
      simpa using this

theorem unsorted_le_flushed (rands : List Int) (k : Nat) :
    List.Sorted (· ≤ ·) (flushed rands k) ∧
      ∀ x ∈ unsorted rands k, ∀ y ∈ flushed rands k, x ≤ y := by
  induction k with
  | zero => simp [flushed]
  | succ k ih =>
    obtain ⟨hs, hle⟩ := ih
    cases h : unsorted rands k with
    | nil =>
      rw [unsorted_succ_nil h, flushed_succ_nil h]
      exact ⟨hs, by simp⟩
    | cons v vs =>
      rw [unsorted_succ_cons h, flushed_succ_cons h]
      rw [h] at hle
      constructor
      · refine List.sorted_cons.mpr ⟨fun y hy => hle _ (kept_mem v vs) y hy, hs⟩
      · intro x hx y hy
        rcases List.mem_cons.mp hy with rfl | hy
        · exact passed_le_kept v vs x hx
        · exact hle x (passed_subset v vs x hx) y hy

theorem unsorted_full (rands : List Int) : unsorted rands rands.length = [] := by
  apply List.eq_nil_of_length_eq_zero
  rw [unsorted_length]
  omega

/-- After as many stages as there are values, the flushed values are the input sorted. -/
theorem flushed_full (rands : List Int) :
    flushed rands rands.length = List.insertionSort (· ≤ ·) rands := by
  apply List.eq_of_perm_of_sorted (r := (· ≤ ·))
  · have := unsorted_flushed_perm rands rands.length
    rw [unsorted_full] at this
    exact this.trans (List.perm_insertionSort _ _).symm
  · exact (unsorted_le_flushed rands rands.length).1
  · exact List.sorted_insertionSort _ _

theorem unsorted_real {rands : List Int} (hr : ∀ v ∈ rands, v ≠ -1) (k : Nat) :
    ∀ v ∈ unsorted rands k, v ≠ -1 :=
  fun v hv => hr v ((unsorted_flushed_perm rands k).subset (by simp [hv]))

theorem flushed_real {rands : List Int} (hr : ∀ v ∈ rands, v ≠ -1) (k : Nat) :
    ∀ v ∈ flushed rands k, v ≠ -1 :=
  fun v hv => hr v ((unsorted_flushed_perm rands k).subset (by simp [hv]))

/-! ## The shape of the streams -/

/-- The stream `k` stages down the pipeline, for `k` at most the number of values: the values
still unsorted, the first marker, the values flushed so far in non-decreasing order, the second
marker. -/
theorem stream_shape {rands : List Int} (hr : ∀ v ∈ rands, v ≠ -1) :
    ∀ k, k ≤ rands.length →
      stream rands k = unsorted rands k ++ -1 :: (flushed rands k ++ [-1]) := by
  intro k
  induction k with
  | zero => intro _; simp [stream, unsorted, flushed]
  | succ k ih =>
    intro hk
    have hlen := unsorted_length rands k
    cases h : unsorted rands k with
    | nil => rw [h] at hlen; simp at hlen; omega
    | cons v vs =>
      have hreal := unsorted_real hr k
      rw [h] at hreal
      rw [stream, ih (by omega), h, unsorted_succ_cons h, flushed_succ_cons h,
        loop_stream v vs (flushed rands k) (fun w hw => hreal w (by simp [hw])) (flushed_real hr k)]
      simp

/-- The loop of the comparator that reads stream `k`, for `k` less than the number of values. -/
theorem loop_on_stream {rands : List Int} (hr : ∀ v ∈ rands, v ≠ -1) {k : Nat}
    (hk : k < rands.length) :
    (comparator_loop Trace.init (stream rands k)).brk = true ∧
      (comparator_loop Trace.init (stream rands k)).created =
        some (if k + 1 = rands.length then .output else .comparator) ∧
      (flushed rands (k + 1)).head? =
        some (comparator_loop Trace.init (stream rands k)).stored_number := by
  have hlen := unsorted_length rands k
  cases h : unsorted rands k with
  | nil => rw [h] at hlen; simp at hlen; omega
  | cons v vs =>
    have hreal := unsorted_real hr k
    rw [h] at hreal hlen
    rw [stream_shape hr k (by omega), h, flushed_succ_cons h,
      loop_stream v vs (flushed rands k) (fun w hw => hreal w (by simp [hw])) (flushed_real hr k)]
    refine ⟨rfl, ?_, rfl⟩
    simp only [List.length_cons] at hlen
    by_cases hvs : vs = []
    · subst hvs
      have : k + 1 = rands.length := by simp at hlen; omega
      simp [this]
    · have : k + 1 ≠ rands.length := by
        cases vs with
        | nil => exact absurd rfl hvs
        | cons w ws => simp at hlen; omega
      simp [hvs, this]

theorem stream_length {rands : List Int} (hr : ∀ v ∈ rands, v ≠ -1) {k : Nat}
    (hk : k ≤ rands.length) : (stream rands k).length = rands.length + 2 := by
  rw [stream_shape hr k hk]
  simp [unsorted_length, flushed_length]
  omega

/-! ## Lists of threads -/

theorem lt_of_getElem?_eq_some {α : Type} {l : List α} {i : Nat} {a : α} (h : l[i]? = some a) :
    i < l.length := by
  obtain ⟨hlt, _⟩ := List.getElem?_eq_some.mp h
  exact hlt

theorem getElem?_set_self_of {α : Type} {l : List α} {i : Nat} {a b : α} (h : l[i]? = some a) :
    (l.set i b)[i]? = some b := by
  simp [List.getElem?_set, lt_of_getElem?_eq_some h]

theorem readerAt_of {ts : List Thread} {j : Nat} {t : Thread} (h : ts[j]? = some t) :
    readerAt ts j = t.reader := by
  simp [readerAt, h]

theorem readerAt_none {ts : List Thread} {j : Nat} (h : ts.length ≤ j) :
    readerAt ts j = { got := [], held := false, idx := 0 } := by
  simp [readerAt, List.getElem?_eq_none h]

theorem readerAt_set_ne (ts : List Thread) {i j : Nat} (t : Thread) (h : i ≠ j) :
    readerAt (ts.set i t) j = readerAt ts j := by
  simp [readerAt, List.getElem?_set_ne h]

theorem map_set_of_eq {α β : Type} (f : α → β) {l : List α} {i : Nat} {a b : α}
    (h : l[i]? = some a) (hf : f b = f a) : (l.set i b).map f = l.map f := by
  induction l generalizing i with
  | nil => simp
  | cons x l ih =>
    cases i with
    | zero =>
      simp only [List.getElem?_cons_zero, Option.some.injEq] at h
      subst h
      simp [hf]
    | succ i =>
      simp only [List.getElem?_cons_succ] at h
      simp [ih h]

theorem sum_map_set {α : Type} (f : α → Nat) {l : List α} {i : Nat} {a b : α}
    (h : l[i]? = some a) : ((l.set i b).map f).sum + f a = (l.map f).sum + f b := by
  induction l generalizing i with
  | nil => simp at h
  | cons x l ih =>
    cases i with
    | zero =>
      simp only [List.getElem?_cons_zero, Option.some.injEq] at h
      subst h
      simp
      omega
    | succ i =>
      simp only [List.getElem?_cons_succ] at h
      have := ih h
      simp only [List.set_cons_succ, List.map_cons, List.sum_cons]
      omega

/-! ## The invariant under a step that creates no thread -/

theorem Inv.update {c : Nat} {rands : List Int} {s : Sys} (inv : Inv c rands s) {i : Nat}
    {t q : Thread} (ht : s.threads[i]? = some t) (chans1 : List Channel) (sorted1 : Nat)
    (hok : q.Ok rands i) (hroutine : q.routine = t.routine) (howner : q.owner = t.owner)
    (hcreated : q.created = t.created)
    (hposted : sorted1 + t.posted = s.sorted + q.posted)
    (hlen : chans1.length = s.chans.length)
    (hin : ∀ j u ch, j + 1 = i → s.threads[j]? = some u → s.chans[j]? = some ch →
      ChanInv c ch u.put u.wheld u.widx t.reader.got t.reader.held t.reader.idx →
      ∃ ch1, chans1[j]? = some ch1 ∧
        ChanInv c ch1 u.put u.wheld u.widx q.reader.got q.reader.held q.reader.idx)
    (hout : ∀ ch (r : Reader), s.chans[i]? = some ch →
      ChanInv c ch t.put t.wheld t.widx r.got r.held r.idx →
      ∃ ch1, chans1[i]? = some ch1 ∧ ChanInv c ch1 q.put q.wheld q.widx r.got r.held r.idx)
    (hother : ∀ j, j ≠ i → j + 1 ≠ i → chans1[j]? = s.chans[j]?) :
    Inv c rands { s with threads := s.threads.set i q, chans := chans1, sorted := sorted1 } := by
  have hi : i < s.threads.length := lt_of_getElem?_eq_some ht
  have hget : ∀ k x, (s.threads.set i q)[k]? = some x →
      (k = i ∧ x = q) ∨ (k ≠ i ∧ s.threads[k]? = some x) := by
    intro k x hx
    by_cases hk : k = i
    · subst hk
      rw [getElem?_set_self_of ht] at hx
      exact Or.inl ⟨rfl, (Option.some.inj hx).symm⟩
    · rw [List.getElem?_set_ne (Ne.symm hk)] at hx
      exact Or.inr ⟨hk, hx⟩
  refine
    { ok := ?_, chan := ?_, succ := ?_, nchan := ?_, posted := ?_, log := ?_
      pos := by simpa using inv.pos }
  · intro k x hx
    rcases hget k x hx with ⟨rfl, rfl⟩ | ⟨_, hx0⟩
    · exact hok
    · exact inv.ok k x hx0
  · intro k x hx hr
    show ∃ ch, chans1[k]? = some ch ∧ ChanInv c ch x.put x.wheld x.widx
      (readerAt (s.threads.set i q) (k + 1)).got (readerAt (s.threads.set i q) (k + 1)).held
      (readerAt (s.threads.set i q) (k + 1)).idx
    rcases hget k x hx with ⟨rfl, rfl⟩ | ⟨hk, hx0⟩
    · rw [readerAt_set_ne _ _ (by omega)]
      obtain ⟨ch, hch, hci⟩ := inv.chan k t ht (by rw [← howner]; exact hr)
      exact hout ch _ hch hci
    · obtain ⟨ch, hch, hci⟩ := inv.chan k x hx0 hr
      by_cases hk1 : k + 1 = i
      · subst hk1
        rw [readerAt_of (getElem?_set_self_of ht)]
        rw [readerAt_of ht] at hci
        exact hin k x ch rfl hx0 hch hci
      · rw [readerAt_set_ne _ _ (Ne.symm hk1), hother k hk hk1]
        exact ⟨ch, hch, hci⟩
  · intro k x hx
    show match x.created with
      | none => (s.threads.set i q).length = k + 1
      | some r => ∃ u, (s.threads.set i q)[k + 1]? = some u ∧ u.routine = some r
    rw [List.length_set]
    have key : ∀ y, s.threads[k]? = some y → x.created = y.created →
        match x.created with
        | none => s.threads.length = k + 1
        | some r => ∃ u, (s.threads.set i q)[k + 1]? = some u ∧ u.routine = some r := by
      intro y hy hxy
      have := inv.succ k y hy
      rw [← hxy] at this
      cases hc : x.created with
      | none => simpa [hc] using this
      | some r =>
        simp only [hc] at this ⊢
        obtain ⟨u, hu, hur⟩ := this
        by_cases hk1 : k + 1 = i
        · subst hk1
          refine ⟨q, getElem?_set_self_of ht, ?_⟩
          rw [ht] at hu
          cases hu
          rw [hroutine, hur]
        · exact ⟨u, by rw [List.getElem?_set_ne (Ne.symm hk1)]; exact hu, hur⟩
    rcases hget k x hx with ⟨rfl, rfl⟩ | ⟨_, hx0⟩
    · exact key t ht hcreated
    · exact key x hx0 rfl
  · intro k hk
    show ∃ x, (s.threads.set i q)[k]? = some x ∧ x.owner = true
    obtain ⟨x, hx, hxo⟩ := inv.nchan k (by rw [← hlen]; exact hk)
    by_cases hki : k = i
    · subst hki
      rw [ht] at hx
      cases hx
      exact ⟨q, getElem?_set_self_of ht, by rw [howner]; exact hxo⟩
    · exact ⟨x, by rw [List.getElem?_set_ne (Ne.symm hki)]; exact hx, hxo⟩
  · show sorted1 = ((s.threads.set i q).map Thread.posted).sum
    have h1 := sum_map_set Thread.posted (b := q) ht
    have h2 := inv.posted
    omega
  · show s.created = ((s.threads.set i q).tail.map fun t => t.routine.getD .comparator).enum
    rw [List.map_tail, map_set_of_eq _ ht (by rw [hroutine]), ← List.map_tail]
    exact inv.log

/-! ## The invariant under a step that creates a thread -/

theorem owner_of_created {t : Thread} (h : t.created ≠ none) : t.owner = true := by
  cases t with
  | generator g => rfl
  | comparator x => rfl
  | output o => exact absurd rfl h
  | entry r p => exact absurd rfl h

/-- A step of thread `i` that creates a thread, as `Sys.spawn` performs it. -/
theorem Inv.spawn {c : Nat} {rands : List Int} {s : Sys} (inv : Inv c rands s) {i : Nat}
    {t q : Thread} (ht : s.threads[i]? = some t) (chans1 : List Channel) (r : Routine)
    (hok : q.Ok rands i) (hroutine : q.routine = t.routine) (howner : q.owner = t.owner)
    (hprod : t.owner = true)
    (hnone : t.created = none) (hcreated : q.created = some r)
    (hposted : q.posted = t.posted)
    (hput : q.put = t.put) (hwheld : q.wheld = t.wheld) (hwidx : q.widx = t.widx)
    (hlen : chans1.length = s.chans.length)
    (hin : ∀ j u ch, j + 1 = i → s.threads[j]? = some u → s.chans[j]? = some ch →
      ChanInv c ch u.put u.wheld u.widx t.reader.got t.reader.held t.reader.idx →
      ∃ ch1, chans1[j]? = some ch1 ∧
        ChanInv c ch1 u.put u.wheld u.widx q.reader.got q.reader.held q.reader.idx)
    (hsame : ∀ j, j + 1 ≠ i → chans1[j]? = s.chans[j]?) :
    Inv c rands
      (Sys.spawn { s with threads := s.threads.set i q, chans := chans1 } i (some r)) := by
  show Inv c rands
    { threads := s.threads.set i q ++ [.entry r i], chans := chans1, sorted := s.sorted,
      created := s.created ++ [(i, r)] }
  have hi : i < s.threads.length := lt_of_getElem?_eq_some ht
  have htl : s.threads.length = i + 1 := by
    have := inv.succ i t ht
    simpa [hnone] using this
  obtain ⟨ch0, hch0, hci0⟩ := inv.chan i t ht hprod
  have hsetlen : (s.threads.set i q).length = i + 1 := by rw [List.length_set, htl]
  have hlow : ∀ k, k ≤ i →
      (s.threads.set i q ++ [Thread.entry r i])[k]? = (s.threads.set i q)[k]? := by
    intro k hk
    exact List.getElem?_append_left (by omega)
  have hnew : (s.threads.set i q ++ [Thread.entry r i])[i + 1]? = some (.entry r i) := by
    rw [← hsetlen]
    exact List.getElem?_concat_length _ _
  have hget : ∀ k x, (s.threads.set i q ++ [Thread.entry r i])[k]? = some x →
      (k = i ∧ x = q) ∨ (k = i + 1 ∧ x = .entry r i) ∨ (k < i ∧ s.threads[k]? = some x) := by
    intro k x hx
    have hklt := lt_of_getElem?_eq_some hx
    simp only [List.length_append, hsetlen, List.length_singleton] at hklt
    by_cases hk : k = i
    · subst hk
      rw [hlow k (le_refl _), getElem?_set_self_of ht] at hx
      exact Or.inl ⟨rfl, (Option.some.inj hx).symm⟩
    · by_cases hk1 : k = i + 1
      · subst hk1
        rw [hnew] at hx
        exact Or.inr (Or.inl ⟨rfl, (Option.some.inj hx).symm⟩)
      · rw [hlow k (by omega), List.getElem?_set_ne (Ne.symm hk)] at hx
        exact Or.inr (Or.inr ⟨by omega, hx⟩)
  have hreader_low : ∀ k, k ≤ i →
      readerAt (s.threads.set i q ++ [Thread.entry r i]) k = readerAt (s.threads.set i q) k := by
    intro k hk
    simp only [readerAt, hlow k hk]
  refine
    { ok := ?_, chan := ?_, succ := ?_, nchan := ?_, posted := ?_, log := ?_
      pos := by simp }
  · intro k x hx
    rcases hget k x hx with ⟨rfl, rfl⟩ | ⟨rfl, rfl⟩ | ⟨_, hx0⟩
    · exact hok
    · exact rfl
    · exact inv.ok k x hx0
  · intro k x hx hr
    show ∃ ch, chans1[k]? = some ch ∧ ChanInv c ch x.put x.wheld x.widx
      (readerAt (s.threads.set i q ++ [Thread.entry r i]) (k + 1)).got
      (readerAt (s.threads.set i q ++ [Thread.entry r i]) (k + 1)).held
      (readerAt (s.threads.set i q ++ [Thread.entry r i]) (k + 1)).idx
    rcases hget k x hx with ⟨rfl, rfl⟩ | ⟨rfl, rfl⟩ | ⟨hk, hx0⟩
    · rw [readerAt_of hnew, hsame k (by omega), hput, hwheld, hwidx]
      rw [readerAt_none (by omega)] at hci0
      exact ⟨ch0, hch0, hci0⟩
    · exact absurd hr (by simp [Thread.owner])
    · obtain ⟨ch, hch, hci⟩ := inv.chan k x hx0 hr
      rw [hreader_low (k + 1) (by omega)]
      by_cases hk1 : k + 1 = i
      · subst hk1
        rw [readerAt_of (getElem?_set_self_of ht)]
        rw [readerAt_of ht] at hci
        exact hin k x ch rfl hx0 hch hci
      · rw [readerAt_set_ne _ _ (Ne.symm hk1), hsame k hk1]
        exact ⟨ch, hch, hci⟩
  · intro k x hx
    show match x.created with
      | none => (s.threads.set i q ++ [Thread.entry r i]).length = k + 1
      | some r1 =>
        ∃ u, (s.threads.set i q ++ [Thread.entry r i])[k + 1]? = some u ∧ u.routine = some r1
    rcases hget k x hx with ⟨rfl, rfl⟩ | ⟨rfl, rfl⟩ | ⟨hk, hx0⟩
    · simp only [hcreated]
      exact ⟨_, hnew, rfl⟩
    · simp [Thread.created, hsetlen]
    · have := inv.succ k x hx0
      cases hc : x.created with
      | none =>
        simp only [hc] at this
        omega
      | some r1 =>
        simp only [hc] at this ⊢
        obtain ⟨u, hu, hur⟩ := this
        rw [hlow (k + 1) (by omega)]
        by_cases hk1 : k + 1 = i
        · subst hk1
          refine ⟨q, getElem?_set_self_of ht, ?_⟩
          rw [ht] at hu
          cases hu
          rw [hroutine, hur]
        · exact ⟨u, by rw [List.getElem?_set_ne (Ne.symm hk1)]; exact hu, hur⟩
  · intro k hk
    show ∃ x, (s.threads.set i q ++ [Thread.entry r i])[k]? = some x ∧ x.owner = true
    obtain ⟨x, hx, hxo⟩ := inv.nchan k (by rw [← hlen]; exact hk)
    have hki := lt_of_getElem?_eq_some hx
    rw [hlow k (by omega)]
    by_cases hk0 : k = i
    · subst hk0
      rw [ht] at hx
      cases hx
      exact ⟨q, getElem?_set_self_of ht, by rw [howner]; exact hxo⟩
    · exact ⟨x, by rw [List.getElem?_set_ne (Ne.symm hk0)]; exact hx, hxo⟩
  · show s.sorted = ((s.threads.set i q ++ [Thread.entry r i]).map Thread.posted).sum
    have h1 := sum_map_set Thread.posted (b := q) ht
    have h2 := inv.posted
    simp only [List.map_append, List.sum_append, List.map_cons, List.map_nil, List.sum_cons,
      List.sum_nil, Thread.posted]
    omega
  · show s.created ++ [(i, r)] =
      ((s.threads.set i q ++ [Thread.entry r i]).tail.map
        fun t => t.routine.getD .comparator).enum
    have hne : s.threads.set i q ≠ [] := by
      intro h
      rw [h] at hsetlen
      simp at hsetlen
    rw [List.tail_append_of_ne_nil hne, List.map_append, List.enum_append, List.map_tail,
      map_set_of_eq _ ht (by rw [hroutine]), ← List.map_tail, ← inv.log]
    simp [Thread.routine, htl]

/-! ## The invariant under the first step of a created thread -/

/-- The creator of a thread that has not run yet: the thread before it, which owns a channel. -/
theorem entry_creator {c : Nat} {rands : List Int} {s : Sys} (inv : Inv c rands s) {j : Nat}
    {r : Routine} {p : Nat} (ht : s.threads[j]? = some (.entry r p)) :
    p + 1 = j ∧ s.threads.length = j + 1 ∧ s.chans.length = j ∧
      ∃ u, s.threads[p]? = some u ∧ u.owner = true ∧ u.params_next = p ∧
        u.created = some r := by
  have hpj : p + 1 = j := inv.ok j _ ht
  subst hpj
  have htl : s.threads.length = p + 1 + 1 := by
    have := inv.succ _ _ ht
    simpa [Thread.created] using this
  have hp : s.threads[p]? = some s.threads[p] := List.getElem?_eq_getElem (by omega)
  have hsucc := inv.succ p _ hp
  have hcr : s.threads[p].created = some r := by
    cases hc : s.threads[p].created with
    | none =>
      simp only [hc] at hsucc
      omega
    | some r1 =>
      simp only [hc] at hsucc
      obtain ⟨u, hu, hur⟩ := hsucc
      rw [ht] at hu
      cases hu
      simpa [Thread.routine] using hur.symm
  have hown : s.threads[p].owner = true := owner_of_created (by rw [hcr]; simp)
  obtain ⟨ch, hch, _⟩ := inv.chan p _ hp hown
  have h1 := lt_of_getElem?_eq_some hch
  have h2 : ¬ p + 1 < s.chans.length := by
    intro hlt
    obtain ⟨x, hx, hxo⟩ := inv.nchan _ hlt
    rw [ht] at hx
    cases hx
    simp [Thread.owner] at hxo
  refine ⟨rfl, htl, by omega, _, hp, hown, ?_, hcr⟩
  have hok := inv.ok p _ hp
  generalize s.threads[p] = u at hok hown
  cases u with
  | generator g => exact hok.2.1.trans hok.1.symm
  | comparator x => exact hok.2.1
  | output o => simp [Thread.owner] at hown
  | entry r1 p1 => simp [Thread.owner] at hown

/-- The first step of a created thread `j`: it becomes `q`, and `e` is the channel it allocates
if it is a comparator. -/
theorem Inv.start {c : Nat} {rands : List Int} {s : Sys} (inv : Inv c rands s) {j : Nat}
    {r : Routine} {p : Nat} (ht : s.threads[j]? = some (.entry r p)) (q : Thread)
    (e : List Channel) (hok : q.Ok rands j) (hroutine : q.routine = some r)
    (hcreated : q.created = none) (hposted : q.posted = 0)
    (hreader : q.reader = { got := [], held := false, idx := 0 })
    (howner : q.owner = true →
      ∃ ch, e = [ch] ∧ ChanInv c ch q.put q.wheld q.widx [] false 0)
    (hnot : q.owner = false → e = []) :
    Inv c rands { s with threads := s.threads.set j q, chans := s.chans ++ e } := by
  obtain ⟨hpj, htl, hcl, _⟩ := entry_creator inv ht
  have hget : ∀ k x, (s.threads.set j q)[k]? = some x →
      (k = j ∧ x = q) ∨ (k ≠ j ∧ s.threads[k]? = some x) := by
    intro k x hx
    by_cases hk : k = j
    · subst hk
      rw [getElem?_set_self_of ht] at hx
      exact Or.inl ⟨rfl, (Option.some.inj hx).symm⟩
    · rw [List.getElem?_set_ne (Ne.symm hk)] at hx
      exact Or.inr ⟨hk, hx⟩
  have hrd : ∀ k, readerAt (s.threads.set j q) k = readerAt s.threads k := by
    intro k
    by_cases hk : k = j
    · subst hk
      rw [readerAt_of (getElem?_set_self_of ht), readerAt_of ht, hreader]
      rfl
    · exact readerAt_set_ne _ _ (Ne.symm hk)
  refine
    { ok := ?_, chan := ?_, succ := ?_, nchan := ?_, posted := ?_, log := ?_
      pos := by simpa using inv.pos }
  · intro k x hx
    rcases hget k x hx with ⟨rfl, rfl⟩ | ⟨_, hx0⟩
    · exact hok
    · exact inv.ok k x hx0
  · intro k x hx hr
    show ∃ ch, (s.chans ++ e)[k]? = some ch ∧ ChanInv c ch x.put x.wheld x.widx
      (readerAt (s.threads.set j q) (k + 1)).got (readerAt (s.threads.set j q) (k + 1)).held
      (readerAt (s.threads.set j q) (k + 1)).idx
    rw [hrd]
    rcases hget k x hx with ⟨rfl, rfl⟩ | ⟨hk, hx0⟩
    · obtain ⟨ch, rfl, hci⟩ := howner hr
      refine ⟨ch, ?_, ?_⟩
      · rw [List.getElem?_append_right (by omega)]
        simp [hcl]
      · rw [readerAt_none (by omega)]
        exact hci
    · obtain ⟨ch, hch, hci⟩ := inv.chan k x hx0 hr
      exact ⟨ch, by rw [List.getElem?_append_left (lt_of_getElem?_eq_some hch)]; exact hch, hci⟩
  · intro k x hx
    show match x.created with
      | none => (s.threads.set j q).length = k + 1
      | some r1 => ∃ u, (s.threads.set j q)[k + 1]? = some u ∧ u.routine = some r1
    rw [List.length_set]
    rcases hget k x hx with ⟨rfl, rfl⟩ | ⟨hk, hx0⟩
    · simp only [hcreated]
      exact htl
    · have := inv.succ k x hx0
      cases hc : x.created with
      | none => simpa [hc] using this
      | some r1 =>
        simp only [hc] at this ⊢
        obtain ⟨u, hu, hur⟩ := this
        by_cases hk1 : k + 1 = j
        · subst hk1
          refine ⟨q, getElem?_set_self_of ht, ?_⟩
          rw [ht] at hu
          cases hu
          rw [hroutine, ← hur]
          rfl
        · exact ⟨u, by rw [List.getElem?_set_ne (Ne.symm hk1)]; exact hu, hur⟩
  · intro k hk
    show ∃ x, (s.threads.set j q)[k]? = some x ∧ x.owner = true
    by_cases hkl : k < s.chans.length
    · obtain ⟨x, hx, hxo⟩ := inv.nchan k hkl
      exact ⟨x, by rw [List.getElem?_set_ne (by omega)]; exact hx, hxo⟩
    · cases ho : q.owner with
      | false =>
        rw [hnot ho] at hk
        simp at hk
        omega
      | true =>
        obtain ⟨ch, rfl, _⟩ := howner ho
        simp only [List.length_append, List.length_singleton] at hk
        have hkj : k = j := by omega
        subst hkj
        exact ⟨q, getElem?_set_self_of ht, ho⟩
  · show s.sorted = ((s.threads.set j q).map Thread.posted).sum
    have h1 := sum_map_set Thread.posted (b := q) ht
    have h2 := inv.posted
    have h3 : (Thread.entry r p).posted = 0 := rfl
    rw [h3, hposted] at h1
    omega
  · show s.created = ((s.threads.set j q).tail.map fun t => t.routine.getD .comparator).enum
    rw [List.map_tail, map_set_of_eq _ ht (by rw [hroutine]; rfl), ← List.map_tail]
    exact inv.log

/-! ## The invariant holds initially and is kept by every step -/

theorem inv_init (c : Nat) (rands : List Int) : Inv c rands (Sys.init c rands) := by
  refine
    { ok := ?_, chan := ?_, succ := ?_, nchan := ?_, posted := ?_, log := ?_
      pos := by simp [Sys.init] }
  · intro i t ht
    cases i with
    | zero =>
      simp only [Sys.init, List.getElem?_cons_zero, Option.some.injEq] at ht
      subst ht
      simp [Thread.Ok, Generator.init, List.replicate]
    | succ i => simp [Sys.init] at ht
  · intro i t ht _
    cases i with
    | zero =>
      simp only [Sys.init, List.getElem?_cons_zero, Option.some.injEq] at ht
      subst ht
      refine ⟨newChannel c, rfl, ?_⟩
      simpa [readerAt, Sys.init, Thread.put, Thread.wheld, Thread.widx, Generator.init]
        using chanInv_new c
    | succ i => simp [Sys.init] at ht
  · intro i t ht
    cases i with
    | zero =>
      simp only [Sys.init, List.getElem?_cons_zero, Option.some.injEq] at ht
      subst ht
      simp [Thread.created, Generator.init, Sys.init]
    | succ i => simp [Sys.init] at ht
  · intro i hi
    have hi0 : i = 0 := by simpa [Sys.init] using hi
    subst hi0
    exact ⟨_, rfl, rfl⟩
  · simp [Sys.init, Thread.posted]
  · simp [Sys.init]

theorem chans_set_in {chans : List Channel} {k : Nat} {ch ch1 : Channel}
    (h : chans[k]? = some ch) : (chans.set k ch1)[k]? = some ch1 :=
  getElem?_set_self_of h

theorem replicate_ends {n : Nat} (h : 1 ≤ n) :
    List.replicate n (-1 : Int) = -1 :: List.replicate (n - 1) (-1) := by
  obtain ⟨m, rfl⟩ : ∃ m, n = m + 1 := ⟨n - 1, by omega⟩
  rfl

theorem inv_stepGenerator {c : Nat} {rands : List Int} {s s1 : Sys} (inv : Inv c rands s)
    {i : Nat} {g : Generator} (ht : s.threads[i]? = some (.generator g))
    (h : stepGenerator c s i g = some s1) : Inv c rands s1 := by
  obtain ⟨hi0, hout0, hput, hdone, hends⟩ := inv.ok i _ ht
  obtain ⟨pc, rs, ends, outp, next_in, put⟩ := g
  simp only at hi0 hout0 hput hdone hends
  subst hi0 hout0
  unfold stepGenerator at h
  cases pc with
  | start =>
    simp only [Option.some.injEq] at h
    subst h
    refine inv.spawn ht s.chans .comparator (q := .generator ⟨.wait, rs, ends, 0, next_in, put⟩)
      ?_ rfl rfl rfl ?_ ?_ rfl rfl ?_ rfl rfl ?_ ?_
    · exact ⟨rfl, rfl, hput, by simp, fun _ => hends (by simp)⟩
    · simp [Thread.created]
    · simp [Thread.created]
    · simp [Thread.wheld]
    · intro j u ch hj
      omega
    · intro j _
      rfl
  | wait =>
    simp only at h
    cases hch : s.chans[0]? with
    | none => simp [hch] at h
    | some ch =>
      simp only [hch] at h
      cases hw : waitEmpty ch with
      | none => simp [hw] at h
      | some ch1 =>
        simp only [hw, Option.some.injEq] at h
        subst h
        refine inv.update ht (s.chans.set 0 ch1) s.sorted
          (q := .generator ⟨.write, rs, ends, 0, next_in, put⟩) ?_ rfl rfl ?_ rfl (by simp) ?_ ?_ ?_
        · exact ⟨rfl, rfl, hput, by simp, fun _ => hends (by simp)⟩
        · simp [Thread.created]
        · intro j u ch hj
          omega
        · intro ch2 r hch2 hci
          rw [hch] at hch2
          cases hch2
          refine ⟨ch1, chans_set_in hch, ?_⟩
          have hci1 : ChanInv c ch put false next_in r.got r.held r.idx := by
            simpa [Thread.put, Thread.wheld, Thread.widx] using hci
          simpa [Thread.put, Thread.wheld, Thread.widx] using chanInv_waitEmpty hci1 hw
        · intro j hj _
          exact List.getElem?_set_ne (Ne.symm hj)
  | write =>
    simp only at h
    cases hch : s.chans[0]? with
    | none => simp [hch] at h
    | some ch =>
      simp only [hch, Option.some.injEq] at h
      subst h
      have he : 1 ≤ ends := hends (by simp)
      cases rs with
      | nil =>
        simp only [List.nil_append] at hput
        simp only [Generator.advance, Generator.value]
        refine inv.update ht _ s.sorted ?_ rfl rfl ?_ rfl (by simp) ?_ ?_ ?_
        · refine ⟨rfl, rfl, ?_, ?_, ?_⟩
          · show (put ++ [-1]) ++ ([] ++ List.replicate (ends - 1) (-1)) = rands ++ [-1, -1]
            rw [← hput, replicate_ends he]
            simp
          · intro hd
            simp only at hd
            split at hd
            · rename_i h0
              exact ⟨rfl, h0⟩
            · cases hd
          · intro _
            show 1 ≤ ends - 1
            by_cases h0 : ends - 1 = 0
            · simp [h0] at *
            · omega
        · simp only [Thread.created]
          split <;> simp
        · intro j u ch hj
          omega
        · intro ch2 r hch2 hci
          rw [hch] at hch2
          cases hch2
          refine ⟨_, chans_set_in hch, ?_⟩
          have hci1 : ChanInv c ch put true next_in r.got r.held r.idx := by
            simpa [Thread.put, Thread.wheld, Thread.widx] using hci
          have hnew := chanInv_writeSlot hci1 (-1)
          simp only [Thread.put, Thread.wheld, Thread.widx]
          split <;> simpa using hnew
        · intro j hj _
          exact List.getElem?_set_ne (Ne.symm hj)
      | cons v rs =>
        simp only [Generator.advance, Generator.value]
        refine inv.update ht _ s.sorted ?_ rfl rfl ?_ rfl (by simp) ?_ ?_ ?_
        · refine ⟨rfl, rfl, ?_, by simp, fun _ => he⟩
          show (put ++ [v]) ++ (rs ++ List.replicate ends (-1)) = rands ++ [-1, -1]
          rw [← hput]
          simp
        · simp [Thread.created]
        · intro j u ch hj
          omega
        · intro ch2 r hch2 hci
          rw [hch] at hch2
          cases hch2
          refine ⟨_, chans_set_in hch, ?_⟩
          have hci1 : ChanInv c ch put true next_in r.got r.held r.idx := by
            simpa [Thread.put, Thread.wheld, Thread.widx] using hci
          simpa [Thread.put, Thread.wheld, Thread.widx] using chanInv_writeSlot hci1 v
        · intro j hj _
          exact List.getElem?_set_ne (Ne.symm hj)
  | done => simp at h

@[simp] theorem pend_after (vs : List Int) (b : Bool) : (Pc.after vs b).pend = vs := by
  cases vs with
  | nil => cases b <;> simp [Pc.after, Pc.pend]
  | cons v vs => rfl

theorem pcOk_after (vs : List Int) (b : Bool) (h : vs = [] → True) : PcOk (Pc.after vs b) b := by
  cases vs with
  | nil => cases b <;> simp [Pc.after, PcOk]
  | cons v vs => simp [Pc.after, PcOk]

@[simp] theorem wheld_after (inp outp ro wi : Nat) (sn : Int) (st : State) (vs : List Int)
    (b : Bool) (got put : List Int) :
    (Thread.comparator ⟨inp, outp, ro, wi, sn, st, Pc.after vs b, got, put⟩).wheld = false := by
  cases vs with
  | nil => cases b <;> simp [Pc.after, Thread.wheld]
  | cons v vs => simp [Pc.after, Thread.wheld]

@[simp] theorem rheld_after (inp outp ro wi : Nat) (sn : Int) (st : State) (vs : List Int)
    (b : Bool) (got put : List Int) :
    (Thread.comparator ⟨inp, outp, ro, wi, sn, st, Pc.after vs b, got, put⟩).rheld = false := by
  cases vs with
  | nil => cases b <;> simp [Pc.after, Thread.rheld]
  | cons v vs => simp [Pc.after, Thread.rheld]

theorem body_create {st : State} {h v : Int} {r : Routine}
    (hc : (comparator_body st h v).create = some r) : st = .COMPARE_NO_THREAD := by
  cases st with
  | INITIAL => simp [comparator_body] at hc
  | COMPARE_NO_THREAD => rfl
  | COMPARE =>
    by_cases hv : v = -1 <;> by_cases hlt : h > v <;> simp [comparator_body, hv, hlt] at hc
  | END => simp [comparator_body] at hc

theorem next_eq_body {t : Trace} (hb : t.brk = false) (v : Int) :
    t.next v =
      { state := (comparator_body t.state t.stored_number v).state
        stored_number := (comparator_body t.state t.stored_number v).stored_number
        sent := t.sent ++ (comparator_body t.state t.stored_number v).sends
        created :=
          if (comparator_body t.state t.stored_number v).create.isSome then
            (comparator_body t.state t.stored_number v).create
          else t.created
        brk := (comparator_body t.state t.stored_number v).brk } := by
  simp [Trace.next, hb]

theorem inv_stepComparator {c : Nat} {rands : List Int} {s s1 : Sys} (inv : Inv c rands s)
    {i : Nat} {x : Comparator} (ht : s.threads[i]? = some (.comparator x))
    (h : stepComparator c s i x = some s1) : Inv c rands s1 := by
  obtain ⟨hinp, houtp, hstate, hstored, hsent, hpc⟩ := inv.ok i _ ht
  obtain ⟨inp, outp, read_out, write_in, stored, state, pc, got, put⟩ := x
  simp only at hinp houtp hstate hstored hsent hpc
  subst hinp houtp
  unfold stepComparator at h
  cases pc with
  | recv =>
    simp only at h
    cases hch : s.chans[inp]? with
    | none => simp [hch] at h
    | some ch =>
      simp only [hch] at h
      cases hw : waitFull ch with
      | none => simp [hw] at h
      | some ch1 =>
        simp only [hw, Option.some.injEq] at h
        subst h
        refine inv.update ht (s.chans.set inp ch1) s.sorted
          (q := .comparator ⟨inp, inp + 1, read_out, write_in, stored, state, .read, got, put⟩)
          ?_ rfl rfl rfl rfl (by simp) ?_ ?_ ?_
        · exact ⟨rfl, rfl, hstate, hstored, hsent, hpc⟩
        · intro j u ch0 hj _ hch0 hci
          have hj0 : j = inp := by omega
          subst hj0
          rw [hch] at hch0
          cases hch0
          refine ⟨ch1, chans_set_in hch, ?_⟩
          have hci1 : ChanInv c ch u.put u.wheld u.widx got false read_out := by
            simpa [Thread.reader, Thread.got, Thread.rheld, Thread.ridx] using hci
          simpa [Thread.reader, Thread.got, Thread.rheld, Thread.ridx]
            using chanInv_waitFull hci1 hw
        · intro ch2 r hch2 hci
          exact ⟨ch2, by rw [List.getElem?_set_ne (by omega)]; exact hch2, hci⟩
        · intro j _ hj
          exact List.getElem?_set_ne (by omega)
  | read =>
    simp only at h
    cases hch : s.chans[inp]? with
    | none => simp [hch] at h
    | some ch =>
      simp only [hch, Option.some.injEq] at h
      subst h
      have hb : (comparator_loop Trace.init got).brk = false := hpc
      have hnext := next_eq_body hb (readSlot c ch read_out).1
      rw [← hstate, ← hstored] at hnext
      have hok1 : (Thread.comparator
          ⟨inp, inp + 1, (readSlot c ch read_out).2.2, write_in,
            (comparator_body state stored (readSlot c ch read_out).1).stored_number,
            (comparator_body state stored (readSlot c ch read_out).1).state,
            Pc.after (comparator_body state stored (readSlot c ch read_out).1).sends
              (comparator_body state stored (readSlot c ch read_out).1).brk,
            got ++ [(readSlot c ch read_out).1], put⟩).Ok rands (inp + 1) := by
        refine ⟨rfl, rfl, ?_, ?_, ?_, ?_⟩
        · simp only [comparator_loop_snoc, hnext]
        · simp only [comparator_loop_snoc, hnext]
        · simp only [comparator_loop_snoc, hnext, pend_after]
          rw [← hsent]
          simp [Pc.pend]
        · simp only [comparator_loop_snoc, hnext]
          exact pcOk_after _ _ (fun _ => trivial)
      have hin : ∀ j u ch0, j + 1 = inp + 1 → s.threads[j]? = some u → s.chans[j]? = some ch0 →
          ChanInv c ch0 u.put u.wheld u.widx
            (Thread.comparator ⟨inp, inp + 1, read_out, write_in, stored, state, .read, got,
              put⟩).reader.got
            (Thread.comparator ⟨inp, inp + 1, read_out, write_in, stored, state, .read, got,
              put⟩).reader.held
            (Thread.comparator ⟨inp, inp + 1, read_out, write_in, stored, state, .read, got,
              put⟩).reader.idx →
          ∃ ch1, (s.chans.set inp (readSlot c ch read_out).2.1)[j]? = some ch1 ∧
            ChanInv c ch1 u.put u.wheld u.widx (got ++ [(readSlot c ch read_out).1]) false
              (readSlot c ch read_out).2.2 := by
        intro j u ch0 hj _ hch0 hci
        have hj0 : j = inp := by omega
        subst hj0
        rw [hch] at hch0
        cases hch0
        refine ⟨_, chans_set_in hch, ?_⟩
        have hci1 : ChanInv c ch u.put u.wheld u.widx got true read_out := by
          simpa [Thread.reader, Thread.got, Thread.rheld, Thread.ridx] using hci
        exact (chanInv_readSlot hci1).2.2
      cases hcr : (comparator_body state stored (readSlot c ch read_out).1).create with
      | none =>
        simp only [Sys.spawn]
        refine inv.update ht _ s.sorted hok1 rfl rfl ?_ rfl (by simp) ?_ ?_ ?_
        · simp only [Thread.created, comparator_loop_snoc, hnext, hcr]
          simp
        · intro j u ch0 hj hu hch0 hci
          simp only [Thread.reader, rheld_after]
          exact hin j u ch0 hj hu hch0 hci
        · intro ch2 r hch2 hci
          refine ⟨ch2, by rw [List.getElem?_set_ne (by omega)]; exact hch2, ?_⟩
          simp only [wheld_after]
          exact hci
        · intro j _ hj
          exact List.getElem?_set_ne (by omega)
      | some r =>
        have hst : state = .COMPARE_NO_THREAD := body_create hcr
        have hnone : (comparator_loop Trace.init got).created = none :=
          (traceWf_run got).created_iff.mpr (Or.inr (hstate ▸ hst))
        refine inv.spawn ht _ r hok1 rfl rfl rfl hnone ?_ rfl rfl ?_ rfl
          (by simp) ?_ ?_
        · simp only [Thread.created, comparator_loop_snoc, hnext, hcr]
          simp
        · simp only [wheld_after]
          rfl
        · intro j u ch0 hj hu hch0 hci
          simp only [Thread.reader, rheld_after]
          exact hin j u ch0 hj hu hch0 hci
        · intro j hj
          exact List.getElem?_set_ne (by omega)
  | send vs b =>
    simp only at h
    cases hch : s.chans[inp + 1]? with
    | none => simp [hch] at h
    | some ch =>
      simp only [hch] at h
      cases hw : waitEmpty ch with
      | none => simp [hw] at h
      | some ch1 =>
        simp only [hw, Option.some.injEq] at h
        subst h
        refine inv.update ht (s.chans.set (inp + 1) ch1) s.sorted
          (q := .comparator
            ⟨inp, inp + 1, read_out, write_in, stored, state, .write vs b, got, put⟩)
          ?_ rfl rfl rfl rfl (by simp) ?_ ?_ ?_
        · exact ⟨rfl, rfl, hstate, hstored, hsent, hpc⟩
        · intro j u ch0 hj _ hch0 hci
          refine ⟨ch0, by rw [List.getElem?_set_ne (by omega)]; exact hch0, ?_⟩
          simpa [Thread.reader, Thread.got, Thread.rheld, Thread.ridx] using hci
        · intro ch2 r hch2 hci
          rw [hch] at hch2
          cases hch2
          refine ⟨ch1, chans_set_in hch, ?_⟩
          have hci1 : ChanInv c ch put false write_in r.got r.held r.idx := by
            simpa [Thread.put, Thread.wheld, Thread.widx] using hci
          simpa [Thread.put, Thread.wheld, Thread.widx] using chanInv_waitEmpty hci1 hw
        · intro j hj _
          exact List.getElem?_set_ne (Ne.symm hj)
  | write vs b =>
    simp only at h
    cases vs with
    | nil => simp at h
    | cons v rest =>
      cases hch : s.chans[inp + 1]? with
      | none => simp [hch] at h
      | some ch =>
        simp only [hch, Option.some.injEq] at h
        subst h
        refine inv.update ht _ s.sorted ?_ rfl rfl rfl rfl (by simp) ?_ ?_ ?_
        · refine ⟨rfl, rfl, hstate, hstored, ?_, ?_⟩
          · simp only [pend_after]
            rw [← hsent]
            simp [Pc.pend]
          · have hb : b = (comparator_loop Trace.init got).brk := hpc.2
            rw [← hb]
            exact pcOk_after _ _ (fun _ => trivial)
        · intro j u ch0 hj _ hch0 hci
          refine ⟨ch0, by rw [List.getElem?_set_ne (by omega)]; exact hch0, ?_⟩
          simp only [Thread.reader, rheld_after]
          simpa [Thread.reader, Thread.got, Thread.rheld, Thread.ridx] using hci
        · intro ch2 r hch2 hci
          rw [hch] at hch2
          cases hch2
          refine ⟨_, chans_set_in hch, ?_⟩
          have hci1 : ChanInv c ch put true write_in r.got r.held r.idx := by
            simpa [Thread.put, Thread.wheld, Thread.widx] using hci
          simp only [wheld_after]
          exact chanInv_writeSlot hci1 v
        · intro j hj _
          exact List.getElem?_set_ne (Ne.symm hj)
  | done => simp at h

theorem output_loop_snoc (o : OutVars) (vs : List Int) (v : Int) :
    output_loop o (vs ++ [v]) =
      if (output_loop o vs).2 then output_loop o vs else output_body (output_loop o vs).1 v := by
  induction vs generalizing o with
  | nil =>
    simp only [List.nil_append, output_loop, Bool.false_eq_true, ↓reduceIte]
    cases h : (output_body o v).2 with
    | true => simp [← h]
    | false => simp [← h]
  | cons w vs ih =>
    simp only [List.cons_append, output_loop]
    cases h : (output_body o w).2 with
    | true => simp
    | false => simpa using ih (output_body o w).1

theorem inv_stepOutput {c : Nat} {rands : List Int} {s s1 : Sys} (inv : Inv c rands s)
    {i : Nat} {o : Output} (ht : s.threads[i]? = some (.output o))
    (h : stepOutput c s i o = some s1) : Inv c rands s1 := by
  obtain ⟨hinp, hloop⟩ := inv.ok i _ ht
  obtain ⟨inp, read_out, vars, pc, got⟩ := o
  simp only at hinp hloop
  subst hinp
  unfold stepOutput at h
  cases pc with
  | recv =>
    simp only at h
    cases hch : s.chans[inp]? with
    | none => simp [hch] at h
    | some ch =>
      simp only [hch] at h
      cases hw : waitFull ch with
      | none => simp [hw] at h
      | some ch1 =>
        simp only [hw, Option.some.injEq] at h
        subst h
        refine inv.update ht (s.chans.set inp ch1) s.sorted
          (q := .output ⟨inp, read_out, vars, .read, got⟩) ?_ rfl rfl rfl rfl (by simp) ?_ ?_ ?_
        · exact ⟨rfl, hloop⟩
        · intro j u ch0 hj _ hch0 hci
          have hj0 : j = inp := by omega
          subst hj0
          rw [hch] at hch0
          cases hch0
          refine ⟨ch1, chans_set_in hch, ?_⟩
          have hci1 : ChanInv c ch u.put u.wheld u.widx got false read_out := by
            simpa [Thread.reader, Thread.got, Thread.rheld, Thread.ridx] using hci
          simpa [Thread.reader, Thread.got, Thread.rheld, Thread.ridx]
            using chanInv_waitFull hci1 hw
        · intro ch2 r hch2 hci
          exact ⟨ch2, by rw [List.getElem?_set_ne (by omega)]; exact hch2, hci⟩
        · intro j _ hj
          exact List.getElem?_set_ne (by omega)
  | read =>
    simp only at h
    cases hch : s.chans[inp]? with
    | none => simp [hch] at h
    | some ch =>
      simp only [hch, Option.some.injEq] at h
      subst h
      have hl : output_loop OutVars.init got = (vars, false) := by simpa using hloop
      have hsnoc : output_loop OutVars.init (got ++ [(readSlot c ch read_out).1]) =
          output_body vars (readSlot c ch read_out).1 := by
        rw [output_loop_snoc, hl]
        simp
      refine inv.update ht _ _ ?_ rfl rfl rfl ?_ (by simp) ?_ ?_ ?_
      · refine ⟨rfl, ?_⟩
        rw [hsnoc]
        cases hb : (output_body vars (readSlot c ch read_out).1).2 <;> simp [← hb]
      · cases hb : (output_body vars (readSlot c ch read_out).1).2 <;>
          simp [Thread.posted, sem_post]
      · intro j u ch0 hj _ hch0 hci
        have hj0 : j = inp := by omega
        subst hj0
        rw [hch] at hch0
        cases hch0
        refine ⟨_, chans_set_in hch, ?_⟩
        have hci1 : ChanInv c ch u.put u.wheld u.widx got true read_out := by
          simpa [Thread.reader, Thread.got, Thread.rheld, Thread.ridx] using hci
        have := (chanInv_readSlot hci1).2.2
        cases hb : (output_body vars (readSlot c ch read_out).1).2 <;>
          simpa [Thread.reader, Thread.got, Thread.rheld, Thread.ridx, hb] using this
      · intro ch2 r hch2 hci
        exact ⟨ch2, by rw [List.getElem?_set_ne (by omega)]; exact hch2, hci⟩
      · intro j _ hj
        exact List.getElem?_set_ne (by omega)
  | done => simp at h

theorem inv_stepEntry {c : Nat} {rands : List Int} {s s1 : Sys} (inv : Inv c rands s)
    {i : Nat} {r : Routine} {p : Nat} (ht : s.threads[i]? = some (.entry r p))
    (h : stepEntry c s i r p = some s1) : Inv c rands s1 := by
  obtain ⟨hpi, _, hcl, u, hu, _, hnext, _⟩ := entry_creator inv ht
  subst hpi
  unfold stepEntry at h
  simp only [hu, hnext] at h
  cases hf : u.finished with
  | true => simp [hf] at h
  | false =>
    simp only [hf, Bool.false_eq_true, ↓reduceIte] at h
    cases r with
    | comparator =>
      simp only [Option.some.injEq] at h
      subst h
      refine inv.start ht _ [newChannel c] ?_ rfl rfl rfl rfl
        (fun _ => ⟨newChannel c, rfl, chanInv_new c⟩) (fun ho => by simp [Thread.owner] at ho)
      simp only [Thread.Ok, Comparator.init, comparator_loop_nil, Trace.init, Pc.pend,
        List.append_nil, PcOk, hcl, and_self]
    | output =>
      simp only [Option.some.injEq] at h
      subst h
      have := inv.start ht (.output (Output.init p)) []
        (by simp [Thread.Ok, Output.init, output_loop])
        rfl rfl rfl rfl (fun ho => by simp [Thread.owner] at ho) (fun _ => rfl)
      simpa using this

/-- Every step keeps the invariant. -/
theorem inv_step {c : Nat} {rands : List Int} {s s1 : Sys} (inv : Inv c rands s) {i : Nat}
    (h : step c s i = some s1) : Inv c rands s1 := by
  unfold step at h
  cases ht : s.threads[i]? with
  | none => simp [ht] at h
  | some t =>
    simp only [ht] at h
    cases t with
    | generator g => exact inv_stepGenerator inv ht h
    | comparator x => exact inv_stepComparator inv ht h
    | output o => exact inv_stepOutput inv ht h
    | entry r p => exact inv_stepEntry inv ht h

theorem inv_exec {c : Nat} {rands : List Int} {s s1 : Sys} (inv : Inv c rands s)
    (sched : List Nat) (h : exec c s sched = some s1) : Inv c rands s1 := by
  induction sched generalizing s with
  | nil =>
    simp only [exec, Option.some.injEq] at h
    exact h ▸ inv
  | cons i sched ih =>
    simp only [exec] at h
    cases hs : step c s i with
    | none => simp [hs] at h
    | some s2 =>
      simp only [hs] at h
      exact ih (inv_step inv hs) h

/-- Every state a schedule reaches from the initial state satisfies the invariant. -/
theorem inv_reach {c : Nat} {rands : List Int} {s : Sys} (sched : List Nat)
    (h : exec c (Sys.init c rands) sched = some s) : Inv c rands s :=
  inv_exec (inv_init c rands) sched h

/-! ## Markers -/

@[simp] theorem markers_nil : markers [] = 0 := rfl

theorem markers_append (a b : List Int) : markers (a ++ b) = markers a + markers b := by
  simp [markers]

theorem markers_snoc (a : List Int) (v : Int) :
    markers (a ++ [v]) = markers a + if v = -1 then 1 else 0 := by
  rw [markers_append]
  by_cases hv : v = -1
  · simp [markers, hv]
  · have : ¬ (-1 : Int) = v := fun h => hv h.symm
    simp [markers, hv, List.count_cons, this]

theorem markers_real {a : List Int} (h : ∀ v ∈ a, v ≠ -1) : markers a = 0 := by
  simp only [markers, List.count_eq_zero]
  intro hm
  exact h _ hm rfl

/-- The loop of a comparator is in state `END` only after a marker and is left only after
two. -/
theorem loop_markers (vs : List Int) :
    ((comparator_loop Trace.init vs).state = .END → 1 ≤ markers vs) ∧
      ((comparator_loop Trace.init vs).brk = true → 2 ≤ markers vs) := by
  induction vs using List.reverseRecOn with
  | nil => simp [Trace.init]
  | append_singleton vs v ih =>
    obtain ⟨h1, h2⟩ := ih
    rw [comparator_loop_snoc, markers_snoc]
    cases hb : (comparator_loop Trace.init vs).brk with
    | true =>
      rw [next_of_brk hb]
      exact ⟨fun h => by have := h1 h; omega, fun h => by have := h2 h; omega⟩
    | false =>
      rw [next_eq_body hb]
      cases hs : (comparator_loop Trace.init vs).state with
      | INITIAL => simp [comparator_body]
      | COMPARE_NO_THREAD =>
        by_cases hv : v = -1 <;>
          by_cases hlt : (comparator_loop Trace.init vs).stored_number > v <;>
          simp [comparator_body, hv, hlt]
      | COMPARE =>
        by_cases hv : v = -1 <;>
          by_cases hlt : (comparator_loop Trace.init vs).stored_number > v <;>
          simp [comparator_body, hv, hlt]
      | END =>
        have := h1 hs
        by_cases hv : v = -1
        · simp only [comparator_body, hv, ↓reduceIte]
          exact ⟨fun _ => by omega, fun _ => by omega⟩
        · simp [comparator_body, hv]
          omega

/-- The loop of the output thread is left only after two markers. -/
theorem output_markers (vs : List Int) :
    ((output_loop OutVars.init vs).1.state = .END → 1 ≤ markers vs) ∧
      ((output_loop OutVars.init vs).2 = true → 2 ≤ markers vs) := by
  induction vs using List.reverseRecOn with
  | nil => simp [output_loop, OutVars.init]
  | append_singleton vs v ih =>
    obtain ⟨h1, h2⟩ := ih
    rw [output_loop_snoc, markers_snoc]
    cases hb : (output_loop OutVars.init vs).2 with
    | true =>
      simp only [↓reduceIte]
      exact ⟨fun h => by have := h1 h; omega, fun h => by have := h2 hb; omega⟩
    | false =>
      simp only [Bool.false_eq_true, ↓reduceIte]
      by_cases hv : v = -1
      · by_cases hs : (output_loop OutVars.init vs).1.state = .INITIAL
        · simp [output_body, hv, hs]
        · have hE : (output_loop OutVars.init vs).1.state = .END := by
            have key : ∀ l, (output_loop OutVars.init l).1.state = .INITIAL ∨
                (output_loop OutVars.init l).1.state = .END := by
              intro l
              induction l using List.reverseRecOn with
              | nil => simp [output_loop, OutVars.init]
              | append_singleton l w ihl =>
                rw [output_loop_snoc]
                split
                · exact ihl
                · unfold output_body
                  split
                  · split
                    · exact Or.inr rfl
                    · exact ihl
                  · simpa [OutVars.real] using ihl
            rcases key vs with h | h
            · exact absurd h hs
            · exact h
          have := h1 hE
          simp only [output_body, hv, ↓reduceIte, hs]
          exact ⟨fun _ => by omega, fun _ => by omega⟩
      · simp only [output_body, hv, ↓reduceIte, OutVars.real]
        exact ⟨fun h => by have := h1 h; omega, fun h => by cases h⟩

/-! ## Initial segments -/

theorem Pre.refl (a : List Int) : Pre a a := ⟨[], by simp⟩

theorem Pre.trans {a b d : List Int} (h1 : Pre a b) (h2 : Pre b d) : Pre a d := by
  obtain ⟨e1, rfl⟩ := h1
  obtain ⟨e2, rfl⟩ := h2
  exact ⟨e1 ++ e2, by simp⟩

theorem Pre.length_le {a b : List Int} (h : Pre a b) : a.length ≤ b.length := by
  obtain ⟨e, rfl⟩ := h
  simp

theorem Pre.eq_of_length {a b : List Int} (h : Pre a b) (hl : b.length ≤ a.length) : a = b := by
  obtain ⟨e, rfl⟩ := h
  have : e = [] := by
    simpa using hl
  simp [this]

theorem pre_of_take {a b : List Int} (h : a = b.take a.length) : Pre a b :=
  ⟨b.drop a.length, by conv_lhs => rw [← List.take_append_drop a.length b, ← h]⟩

theorem pre_append (a b : List Int) : Pre a (a ++ b) := ⟨b, rfl⟩

/-- What a comparator sends grows with what it reads. -/
theorem loop_sent_pre {a b : List Int} (h : Pre a b) :
    Pre (comparator_loop Trace.init a).sent (comparator_loop Trace.init b).sent := by
  obtain ⟨e, rfl⟩ := h
  rw [comparator_loop_append]
  obtain ⟨e1, he1⟩ := loop_sent_extends (comparator_loop Trace.init a) e
  exact ⟨e1, he1⟩

theorem loop_created_pre {a b : List Int} (h : Pre a b) {r : Routine}
    (hr : (comparator_loop Trace.init a).created = some r) :
    (comparator_loop Trace.init b).created = some r := by
  obtain ⟨e, rfl⟩ := h
  rw [comparator_loop_append]
  exact loop_created_stable (traceWf_run a) hr e

/-- A list with two markers that is an initial segment of a list whose only two markers are one
inside and one at the very end is the whole list. -/
theorem pre_sealed {got x : List Int} (hx : markers x = 1) (h : Pre got (x ++ [-1]))
    (hm : 2 ≤ markers got) : got = x ++ [-1] := by
  apply h.eq_of_length
  by_contra hlt
  obtain ⟨e, he⟩ := h
  have hne : e ≠ [] := by
    intro h0
    rw [h0, List.append_nil] at he
    rw [he] at hlt
    exact hlt (le_refl _)
  obtain ⟨e1, w, rfl⟩ : ∃ e1 w, e = e1 ++ [w] := by
    rcases List.eq_nil_or_concat e with h0 | ⟨e1, w, h1⟩
    · exact absurd h0 hne
    · exact ⟨e1, w, by simpa using h1⟩
  rw [← List.append_assoc] at he
  have hxe : x = got ++ e1 := List.append_inj_left' he rfl
  rw [hxe, markers_append] at hx
  omega

/-! ## The streams of a run without markers among the values -/

theorem stream_nil (k : Nat) : stream [] k = [-1, -1] := by
  induction k with
  | zero => rfl
  | succ k ih =>
    rw [stream, ih]
    decide

theorem stages_pos (rands : List Int) : 1 ≤ stages rands := le_max_right _ _

theorem stages_of_ne_nil {rands : List Int} (h : rands ≠ []) : stages rands = rands.length := by
  have : 1 ≤ rands.length := by
    cases rands with
    | nil => exact absurd rfl h
    | cons v vs => simp
  simp [stages, this]

/-- Every stream down to the output thread ends with a marker and has exactly one more marker
before it. -/
theorem stream_sealed {rands : List Int} (hr : ∀ v ∈ rands, v ≠ -1) {k : Nat}
    (hk : k ≤ stages rands) : ∃ x, stream rands k = x ++ [-1] ∧ markers x = 1 := by
  by_cases hnil : rands = []
  · subst hnil
    exact ⟨[-1], by rw [stream_nil]; rfl, by decide⟩
  · rw [stages_of_ne_nil hnil] at hk
    refine ⟨unsorted rands k ++ -1 :: flushed rands k, ?_, ?_⟩
    · rw [stream_shape hr k hk]
      simp
    · rw [markers_append, markers_real (unsorted_real hr k)]
      have : markers (-1 :: flushed rands k) = markers [-1] + markers (flushed rands k) := by
        rw [← markers_append]
        rfl
      rw [this, markers_real (flushed_real hr k)]
      decide

theorem stream_len {rands : List Int} (hr : ∀ v ∈ rands, v ≠ -1) {k : Nat}
    (hk : k ≤ stages rands) : (stream rands k).length = rands.length + 2 := by
  by_cases hnil : rands = []
  · subst hnil
    rw [stream_nil]
    rfl
  · rw [stages_of_ne_nil hnil] at hk
    exact stream_length hr hk

/-- The thread created by the comparator that reads stream `k`: the output thread at the last
stage, a comparator before. -/
theorem created_on_stream {rands : List Int} (hr : ∀ v ∈ rands, v ≠ -1) {k : Nat}
    (hk : k < stages rands) :
    (comparator_loop Trace.init (stream rands k)).created =
      some (if k + 1 = stages rands then .output else .comparator) := by
  by_cases hnil : rands = []
  · subst hnil
    have hk0 : k = 0 := by
      have : stages [] = 1 := rfl
      omega
    subst hk0
    decide
  · rw [stages_of_ne_nil hnil] at hk ⊢
    exact (loop_on_stream hr hk).2.1

/-- A thread that has read two markers from stream `k` has read the whole stream. -/
theorem got_sealed {rands : List Int} (hr : ∀ v ∈ rands, v ≠ -1) {k : Nat}
    (hk : k ≤ stages rands) {got : List Int} (hpre : Pre got (stream rands k))
    (hm : 2 ≤ markers got) : got = stream rands k := by
  obtain ⟨x, hx, hx1⟩ := stream_sealed hr hk
  rw [hx] at hpre ⊢
  exact pre_sealed hx1 hpre hm

/-! ## What the threads have read and written, against the streams -/

theorem thread_below {s : Sys} {k : Nat} {t : Thread} (h : s.threads[k + 1]? = some t) :
    ∃ u, s.threads[k]? = some u := by
  have := lt_of_getElem?_eq_some h
  exact ⟨s.threads[k], List.getElem?_eq_getElem (by omega)⟩

theorem not_last_of_succ {c : Nat} {rands : List Int} {s : Sys} (inv : Inv c rands s) {k : Nat}
    {u t : Thread} (hu : s.threads[k]? = some u) (ht : s.threads[k + 1]? = some t) :
    u.created = some (t.routine.getD .comparator) ∧ t.routine = u.created := by
  have h1 := inv.succ k u hu
  have hlt := lt_of_getElem?_eq_some ht
  cases hc : u.created with
  | none =>
    simp only [hc] at h1
    omega
  | some r =>
    simp only [hc] at h1
    obtain ⟨t1, ht1, hr1⟩ := h1
    rw [ht] at ht1
    cases ht1
    simp [hr1]

theorem producer_of_succ {c : Nat} {rands : List Int} {s : Sys} (inv : Inv c rands s) {k : Nat}
    {u t : Thread} (hu : s.threads[k]? = some u) (ht : s.threads[k + 1]? = some t) :
    u.owner = true :=
  owner_of_created (by rw [(not_last_of_succ inv hu ht).1]; simp)

theorem chan_of_succ {c : Nat} {rands : List Int} {s : Sys} (inv : Inv c rands s) {k : Nat}
    {u t : Thread} (hu : s.threads[k]? = some u) (ht : s.threads[k + 1]? = some t) :
    ∃ ch, s.chans[k]? = some ch ∧
      ChanInv c ch u.put u.wheld u.widx t.got t.rheld t.ridx := by
  obtain ⟨ch, hch, hci⟩ := inv.chan k u hu (producer_of_succ inv hu ht)
  rw [readerAt_of ht] at hci
  exact ⟨ch, hch, hci⟩

theorem inv_pre {c : Nat} {rands : List Int} {s : Sys} (inv : Inv c rands s) :
    ∀ k, (∀ t, s.threads[k]? = some t → t.owner = true →
        Pre (t.put ++ t.pend) (stream rands k)) ∧
      (∀ t, s.threads[k + 1]? = some t → Pre t.got (stream rands k)) := by
  have step1 : ∀ k, (∀ t, s.threads[k]? = some t → t.owner = true →
        Pre (t.put ++ t.pend) (stream rands k)) →
      (∀ t, s.threads[k + 1]? = some t → Pre t.got (stream rands k)) := by
    intro k hA t ht
    obtain ⟨u, hu⟩ := thread_below ht
    obtain ⟨ch, _, hci⟩ := chan_of_succ inv hu ht
    exact (pre_of_take hci.fifo).trans
      ((pre_append _ _).trans (hA u hu (producer_of_succ inv hu ht)))
  intro k
  induction k with
  | zero =>
    have hA : ∀ t, s.threads[0]? = some t → t.owner = true →
        Pre (t.put ++ t.pend) (stream rands 0) := by
      intro t ht hr
      have hok := inv.ok 0 t ht
      cases t with
      | generator g =>
        obtain ⟨_, _, hput, _, _⟩ := hok
        show Pre (g.put ++ (g.rands ++ List.replicate g.ends (-1))) (rands ++ [-1, -1])
        rw [hput]
        exact Pre.refl _
      | comparator x => exact absurd hok.1 (by omega)
      | output o => exact absurd hr (by simp [Thread.owner])
      | entry r p => exact absurd hr (by simp [Thread.owner])
    exact ⟨hA, step1 0 hA⟩
  | succ k ih =>
    have hA : ∀ t, s.threads[k + 1]? = some t → t.owner = true →
        Pre (t.put ++ t.pend) (stream rands (k + 1)) := by
      intro t ht hr
      have hok := inv.ok (k + 1) t ht
      have hgot := ih.2 t ht
      cases t with
      | generator g => exact absurd hok.1 (by omega)
      | comparator x =>
        obtain ⟨_, _, _, _, hsent, _⟩ := hok
        show Pre (x.put ++ x.pc.pend) (comparator_loop Trace.init (stream rands k)).sent
        rw [hsent]
        exact loop_sent_pre hgot
      | output o => exact absurd hr (by simp [Thread.owner])
      | entry r p => exact absurd hr (by simp [Thread.owner])
    exact ⟨hA, step1 (k + 1) hA⟩

/-- The threads of a run: the generator, one comparator per stage, the output thread. -/
theorem inv_kinds {c : Nat} {rands : List Int} {s : Sys} (inv : Inv c rands s)
    (hr : ∀ v ∈ rands, v ≠ -1) :
    ∀ k t, s.threads[k]? = some t →
      k ≤ stages rands + 1 ∧
        t.routine =
          if k = 0 then none else if k ≤ stages rands then some .comparator else some .output := by
  intro k
  induction k with
  | zero =>
    intro t ht
    have hok := inv.ok 0 t ht
    cases t with
    | generator g => exact ⟨by omega, rfl⟩
    | comparator x => exact absurd hok.1 (by omega)
    | output o => exact absurd hok.1 (by omega)
    | entry r p =>
      have hp : p + 1 = 0 := hok
      omega
  | succ k ih =>
    intro t ht
    obtain ⟨u, hu⟩ := thread_below ht
    obtain ⟨hk, hur⟩ := ih u hu
    have hc := (not_last_of_succ inv hu ht).2
    have hpos := stages_pos rands
    cases u with
    | generator g =>
      have hk0 : k = 0 := by
        by_contra h0
        simp only [h0, ↓reduceIte] at hur
        split at hur <;> simp [Thread.routine] at hur
      subst hk0
      have hok := inv.ok 1 t ht
      refine ⟨by omega, ?_⟩
      rw [hc]
      simp only [Thread.created]
      have hne : g.pc ≠ .start := by
        intro hs
        simp [Thread.created, hs] at hc
        cases t <;> simp [Thread.routine] at hc
        exact absurd hok.1 (by omega)
      simp [hne, hpos]
    | comparator x =>
      have hk1 : 1 ≤ k ∧ k ≤ stages rands := by
        by_cases h0 : k = 0
        · simp [h0, Thread.routine] at hur
        · simp only [h0, ↓reduceIte] at hur
          by_cases h1 : k ≤ stages rands
          · exact ⟨by omega, h1⟩
          · simp [h1, Thread.routine] at hur
      obtain ⟨j, rfl⟩ : ∃ j, k = j + 1 := ⟨k - 1, by omega⟩
      have hgot : Pre x.got (stream rands j) := (inv_pre inv j).2 _ hu
      have hcr : (comparator_loop Trace.init x.got).created = t.routine := hc.symm
      cases htr : t.routine with
      | none =>
        rw [htr] at hc
        have := (not_last_of_succ inv hu ht).1
        rw [← hc] at this
        cases this
      | some r =>
        rw [htr] at hcr
        have := loop_created_pre hgot hcr
        rw [created_on_stream hr (by omega)] at this
        refine ⟨by omega, ?_⟩
        rw [← this]
        by_cases hj : j + 1 = stages rands
        · simp [hj]
        · have : j + 1 + 1 ≤ stages rands := by omega
          simp [hj, this]
    | output o =>
      have := (not_last_of_succ inv hu ht).1
      simp [Thread.created] at this
    | entry r p =>
      have := (not_last_of_succ inv hu ht).1
      simp [Thread.created] at this

/-! ## States in which no thread can take a step -/

theorem terminal_step {c : Nat} {s : Sys} (h : terminal c s = true) (i : Nat) :
    step c s i = none := by
  by_cases hi : i < s.threads.length
  · simp only [terminal, List.all_eq_true, List.mem_range] at h
    simpa using h i hi
  · simp [step, List.getElem?_eq_none (not_lt.mp hi)]

theorem finished_markers {c : Nat} {rands : List Int} {s : Sys} (inv : Inv c rands s) {k : Nat}
    {t : Thread} (ht : s.threads[k + 1]? = some t) (hf : t.finished = true) :
    2 ≤ markers t.got := by
  have hok := inv.ok _ t ht
  cases t with
  | generator g => exact absurd hok.1 (by omega)
  | comparator x =>
    obtain ⟨_, _, _, _, _, hpc⟩ := hok
    have hd : x.pc = .done := by simpa [Thread.finished] using hf
    rw [hd] at hpc
    exact (loop_markers x.got).2 hpc
  | output o =>
    obtain ⟨_, hloop⟩ := hok
    have hd : o.pc = .done := by simpa [Thread.finished] using hf
    apply (output_markers o.got).2
    rw [hloop]
    simp [hd]
  | entry r p => simp [Thread.finished] at hf

/-- A thread that has finished has nothing left to write. -/
theorem pend_of_finished {c : Nat} {rands : List Int} {s : Sys} (inv : Inv c rands s) {k : Nat}
    {t : Thread} (ht : s.threads[k]? = some t) (hf : t.finished = true) : t.pend = [] := by
  have hok := inv.ok _ t ht
  cases t with
  | generator g =>
    obtain ⟨_, _, _, hdone, _⟩ := hok
    have hd : g.pc = .done := by simpa [Thread.finished] using hf
    obtain ⟨h1, h2⟩ := hdone hd
    simp [Thread.pend, h1, h2]
  | comparator x =>
    have hd : x.pc = .done := by simpa [Thread.finished] using hf
    simp [Thread.pend, hd, Pc.pend]
  | output o => rfl
  | entry r p => rfl

/-- A thread that cannot take a step is not in the middle of a read or a write; when it still
has values to write, it has created its successor and its channel has no free slot; when it has
none, it has finished, or its inbound channel has no filled slot, or it has not run yet and its
creator has finished. -/
theorem stuck_thread {c : Nat} {rands : List Int} {s : Sys} (inv : Inv c rands s) {k : Nat}
    {t : Thread} (ht : s.threads[k]? = some t) (hs : step c s k = none) :
    t.wheld = false ∧ t.rheld = false ∧
      (t.pend ≠ [] → t.created ≠ none ∧ ∃ ch, s.chans[k]? = some ch ∧ ch.empty = 0) ∧
      (t.pend = [] → t.finished = true ∨
        (∃ j ch, j + 1 = k ∧ s.chans[j]? = some ch ∧ ch.full = 0) ∨
        ∃ r u, t = .entry r (k - 1) ∧ s.threads[k - 1]? = some u ∧ u.finished = true) := by
  have hok := inv.ok k t ht
  simp only [step, ht] at hs
  have hin : ∀ inp, inp + 1 = k → ∃ ch, s.chans[inp]? = some ch := by
    intro inp hk
    subst hk
    obtain ⟨u, hu⟩ := thread_below ht
    obtain ⟨ch, hch, _⟩ := chan_of_succ inv hu ht
    exact ⟨ch, hch⟩
  cases t with
  | generator g =>
    obtain ⟨hk0, hout0, hput, hdone, hends⟩ := hok
    obtain ⟨ch, hch, _⟩ := inv.chan k _ ht rfl
    subst hk0
    obtain ⟨pc, rs, ends, outp, next_in, put⟩ := g
    simp only at hout0 hput hdone hends
    subst hout0
    unfold stepGenerator at hs
    cases pc with
    | start => simp at hs
    | wait =>
      simp only [hch] at hs
      have he : ch.empty = 0 := by
        cases hw : waitEmpty ch with
        | none => exact waitEmpty_eq_none.mp hw
        | some ch1 => simp [hw] at hs
      have hp : 1 ≤ ends := hends (by simp)
      refine ⟨rfl, rfl, fun _ => ⟨by simp [Thread.created], ch, hch, he⟩, fun hp0 => ?_⟩
      simp only [Thread.pend, List.append_eq_nil] at hp0
      have := hp0.2
      rw [replicate_ends hp] at this
      cases this
    | write => simp [hch] at hs
    | done =>
      obtain ⟨h1, h2⟩ := hdone rfl
      subst h1 h2
      exact ⟨rfl, rfl, fun hp => absurd rfl hp, fun _ => Or.inl rfl⟩
  | comparator x =>
    obtain ⟨hinp, houtp, hstate, hstored, hsent, hpc⟩ := hok
    obtain ⟨ch, hch, _⟩ := inv.chan k _ ht rfl
    obtain ⟨chi, hchi⟩ := hin x.inp hinp
    obtain ⟨inp, outp, read_out, write_in, stored, state, pc, got, put⟩ := x
    simp only at hinp houtp hstate hstored hsent hpc hchi
    subst hinp houtp
    unfold stepComparator at hs
    cases pc with
    | recv =>
      simp only [hchi] at hs
      have he : chi.full = 0 := by
        cases hw : waitFull chi with
        | none => exact waitFull_eq_none.mp hw
        | some ch1 => simp [hw] at hs
      exact ⟨rfl, rfl, fun hp => absurd rfl hp, fun _ => Or.inr (Or.inl ⟨inp, chi, rfl, hchi, he⟩)⟩
    | read => simp [hchi] at hs
    | send vs b =>
      simp only [hch] at hs
      have he : ch.empty = 0 := by
        cases hw : waitEmpty ch with
        | none => exact waitEmpty_eq_none.mp hw
        | some ch1 => simp [hw] at hs
      refine ⟨rfl, rfl, fun _ => ⟨?_, ch, hch, he⟩, fun hp0 => absurd hp0 hpc.1⟩
      intro hnone
      have := (traceWf_run got).sent_nil hnone
      rw [← hsent] at this
      simp only [Pc.pend, List.append_eq_nil] at this
      exact hpc.1 this.2
    | write vs b =>
      cases vs with
      | nil => exact absurd rfl hpc.1
      | cons v rest => simp [hch] at hs
    | done => exact ⟨rfl, rfl, fun hp => absurd rfl hp, fun _ => Or.inl rfl⟩
  | output o =>
    obtain ⟨hinp, hloop⟩ := hok
    obtain ⟨chi, hchi⟩ := hin o.inp hinp
    obtain ⟨inp, read_out, vars, pc, got⟩ := o
    simp only at hinp hloop hchi
    subst hinp
    unfold stepOutput at hs
    cases pc with
    | recv =>
      simp only [hchi] at hs
      have he : chi.full = 0 := by
        cases hw : waitFull chi with
        | none => exact waitFull_eq_none.mp hw
        | some ch1 => simp [hw] at hs
      exact ⟨rfl, rfl, fun hp => absurd rfl hp, fun _ => Or.inr (Or.inl ⟨inp, chi, rfl, hchi, he⟩)⟩
    | read => simp [hchi] at hs
    | done => exact ⟨rfl, rfl, fun hp => absurd rfl hp, fun _ => Or.inl rfl⟩
  | entry r p =>
    obtain ⟨hpk, _, _, u, hu, _, _, _⟩ := entry_creator inv ht
    subst hpk
    unfold stepEntry at hs
    simp only [hu] at hs
    cases hf : u.finished with
    | false => cases r <;> simp [hf] at hs
    | true =>
      exact ⟨rfl, rfl, fun hp => absurd rfl hp,
        fun _ => Or.inr (Or.inr ⟨r, u, rfl, hu, hf⟩)⟩

/-- In a state in which no thread can take a step, no thread has anything left to write. -/
theorem stuck_pend {c : Nat} {rands : List Int} {s : Sys} (inv : Inv c rands s)
    (hterm : terminal c s = true) (hc : 1 ≤ c) (hr : ∀ v ∈ rands, v ≠ -1) :
    ∀ d k t, k + d + 1 = s.threads.length → s.threads[k]? = some t → t.pend = [] := by
  intro d
  induction d with
  | zero =>
    intro k t hk ht
    by_contra hp
    obtain ⟨_, _, h3, _⟩ := stuck_thread inv ht (terminal_step hterm k)
    have hcr := (h3 hp).1
    have hsucc := inv.succ k t ht
    cases hc1 : t.created with
    | none => exact hcr hc1
    | some r =>
      simp only [hc1] at hsucc
      obtain ⟨u, hu, _⟩ := hsucc
      have := lt_of_getElem?_eq_some hu
      omega
  | succ d ih =>
    intro k t hk ht
    by_contra hp
    have hlt : k + 1 < s.threads.length := by omega
    have ht1 : s.threads[k + 1]? = some s.threads[k + 1] := List.getElem?_eq_getElem hlt
    have hp1 := ih (k + 1) _ (by omega) ht1
    obtain ⟨hw, _, h3, _⟩ := stuck_thread inv ht (terminal_step hterm k)
    obtain ⟨_, ch, hch, hempty⟩ := h3 hp
    obtain ⟨_, hrh, _, h4⟩ := stuck_thread inv ht1 (terminal_step hterm (k + 1))
    obtain ⟨ch1, hch1, hci⟩ := chan_of_succ inv ht ht1
    rw [hch] at hch1
    cases hch1
    have hsems := hci.sems
    rw [hw, hrh, hempty] at hsems
    simp only [Bool.false_eq_true, ↓reduceIte] at hsems
    have hfin : s.threads[k + 1].finished = true := by
      rcases h4 hp1 with h | ⟨j, ch2, hj, hch2, hfull⟩ | ⟨r, u, _, hu, hf⟩
      · exact h
      · have hjk : j = k := by omega
        subst hjk
        rw [hch] at hch2
        cases hch2
        omega
      · simp only [Nat.add_sub_cancel] at hu
        rw [ht] at hu
        cases hu
        exact absurd (pend_of_finished inv ht hf) hp
    have hm := finished_markers inv ht1 hfin
    have hk1 := (inv_kinds inv hr (k + 1) _ ht1).1
    have hpre := (inv_pre inv k).2 _ ht1
    have hgot := got_sealed hr (by omega) hpre hm
    have hA := (inv_pre inv k).1 t ht (producer_of_succ inv ht ht1)
    have h1 := (pre_of_take hci.fifo).length_le
    have h2 := hA.length_le
    rw [hgot] at h1
    rw [List.length_append] at h2
    have : t.pend.length = 0 := by omega
    exact hp (List.eq_nil_of_length_eq_zero this)

theorem stuck_pend_all {c : Nat} {rands : List Int} {s : Sys} (inv : Inv c rands s)
    (hterm : terminal c s = true) (hc : 1 ≤ c) (hr : ∀ v ∈ rands, v ≠ -1) {k : Nat} {t : Thread}
    (ht : s.threads[k]? = some t) : t.pend = [] := by
  have hlt := lt_of_getElem?_eq_some ht
  exact stuck_pend inv hterm hc hr (s.threads.length - 1 - k) k t (by omega) ht

/-- In a state in which no thread can take a step, every thread that owns a channel has written
its whole stream and every thread that has run has read the whole stream of its predecessor. -/
theorem stuck_streams {c : Nat} {rands : List Int} {s : Sys} (inv : Inv c rands s)
    (hterm : terminal c s = true) (hc : 1 ≤ c) (hr : ∀ v ∈ rands, v ≠ -1) :
    ∀ k, (∀ t, s.threads[k]? = some t → t.owner = true → t.put = stream rands k) ∧
      (∀ t, s.threads[k + 1]? = some t → (∀ r p, t ≠ .entry r p) →
        t.got = stream rands k) := by
  have step1 : ∀ k,
      (∀ t, s.threads[k]? = some t → t.owner = true → t.put = stream rands k) →
      (∀ t, s.threads[k + 1]? = some t → (∀ r p, t ≠ .entry r p) →
        t.got = stream rands k) := by
    intro k hA t1 ht1 hne
    obtain ⟨u, hu⟩ := thread_below ht1
    have hput := hA u hu (producer_of_succ inv hu ht1)
    obtain ⟨ch, hch, hci⟩ := chan_of_succ inv hu ht1
    obtain ⟨_, hrh, _, h4⟩ := stuck_thread inv ht1 (terminal_step hterm (k + 1))
    rcases h4 (stuck_pend_all inv hterm hc hr ht1) with
      hfin | ⟨j, ch2, hj, hch2, hfull⟩ | ⟨r, _, he, _, _⟩
    rotate_left 2
    · exact absurd he (hne r _)
    · have hm := finished_markers inv ht1 hfin
      have hk1 := (inv_kinds inv hr (k + 1) _ ht1).1
      exact got_sealed hr (by omega) ((inv_pre inv k).2 _ ht1) hm
    · have hjk : j = k := by omega
      subst hjk
      rw [hch] at hch2
      cases hch2
      have hcount := hci.count
      rw [hrh, hfull] at hcount
      simp only [Bool.false_eq_true, ↓reduceIte, add_zero] at hcount
      rw [← hput]
      exact (pre_of_take hci.fifo).eq_of_length (by omega)
  intro k
  induction k with
  | zero =>
    have hA : ∀ t, s.threads[0]? = some t → t.owner = true →
        t.put = stream rands 0 := by
      intro t ht hro
      have hp := stuck_pend_all inv hterm hc hr ht
      have hok := inv.ok 0 t ht
      cases t with
      | generator g =>
        obtain ⟨_, _, hput, _, _⟩ := hok
        have hp' : g.rands ++ List.replicate g.ends (-1) = [] := hp
        rw [hp', List.append_nil] at hput
        exact hput
      | comparator x => exact absurd hok.1 (by omega)
      | output o => exact absurd hro (by simp [Thread.owner])
      | entry r p => exact absurd hro (by simp [Thread.owner])
    exact ⟨hA, step1 0 hA⟩
  | succ k ih =>
    have hA : ∀ t, s.threads[k + 1]? = some t → t.owner = true →
        t.put = stream rands (k + 1) := by
      intro t ht hro
      have hp := stuck_pend_all inv hterm hc hr ht
      have hok := inv.ok (k + 1) t ht
      cases t with
      | generator g => exact absurd hok.1 (by omega)
      | comparator x =>
        have hgot := ih.2 _ ht (fun r p h => by cases h)
        obtain ⟨_, _, _, _, hsent, _⟩ := hok
        have hp' : x.pc.pend = [] := hp
        have hg' : x.got = stream rands k := hgot
        rw [hp', List.append_nil, hg'] at hsent
        exact hsent
      | output o => exact absurd hro (by simp [Thread.owner])
      | entry r p => exact absurd hro (by simp [Thread.owner])
    exact ⟨hA, step1 (k + 1) hA⟩

/-! ## The final state of a run -/

theorem created_ne_none_of_finished_pred {c : Nat} {rands : List Int} {s : Sys}
    (inv : Inv c rands s) {k : Nat} {t : Thread} (ht : s.threads[k]? = some t)
    (hcr : t.created ≠ none) : k + 1 < s.threads.length := by
  have := inv.succ k t ht
  cases hc : t.created with
  | none => exact absurd hc hcr
  | some r =>
    simp only [hc] at this
    obtain ⟨u, hu, _⟩ := this
    exact lt_of_getElem?_eq_some hu

/-! ## Parameters that point into a frame that is gone -/

theorem dangling_of_entry {s : Sys} {k : Nat} {r : Routine} {p : Nat} {u : Thread}
    (ht : s.threads[k]? = some (.entry r p)) (hu : s.threads[p]? = some u)
    (hf : u.finished = true) : s.dangling = true := by
  simp only [Sys.dangling, List.any_eq_true]
  exact ⟨_, List.getElem?_mem ht, by simp [hu, hf]⟩

theorem entry_of_dangling {s : Sys} (h : s.dangling = true) :
    ∃ (k : Nat) (r : Routine) (p : Nat) (u : Thread),
      s.threads[k]? = some (.entry r p) ∧ s.threads[p]? = some u ∧ u.finished = true := by
  simp only [Sys.dangling, List.any_eq_true] at h
  obtain ⟨t, hmem, ht⟩ := h
  obtain ⟨k, hk⟩ := List.getElem?_of_mem hmem
  cases t with
  | generator g => simp at ht
  | comparator x => simp at ht
  | output o => simp at ht
  | entry r p =>
    simp only at ht
    cases hu : s.threads[p]? with
    | none => simp [hu] at ht
    | some u =>
      simp only [hu] at ht
      exact ⟨k, r, p, u, hk, hu, ht⟩

/-- In a state in which no thread can take a step, a thread that has not run yet has a parameter
that points into a frame that is gone. -/
theorem stuck_entry {c : Nat} {rands : List Int} {s : Sys} (inv : Inv c rands s)
    (hterm : terminal c s = true) {k : Nat} {r : Routine} {p : Nat}
    (ht : s.threads[k]? = some (.entry r p)) : s.dangling = true := by
  obtain ⟨_, _, _, u, hu, _, _, _⟩ := entry_creator inv ht
  have hs := terminal_step hterm k
  simp only [step, ht, stepEntry, hu] at hs
  cases hf : u.finished with
  | false => cases r <;> simp [hf] at hs
  | true => exact dangling_of_entry ht hu hf

/-- A thread whose successor has not run yet and that has finished has filled its channel
with its whole stream: the capacity is at least the number of values plus two. -/
theorem capacity_of_dangling {c : Nat} {rands : List Int} {s : Sys} (inv : Inv c rands s)
    (hr : ∀ v ∈ rands, v ≠ -1) (h : s.dangling = true) : rands.length + 2 ≤ c := by
  obtain ⟨k, r, p, u, ht, hu, hf⟩ := entry_of_dangling h
  obtain ⟨hpk, _, _, u1, hu1, hown, _, _⟩ := entry_creator inv ht
  subst hpk
  rw [hu] at hu1
  cases hu1
  obtain ⟨ch, _, hci⟩ := chan_of_succ inv hu ht
  have hcount := hci.count
  have hsems := hci.sems
  simp only [Thread.got, Thread.rheld, List.length_nil, Bool.false_eq_true, ↓reduceIte,
    add_zero, zero_add] at hcount hsems
  have hkind := (inv_kinds inv hr _ _ hu).1
  have hpend := pend_of_finished inv hu hf
  have hput : u.put = stream rands p := by
    have hA := (inv_pre inv p).1 u hu hown
    rw [hpend, List.append_nil] at hA
    have hok := inv.ok _ _ hu
    cases u with
    | generator g =>
      obtain ⟨hp0, _, hg, _, _⟩ := hok
      subst hp0
      have hp' : g.rands ++ List.replicate g.ends (-1) = [] := hpend
      rw [hp', List.append_nil] at hg
      exact hg
    | comparator x =>
      obtain ⟨j, rfl⟩ : ∃ j, p = j + 1 := ⟨p - 1, by have := hok.1; omega⟩
      have hm := finished_markers inv hu hf
      have hgot := got_sealed hr (by omega) ((inv_pre inv j).2 _ hu) hm
      obtain ⟨_, _, _, _, hsent, _⟩ := hok
      have hp' : x.pc.pend = [] := hpend
      have hg' : x.got = stream rands j := hgot
      rw [hp', List.append_nil, hg'] at hsent
      exact hsent
    | output o => simp [Thread.owner] at hown
    | entry r1 p1 => simp [Thread.owner] at hown
  have hk1 := (inv_kinds inv hr _ _ ht).1
  have hlen := stream_len hr (k := p) (by omega)
  rw [hput, hlen] at hcount
  omega

/-- With a capacity of at most the number of values plus one, no parameter ever points into a
frame that is gone. -/
theorem not_dangling {c : Nat} {rands : List Int} {s : Sys} (inv : Inv c rands s)
    (hr : ∀ v ∈ rands, v ≠ -1) (hcap : c ≤ rands.length + 1) : s.dangling = false := by
  cases h : s.dangling with
  | false => rfl
  | true =>
    have := capacity_of_dangling inv hr h
    omega

/-! ## The final state of a run in which every thread has run -/

/-- In a state in which no thread can take a step and no parameter points into a frame that is
gone, there are the generator, the comparators of all stages, and the output thread. -/
theorem stuck_length {c : Nat} {rands : List Int} {s : Sys} (inv : Inv c rands s)
    (hterm : terminal c s = true) (hc : 1 ≤ c) (hr : ∀ v ∈ rands, v ≠ -1)
    (hnd : s.dangling = false) :
    s.threads.length = stages rands + 2 := by
  have hup : s.threads.length ≤ stages rands + 2 := by
    have hpos := inv.pos
    have hlast : s.threads[s.threads.length - 1]? = some s.threads[s.threads.length - 1] :=
      List.getElem?_eq_getElem (by omega)
    have := (inv_kinds inv hr _ _ hlast).1
    omega
  have hlow : ∀ k, k ≤ stages rands + 1 → k < s.threads.length := by
    intro k
    induction k with
    | zero => intro _; exact inv.pos
    | succ k ih =>
      intro hk
      have hlt := ih (by omega)
      have ht : s.threads[k]? = some s.threads[k] := List.getElem?_eq_getElem hlt
      apply created_ne_none_of_finished_pred inv ht
      have hkind := (inv_kinds inv hr k _ ht).2
      have hp := stuck_pend_all inv hterm hc hr ht
      have hok := inv.ok k _ ht
      generalize s.threads[k] = t at ht hkind hp hok
      cases t with
      | generator g =>
        obtain ⟨_, _, _, _, hends⟩ := hok
        have hdone : g.pc = .done := by
          by_contra hnd
          have he := hends hnd
          have hp' : g.rands ++ List.replicate g.ends (-1) = [] := hp
          rw [replicate_ends he] at hp'
          simp at hp'
        simp [Thread.created, hdone]
      | comparator x =>
        have hk0 : k ≠ 0 := by
          intro h0
          simp [h0, Thread.routine] at hkind
        obtain ⟨j, rfl⟩ : ∃ j, k = j + 1 := ⟨k - 1, by omega⟩
        have hgot : x.got = stream rands j :=
          (stuck_streams inv hterm hc hr j).2 _ ht (fun r p h => by cases h)
        show (comparator_loop Trace.init x.got).created ≠ none
        rw [hgot, created_on_stream hr (by omega)]
        simp
      | output o =>
        have hk0 : k ≠ 0 := by
          intro h0
          simp [h0, Thread.routine] at hkind
        have : ¬ k ≤ stages rands := by
          intro hle
          simp [hk0, hle, Thread.routine] at hkind
        omega
      | entry r p =>
        rw [stuck_entry inv hterm ht] at hnd
        cases hnd
  have := hlow (stages rands + 1) (le_refl _)
  omega

theorem stream_last {rands : List Int} (hr : ∀ v ∈ rands, v ≠ -1) :
    stream rands (stages rands) = -1 :: (List.insertionSort (· ≤ ·) rands ++ [-1]) := by
  by_cases hnil : rands = []
  · subst hnil
    rw [stream_nil]
    rfl
  · rw [stages_of_ne_nil hnil, stream_shape hr _ (le_refl _), unsorted_full, flushed_full]
    rfl

/-- The generator at the end of a run: it has written the values and the two markers. -/
theorem stuck_generator {c : Nat} {rands : List Int} {s : Sys} (inv : Inv c rands s)
    (hterm : terminal c s = true) (hc : 1 ≤ c) (hr : ∀ v ∈ rands, v ≠ -1) :
    ∃ g, s.threads[0]? = some (.generator g) ∧ g.pc = .done ∧ g.put = rands ++ [-1, -1] := by
  obtain ⟨t, ht⟩ : ∃ t, s.threads[0]? = some t := ⟨_, List.getElem?_eq_getElem inv.pos⟩
  have hp := stuck_pend_all inv hterm hc hr ht
  have hok := inv.ok 0 _ ht
  have hput := (stuck_streams inv hterm hc hr 0).1 _ ht
  cases t with
  | generator g =>
    obtain ⟨_, _, _, _, hends⟩ := hok
    have hdone : g.pc = .done := by
      by_contra hnd
      have he := hends hnd
      have hp' : g.rands ++ List.replicate g.ends (-1) = [] := hp
      rw [replicate_ends he] at hp'
      simp at hp'
    exact ⟨g, ht, hdone, hput rfl⟩
  | comparator x => exact absurd hok.1 (by omega)
  | output o => exact absurd hok.1 (by omega)
  | entry r p =>
    have hp0 : p + 1 = 0 := hok
    omega

/-- The comparator of stage `k` at the end of a run: it has read the whole stream of stage
`k - 1` and written the whole stream of stage `k`, and it has left its loop when there is at
least one value. -/
theorem stuck_comparator {c : Nat} {rands : List Int} {s : Sys} (inv : Inv c rands s)
    (hterm : terminal c s = true) (hc : 1 ≤ c) (hr : ∀ v ∈ rands, v ≠ -1)
    (hnd : s.dangling = false) {k : Nat} (hk : k < stages rands) :
    ∃ x, s.threads[k + 1]? = some (.comparator x) ∧ x.got = stream rands k ∧
      x.put = stream rands (k + 1) ∧ x.pc.pend = [] ∧ (rands ≠ [] → x.pc = .done) ∧
      x.stored_number = (comparator_loop Trace.init (stream rands k)).stored_number ∧
      x.state = (comparator_loop Trace.init (stream rands k)).state := by
  have hlen := stuck_length inv hterm hc hr hnd
  have ht : s.threads[k + 1]? = some s.threads[k + 1] :=
    List.getElem?_eq_getElem (by omega)
  have hkind := (inv_kinds inv hr _ _ ht).2
  have hp := stuck_pend_all inv hterm hc hr ht
  have hok := inv.ok _ _ ht
  have hput := (stuck_streams inv hterm hc hr (k + 1)).1 _ ht
  have hgot := (stuck_streams inv hterm hc hr k).2 _ ht
  generalize s.threads[k + 1] = t at ht hp hok hput hgot hkind
  cases t with
  | generator g => exact absurd hok.1 (by omega)
  | comparator x =>
    obtain ⟨_, _, hstate, hstored, _, hpc⟩ := hok
    have hgot' : x.got = stream rands k := hgot (fun r p h => by cases h)
    have hp' : x.pc.pend = [] := hp
    rw [hgot'] at hstate hstored hpc
    refine ⟨x, ht, hgot', hput rfl, hp', ?_, hstored, hstate⟩
    intro hne
    rw [stages_of_ne_nil hne] at hk
    have hbrk := (loop_on_stream hr hk).1
    rw [hbrk] at hpc
    cases hx : x.pc with
    | recv => rw [hx] at hpc; cases hpc
    | read => rw [hx] at hpc; cases hpc
    | send vs b => rw [hx] at hpc hp'; exact absurd hp' hpc.1
    | write vs b => rw [hx] at hpc hp'; exact absurd hp' hpc.1
    | done => rfl
  | output o =>
    have : k + 1 ≤ stages rands := by omega
    simp [this, Thread.routine] at hkind
  | entry r p =>
    rw [stuck_entry inv hterm ht] at hnd
    cases hnd

/-- The output thread at the end of a run: it has read the marker, the values in
non-decreasing order and the second marker, and has left its loop. -/
theorem stuck_output {c : Nat} {rands : List Int} {s : Sys} (inv : Inv c rands s)
    (hterm : terminal c s = true) (hc : 1 ≤ c) (hr : ∀ v ∈ rands, v ≠ -1)
    (hnd : s.dangling = false) :
    ∃ o, s.threads[stages rands + 1]? = some (.output o) ∧
      o.got = -1 :: (List.insertionSort (· ≤ ·) rands ++ [-1]) ∧ o.pc = .done ∧
      o.vars = { (OutVars.init.feed (List.insertionSort (· ≤ ·) rands)) with state := .END } := by
  have hlen := stuck_length inv hterm hc hr hnd
  have ht : s.threads[stages rands + 1]? = some s.threads[stages rands + 1] :=
    List.getElem?_eq_getElem (by omega)
  have hkind := (inv_kinds inv hr _ _ ht).2
  have hok := inv.ok _ _ ht
  have hgot := (stuck_streams inv hterm hc hr (stages rands)).2 _ ht
  generalize s.threads[stages rands + 1] = t at ht hok hgot hkind
  cases t with
  | generator g => exact absurd hok.1 (by omega)
  | comparator x => simp [Thread.routine] at hkind
  | output o =>
    obtain ⟨_, hloop⟩ := hok
    have hgot' : o.got = stream rands (stages rands) := hgot (fun r p h => by cases h)
    rw [stream_last hr] at hgot'
    have hreal : ∀ v ∈ List.insertionSort (· ≤ ·) rands, v ≠ -1 :=
      fun v hv => hr v ((List.perm_insertionSort _ _).subset hv)
    have h2 := output_loop_two_markers [] (List.insertionSort (· ≤ ·) rands) []
      (by simp) hreal
    simp only [List.nil_append] at h2
    rw [hgot', h2] at hloop
    simp only [Prod.mk.injEq] at hloop
    obtain ⟨hv, hd⟩ := hloop
    refine ⟨o, ht, hgot', ?_, hv.symm⟩
    simpa using hd.symm
  | entry r p =>
    rw [stuck_entry inv hterm ht] at hnd
    cases hnd

/-- At the end of a run every channel is empty. -/
theorem stuck_chans {c : Nat} {rands : List Int} {s : Sys} (inv : Inv c rands s)
    (hterm : terminal c s = true) (hc : 1 ≤ c) (hr : ∀ v ∈ rands, v ≠ -1)
    (hnd : s.dangling = false) {k : Nat} (hk : k ≤ stages rands) :
    ∃ ch, s.chans[k]? = some ch ∧ ch.full = 0 ∧ ch.empty = c ∧
      ∃ u t, s.threads[k]? = some u ∧ s.threads[k + 1]? = some t ∧ t.got = u.put := by
  have hlen := stuck_length inv hterm hc hr hnd
  have hu : s.threads[k]? = some s.threads[k] := List.getElem?_eq_getElem (by omega)
  have ht : s.threads[k + 1]? = some s.threads[k + 1] := List.getElem?_eq_getElem (by omega)
  obtain ⟨ch, hch, hci⟩ := chan_of_succ inv hu ht
  have hput := (stuck_streams inv hterm hc hr k).1 _ hu (producer_of_succ inv hu ht)
  have hgot := (stuck_streams inv hterm hc hr k).2 _ ht (fun r p h => by
    rw [h] at ht
    rw [stuck_entry inv hterm ht] at hnd
    cases hnd)
  obtain ⟨hw, _, _, _⟩ := stuck_thread inv hu (terminal_step hterm k)
  obtain ⟨_, hrh, _, _⟩ := stuck_thread inv ht (terminal_step hterm (k + 1))
  have hcount := hci.count
  have hsems := hci.sems
  rw [hput, hgot, hrh] at hcount
  rw [hw, hrh] at hsems
  simp only [Bool.false_eq_true, ↓reduceIte, add_zero] at hcount hsems
  have hfull : ch.full = 0 := by omega
  refine ⟨ch, hch, hfull, by omega, _, _, hu, ht, ?_⟩
  rw [hput, hgot]

/-! ## Every schedule is finite -/

theorem work_spawn (s : Sys) (i : Nat) (r : Option Routine) :
    (s.spawn i r).work = s.work := by
  cases r with
  | none => rfl
  | some r => simp [Sys.spawn, Sys.work, Thread.work]

theorem work_set {s : Sys} {i : Nat} {t t1 : Thread} (ht : s.threads[i]? = some t)
    (h : t1.work = t.work + 1) (chans1 : List Channel) (sorted1 : Nat) :
    Sys.work { s with threads := s.threads.set i t1, chans := chans1, sorted := sorted1 } =
      s.work + 1 := by
  have := sum_map_set Thread.work (b := t1) ht
  simp only [Sys.work]
  omega

@[simp] theorem work_after (inp outp ro wi : Nat) (sn : Int) (st : State) (vs : List Int)
    (b : Bool) (got put : List Int) :
    (Thread.comparator ⟨inp, outp, ro, wi, sn, st, Pc.after vs b, got, put⟩).work =
      1 + 2 * got.length + 2 * put.length := by
  cases vs with
  | nil => cases b <;> simp [Pc.after, Thread.work]
  | cons v vs => simp [Pc.after, Thread.work]

/-- Every step is one more step of work. -/
theorem step_work {c : Nat} {s s1 : Sys} {i : Nat} (h : step c s i = some s1) :
    s1.work = s.work + 1 := by
  unfold step at h
  cases ht : s.threads[i]? with
  | none => simp [ht] at h
  | some t =>
    simp only [ht] at h
    cases t with
    | generator g =>
      obtain ⟨pc, rs, ends, outp, next_in, put⟩ := g
      unfold stepGenerator at h
      cases pc with
      | start =>
        simp only [Option.some.injEq] at h
        subst h
        rw [work_spawn]
        exact work_set ht (by simp [Thread.work]; omega) s.chans s.sorted
      | wait =>
        simp only at h
        cases hch : s.chans[outp]? with
        | none => simp [hch] at h
        | some ch =>
          simp only [hch] at h
          cases hw : waitEmpty ch with
          | none => simp [hw] at h
          | some ch1 =>
            simp only [hw, Option.some.injEq] at h
            subst h
            exact work_set ht (by simp [Thread.work]) _ s.sorted
      | write =>
        simp only at h
        cases hch : s.chans[outp]? with
        | none => simp [hch] at h
        | some ch =>
          simp only [hch, Option.some.injEq] at h
          subst h
          refine work_set ht ?_ _ s.sorted
          cases rs with
          | nil =>
            simp only [Generator.advance, Thread.work]
            split <;> simp <;> omega
          | cons v rs =>
            simp [Generator.advance, Thread.work]
            omega
      | done => simp [stepGenerator] at h
    | comparator x =>
      obtain ⟨inp, outp, read_out, write_in, stored, state, pc, got, put⟩ := x
      unfold stepComparator at h
      cases pc with
      | recv =>
        simp only at h
        cases hch : s.chans[inp]? with
        | none => simp [hch] at h
        | some ch =>
          simp only [hch] at h
          cases hw : waitFull ch with
          | none => simp [hw] at h
          | some ch1 =>
            simp only [hw, Option.some.injEq] at h
            subst h
            exact work_set ht (by simp [Thread.work]; omega) _ s.sorted
      | read =>
        simp only at h
        cases hch : s.chans[inp]? with
        | none => simp [hch] at h
        | some ch =>
          simp only [hch, Option.some.injEq] at h
          subst h
          rw [work_spawn]
          refine work_set ht ?_ _ s.sorted
          rw [work_after]
          simp [Thread.work]
          omega
      | send vs b =>
        simp only at h
        cases hch : s.chans[outp]? with
        | none => simp [hch] at h
        | some ch =>
          simp only [hch] at h
          cases hw : waitEmpty ch with
          | none => simp [hw] at h
          | some ch1 =>
            simp only [hw, Option.some.injEq] at h
            subst h
            exact work_set ht (by simp [Thread.work]) _ s.sorted
      | write vs b =>
        simp only at h
        cases vs with
        | nil => simp at h
        | cons v rest =>
          cases hch : s.chans[outp]? with
          | none => simp [hch] at h
          | some ch =>
            simp only [hch, Option.some.injEq] at h
            subst h
            refine work_set ht ?_ _ s.sorted
            rw [work_after]
            simp [Thread.work]
            omega
      | done => simp at h
    | output o =>
      obtain ⟨inp, read_out, vars, pc, got⟩ := o
      unfold stepOutput at h
      cases pc with
      | recv =>
        simp only at h
        cases hch : s.chans[inp]? with
        | none => simp [hch] at h
        | some ch =>
          simp only [hch] at h
          cases hw : waitFull ch with
          | none => simp [hw] at h
          | some ch1 =>
            simp only [hw, Option.some.injEq] at h
            subst h
            exact work_set ht (by simp [Thread.work]) _ s.sorted
      | read =>
        simp only at h
        cases hch : s.chans[inp]? with
        | none => simp [hch] at h
        | some ch =>
          simp only [hch, Option.some.injEq] at h
          subst h
          refine work_set ht ?_ _ _
          cases hb : (output_body vars (readSlot c ch read_out).1).2 <;>
            simp [Thread.work] <;> omega
      | done => simp at h
    | entry r p =>
      unfold stepEntry at h
      cases hu : s.threads[p]? with
      | none => simp [hu] at h
      | some u =>
        simp only [hu] at h
        cases hf : u.finished with
        | true => simp [hf] at h
        | false =>
          simp only [hf, Bool.false_eq_true, ↓reduceIte] at h
          cases r with
          | comparator =>
            simp only [Option.some.injEq] at h
            subst h
            exact work_set ht (by simp [Thread.work, Comparator.init]) _ s.sorted
          | output =>
            simp only [Option.some.injEq] at h
            subst h
            exact work_set ht (by simp [Thread.work, Output.init]) s.chans s.sorted

theorem exec_work {c : Nat} {s s1 : Sys} (sched : List Nat) (h : exec c s sched = some s1) :
    s1.work = s.work + sched.length := by
  induction sched generalizing s with
  | nil =>
    simp only [exec, Option.some.injEq] at h
    simp [h]
  | cons i sched ih =>
    simp only [exec] at h
    cases hs : step c s i with
    | none => simp [hs] at h
    | some s2 =>
      simp only [hs] at h
      rw [ih h, step_work hs, List.length_cons]
      omega

theorem thread_work_le {c : Nat} {rands : List Int} {s : Sys} (inv : Inv c rands s)
    (hr : ∀ v ∈ rands, v ≠ -1) {k : Nat} {t : Thread} (ht : s.threads[k]? = some t) :
    t.work ≤ 4 * (rands.length + 2) + 3 := by
  obtain ⟨hk, hkind⟩ := inv_kinds inv hr k t ht
  have hput : t.owner = true → t.put.length ≤ rands.length + 2 := by
    intro hro
    have hk1 : k ≤ stages rands := by
      by_contra hgt
      have hk0 : k ≠ 0 := by
        have := stages_pos rands
        omega
      simp only [hk0, hgt, ↓reduceIte] at hkind
      cases t with
      | generator g => simp [Thread.routine] at hkind
      | comparator x => simp [Thread.routine] at hkind
      | output o => simp [Thread.owner] at hro
      | entry r p => simp [Thread.owner] at hro
    have := ((inv_pre inv k).1 t ht hro).length_le
    rw [stream_len hr hk1, List.length_append] at this
    omega
  have hgot : t.got.length ≤ rands.length + 2 := by
    cases k with
    | zero =>
      have hok := inv.ok 0 t ht
      cases t with
      | generator g => simp [Thread.got]
      | comparator x => exact absurd hok.1 (by omega)
      | output o => exact absurd hok.1 (by omega)
      | entry r p => simp [Thread.got]
    | succ j =>
      have := ((inv_pre inv j).2 t ht).length_le
      rw [stream_len hr (by omega)] at this
      exact this
  cases t with
  | generator g =>
    have := hput rfl
    simp only [Thread.put] at this
    simp only [Thread.work]
    split <;> split <;> omega
  | comparator x =>
    have := hput rfl
    simp only [Thread.put] at this
    simp only [Thread.got] at hgot
    simp only [Thread.work]
    split <;> split <;> omega
  | output o =>
    simp only [Thread.got] at hgot
    simp only [Thread.work]
    split <;> omega
  | entry r p => simp [Thread.work]

theorem sum_map_le {α : Type} (f : α → Nat) (b : Nat) (l : List α)
    (h : ∀ (k : Nat) (t : α), l[k]? = some t → f t ≤ b) : (l.map f).sum ≤ l.length * b := by
  induction l with
  | nil => simp
  | cons a l ih =>
    have h0 := h 0 a (by simp)
    have := ih (fun k t hk => h (k + 1) t (by simpa using hk))
    simp only [List.map_cons, List.sum_cons, List.length_cons]
    rw [Nat.add_mul]
    omega

/-- The work done in a reachable state is bounded. -/
theorem work_le {c : Nat} {rands : List Int} {s : Sys} (inv : Inv c rands s)
    (hr : ∀ v ∈ rands, v ≠ -1) : s.work ≤ workBound rands.length := by
  have h1 := sum_map_le Thread.work (4 * (rands.length + 2) + 3) s.threads
    (fun k t hk => thread_work_le inv hr hk)
  have hlen : s.threads.length ≤ rands.length + 3 := by
    have hpos := inv.pos
    obtain ⟨t, ht⟩ : ∃ t, s.threads[s.threads.length - 1]? = some t :=
      ⟨_, List.getElem?_eq_getElem (by omega)⟩
    have := (inv_kinds inv hr _ _ ht).1
    have hst : stages rands ≤ rands.length + 1 := by
      simp only [stages]
      omega
    omega
  calc s.work = (s.threads.map Thread.work).sum := rfl
    _ ≤ s.threads.length * (4 * (rands.length + 2) + 3) := h1
    _ ≤ (rands.length + 3) * (4 * (rands.length + 2) + 3) := Nat.mul_le_mul_right _ hlen

/-- No schedule of a run is longer than the bound. -/
theorem exec_length_le {c : Nat} {rands : List Int} {s : Sys} (hr : ∀ v ∈ rands, v ≠ -1)
    (sched : List Nat) (h : exec c (Sys.init c rands) sched = some s) :
    sched.length ≤ workBound rands.length := by
  have h1 := exec_work sched h
  have h2 := work_le (inv_reach sched h) hr
  omega

theorem exec_append {c : Nat} {s s1 s2 : Sys} {a b : List Nat} (h1 : exec c s a = some s1)
    (h2 : exec c s1 b = some s2) : exec c s (a ++ b) = some s2 := by
  induction a generalizing s with
  | nil =>
    simp only [exec, Option.some.injEq] at h1
    subst h1
    exact h2
  | cons i a ih =>
    simp only [exec] at h1
    cases hs : step c s i with
    | none => simp [hs] at h1
    | some s3 =>
      simp only [hs] at h1
      simp only [List.cons_append, exec, hs]
      exact ih h1

theorem not_terminal {c : Nat} {s : Sys} (h : terminal c s ≠ true) :
    ∃ i s1, step c s i = some s1 := by
  by_contra hno
  apply h
  simp only [terminal, List.all_eq_true, List.mem_range]
  intro i _
  cases hs : step c s i with
  | none => rfl
  | some s1 => exact absurd ⟨i, s1, hs⟩ hno

/-- From every reachable state some schedule leads to a state in which no thread can take a
step. -/
theorem exec_complete {c : Nat} {rands : List Int} (hr : ∀ v ∈ rands, v ≠ -1) :
    ∀ (m : Nat) (s : Sys), Inv c rands s → workBound rands.length - s.work ≤ m →
      ∃ sched s1, exec c s sched = some s1 ∧ terminal c s1 = true := by
  intro m
  induction m with
  | zero =>
    intro s inv hm
    by_cases ht : terminal c s = true
    · exact ⟨[], s, rfl, ht⟩
    · obtain ⟨i, s1, hs⟩ := not_terminal ht
      have h1 := step_work hs
      have h2 := work_le (inv_step inv hs) hr
      omega
  | succ m ih =>
    intro s inv hm
    by_cases ht : terminal c s = true
    · exact ⟨[], s, rfl, ht⟩
    · obtain ⟨i, s1, hs⟩ := not_terminal ht
      have h1 := step_work hs
      have inv1 := inv_step inv hs
      have h2 := work_le inv1 hr
      obtain ⟨sched, s2, he, ht2⟩ := ih s1 inv1 (by omega)
      exact ⟨i :: sched, s2, by simp [exec, hs, he], ht2⟩

/-- There is a complete run, and no schedule is longer than the bound. -/
theorem run_exists (c : Nat) {rands : List Int} (hr : ∀ v ∈ rands, v ≠ -1) :
    ∃ sched s, Run c rands sched s :=
  exec_complete hr _ _ (inv_init c rands) (le_refl _)

/-! ## Auxiliary facts for the results -/

theorem feed_correct_sorted {vs : List Int} (hs : List.Sorted (· ≤ ·) vs)
    (hge : ∀ v ∈ vs, -1 ≤ v) : (OutVars.init.feed vs).correct = 1 := by
  rw [(feed_correct OutVars.init vs).1]
  refine ⟨rfl, ?_⟩
  show List.Chain (· ≤ ·) (-1 : Int) vs
  rw [List.chain_iff_pairwise, List.pairwise_cons]
  exact ⟨hge, hs⟩

theorem flushed_suffix (rands : List Int) (j d : Nat) :
    ∃ pre, flushed rands (j + d) = pre ++ flushed rands j := by
  induction d with
  | zero => exact ⟨[], rfl⟩
  | succ d ih =>
    obtain ⟨pre, hpre⟩ := ih
    cases h : unsorted rands (j + d) with
    | nil => exact ⟨pre, by rw [← Nat.add_assoc, flushed_succ_nil h, hpre]⟩
    | cons v vs =>
      exact ⟨kept v vs :: pre, by rw [← Nat.add_assoc, flushed_succ_cons h, hpre]; rfl⟩

theorem insertionSort_ge (rands : List Int) :
    List.insertionSort (· ≥ ·) rands = (List.insertionSort (· ≤ ·) rands).reverse := by
  apply List.eq_of_perm_of_sorted (r := (· ≥ ·))
  · exact (List.perm_insertionSort _ _).trans
      ((List.reverse_perm _).trans (List.perm_insertionSort _ _)).symm
  · exact List.sorted_insertionSort _ _
  · have := List.sorted_insertionSort (· ≤ ·) rands
    exact List.pairwise_reverse.mpr this

/-- The value flushed by stage `k` is the `k`-th largest value. -/
theorem flushed_head (rands : List Int) {k : Nat} (hk1 : 1 ≤ k) (hk : k ≤ rands.length) :
    (flushed rands k).head? = (List.insertionSort (· ≥ ·) rands)[k - 1]? := by
  obtain ⟨pre, hpre⟩ := flushed_suffix rands k (rands.length - k)
  have hkd : k + (rands.length - k) = rands.length := by omega
  rw [hkd, flushed_full] at hpre
  have hl1 := congrArg List.length hpre
  rw [List.length_insertionSort, List.length_append, flushed_length] at hl1
  have hprelen : pre.length = rands.length - k := by
    have : min k rands.length = k := min_eq_left hk
    omega
  rw [insertionSort_ge, List.getElem?_reverse (by rw [List.length_insertionSort]; omega),
    List.length_insertionSort, hpre, List.getElem?_append_right (by omega),
    List.head?_eq_getElem?]
  congr 1
  omega

theorem sum_map_single {α : Type} (f : α → Nat) (l : List α) (j : Nat) (t : α)
    (hj : l[j]? = some t) (h0 : ∀ (k : Nat) (u : α), k ≠ j → l[k]? = some u → f u = 0) :
    (l.map f).sum = f t := by
  induction l generalizing j with
  | nil => simp at hj
  | cons a l ih =>
    cases j with
    | zero =>
      simp only [List.getElem?_cons_zero, Option.some.injEq] at hj
      subst hj
      have hz : (l.map f).sum = 0 := by
        apply List.sum_eq_zero
        intro x hx
        obtain ⟨u, hu, rfl⟩ := List.mem_map.mp hx
        obtain ⟨n, hn⟩ := List.getElem?_of_mem hu
        exact h0 (n + 1) u (by omega) (by simpa using hn)
      simp [hz]
    | succ j =>
      have ha : f a = 0 := h0 0 a (by omega) (by simp)
      have := ih j (by simpa using hj) (fun k u hk hu => h0 (k + 1) u (by omega) (by simpa using hu))
      simp [ha, this]

theorem created_log (n : Nat) (l : List Routine) (hlen : l.length = n + 1)
    (hc : ∀ i, i < n → l[i]? = some .comparator) (ho : l[n]? = some .output) :
    l.enum = (List.range n).map (fun i => (i, Routine.comparator)) ++ [(n, .output)] := by
  apply List.ext_getElem?
  intro i
  rw [List.getElem?_enum]
  by_cases hi : i < n
  · rw [hc i hi, List.getElem?_append_left (by simpa using hi), List.getElem?_map,
      List.getElem?_range hi]
    rfl
  · by_cases hin : i = n
    · subst hin
      rw [ho, List.getElem?_append_right (by simp)]
      simp
    · rw [List.getElem?_eq_none (by omega), List.getElem?_eq_none (by simp; omega)]
      rfl

theorem body_brk_iff (st : State) (h v : Int) :
    (comparator_body st h v).brk = true ↔ st = .END ∧ v = -1 := by
  cases st with
  | INITIAL => simp [comparator_body]
  | COMPARE_NO_THREAD =>
    by_cases hv : v = -1 <;> by_cases hlt : h > v <;> simp [comparator_body, hv, hlt]
  | COMPARE =>
    by_cases hv : v = -1 <;> by_cases hlt : h > v <;> simp [comparator_body, hv, hlt]
  | END => simp [comparator_body]

/-! ## Complete runs with a capacity of at most the number of values plus one

With such a capacity no thread returns before its successor has read its parameter
(`not_dangling`), and the run does what the pipeline is meant to do. -/

/-- The output thread of a complete run on at least one value. -/
theorem run_output {c : Nat} {rands : List Int} (hc : 1 ≤ c) (hcap : c ≤ rands.length + 1)
    (hn : 1 ≤ rands.length)
    (hr : ∀ v ∈ rands, v ≠ -1) {sched : List Nat} {s : Sys} (hrun : Run c rands sched s) :
    ∃ o, s.threads[rands.length + 1]? = some (.output o) ∧
      o.got = -1 :: (List.insertionSort (· ≤ ·) rands ++ [-1]) ∧ o.pc = .done ∧
      o.vars = { (OutVars.init.feed (List.insertionSort (· ≤ ·) rands)) with state := .END } := by
  have hne : rands ≠ [] := by
    intro h
    rw [h] at hn
    simp at hn
  have := stuck_output (inv_reach sched hrun.1) hrun.2 hc hr
    (not_dangling (inv_reach sched hrun.1) hr hcap)
  rwa [stages_of_ne_nil hne] at this

/-- For every input of `N ≥ 1` values, none of them the marker `-1`, and every capacity from 1
to `N + 1`: a complete run exists, and in every complete run (whatever the schedule) the output
thread has left its loop having read the first marker, then exactly the input sorted in
non-decreasing order (a sorted permutation of the input), then the second marker. -/
theorem pipeline_sorts (c : Nat) (rands : List Int) (hc : 1 ≤ c) (hcap : c ≤ rands.length + 1)
    (hn : 1 ≤ rands.length) (hr : ∀ v ∈ rands, v ≠ -1) :
    (∃ sched s, Run c rands sched s) ∧
      ∀ sched s, Run c rands sched s →
        ∃ o, s.threads[rands.length + 1]? = some (.output o) ∧ o.pc = .done ∧
          o.got = -1 :: (o.vars.observed ++ [-1]) ∧
          o.vars.observed = List.insertionSort (· ≤ ·) rands ∧
          List.Sorted (· ≤ ·) o.vars.observed ∧ o.vars.observed.Perm rands := by
  refine ⟨run_exists c hr, fun sched s hrun => ?_⟩
  obtain ⟨o, ho, hgot, hpc, hvars⟩ := run_output hc hcap hn hr hrun
  have hobs : o.vars.observed = List.insertionSort (· ≤ ·) rands := by
    rw [hvars]
    simp [feed_observed, OutVars.init]
  refine ⟨o, ho, hpc, by rw [hobs]; exact hgot, hobs, ?_, ?_⟩
  · rw [hobs]
    exact List.sorted_insertionSort _ _
  · rw [hobs]
    exact List.perm_insertionSort _ _

set_option maxRecDepth 100000 in
theorem pipeline_sorts_witness :
    (1 ≤ 1 ∧ 1 ≤ ([5, 3, 8, 1] : List Int).length + 1 ∧ 1 ≤ ([5, 3, 8, 1] : List Int).length ∧
      ∀ v ∈ ([5, 3, 8, 1] : List Int), v ≠ -1) ∧
      List.insertionSort (· ≤ ·) ([5, 3, 8, 1] : List Int) = [1, 3, 5, 8] ∧
      ((exec 1 (Sys.init 1 [5, 3, 8, 1]) demoSchedule).map fun s =>
          (terminal 1 s, s.threads[5]?)) =
        some (true, some (.output ⟨4, 0, ⟨.END, 4, 1, 8, [1, 3, 5, 8]⟩, .done,
          [-1, 1, 3, 5, 8, -1]⟩)) ∧
      ((∃ sched s, Run 1 [5, 3, 8, 1] sched s) ∧
        ∀ sched s, Run 1 [5, 3, 8, 1] sched s →
          ∃ o, s.threads[([5, 3, 8, 1] : List Int).length + 1]? = some (.output o) ∧
            o.pc = .done ∧ o.got = -1 :: (o.vars.observed ++ [-1]) ∧
            o.vars.observed = List.insertionSort (· ≤ ·) [5, 3, 8, 1] ∧
            List.Sorted (· ≤ ·) o.vars.observed ∧ o.vars.observed.Perm [5, 3, 8, 1]) :=
  ⟨⟨by decide, by decide, by decide, by decide⟩, by decide, by decide,
    pipeline_sorts 1 [5, 3, 8, 1] (by decide) (by decide) (by decide) (by decide)⟩

/-- For every input of `N` values, `1 ≤ N` and `N` within the range of the `int` parameter
`length`, none of them the marker, and every capacity from 1 to `N + 1`: a complete run exists,
and in every complete run the output thread has left its loop with `received = N`, having read
`N + 2` items of which `N` are real values and two are markers. -/
theorem sink_counts (c : Nat) (rands : List Int) (hc : 1 ≤ c) (hcap : c ≤ rands.length + 1)
    (hn : 1 ≤ rands.length) (hN : rands.length < 2147483648) (hr : ∀ v ∈ rands, v ≠ -1) :
    (∃ sched s, Run c rands sched s) ∧
      ∀ sched s, Run c rands sched s →
        ∃ o, s.threads[rands.length + 1]? = some (.output o) ∧ o.pc = .done ∧
          o.vars.received = rands.length ∧ o.vars.observed.length = rands.length ∧
          o.got.length = rands.length + 2 ∧ markers o.got = 2 := by
  refine ⟨run_exists c hr, fun sched s hrun => ?_⟩
  obtain ⟨o, ho, hgot, hpc, hvars⟩ := run_output hc hcap hn hr hrun
  have hreal : ∀ v ∈ List.insertionSort (· ≤ ·) rands, v ≠ -1 :=
    fun v hv => hr v ((List.perm_insertionSort _ _).subset hv)
  refine ⟨o, ho, hpc, ?_, ?_, ?_, ?_⟩
  · rw [hvars]
    show (OutVars.init.feed (List.insertionSort (· ≤ ·) rands)).received = _
    rw [feed_received _ _ (by simp [OutVars.init])
      (by simp only [OutVars.init, List.length_insertionSort]; omega)]
    simp [OutVars.init]
  · rw [hvars]
    simp [feed_observed, OutVars.init]
  · rw [hgot]
    simp
  · rw [hgot]
    have : markers (-1 :: (List.insertionSort (· ≤ ·) rands ++ [-1])) =
        markers [-1] + (markers (List.insertionSort (· ≤ ·) rands) + markers [-1]) := by
      rw [← markers_append, ← markers_append]
      rfl
    rw [this, markers_real hreal]
    decide

theorem sink_counts_witness :
    (1 ≤ 1 ∧ 1 ≤ ([5, 3, 8, 1] : List Int).length + 1 ∧ 1 ≤ ([5, 3, 8, 1] : List Int).length ∧
      ([5, 3, 8, 1] : List Int).length < 2147483648 ∧
      ∀ v ∈ ([5, 3, 8, 1] : List Int), v ≠ -1) ∧
      ((∃ sched s, Run 1 [5, 3, 8, 1] sched s) ∧
        ∀ sched s, Run 1 [5, 3, 8, 1] sched s →
          ∃ o, s.threads[([5, 3, 8, 1] : List Int).length + 1]? = some (.output o) ∧
            o.pc = .done ∧ o.vars.received = ([5, 3, 8, 1] : List Int).length ∧
            o.vars.observed.length = ([5, 3, 8, 1] : List Int).length ∧
            o.got.length = ([5, 3, 8, 1] : List Int).length + 2 ∧ markers o.got = 2) :=
  ⟨⟨by decide, by decide, by decide, by decide, by decide⟩,
    sink_counts 1 [5, 3, 8, 1] (by decide) (by decide) (by decide) (by decide) (by decide)⟩

/-- For every input of `N` values as the generator produces them (each in `0..RAND_MAX`, so
never the marker), `1 ≤ N` and `N` within the range of the `int` parameter `length`, and every
capacity from 1 to `N + 1`: a complete run exists, and every complete run ends with the output
thread reporting `received = N` and `correct = 1`, having observed the input in non-decreasing
order. -/
theorem run_reports_correct (c : Nat) (RAND_MAX : Int) (rands : List Int) (hc : 1 ≤ c)
    (hcap : c ≤ rands.length + 1) (hn : 1 ≤ rands.length) (hN : rands.length < 2147483648)
    (hrange : ∀ v ∈ rands, 0 ≤ v ∧ v ≤ RAND_MAX) :
    (∃ sched s, Run c rands sched s) ∧
      ∀ sched s, Run c rands sched s →
        ∃ o, s.threads[rands.length + 1]? = some (.output o) ∧ o.pc = .done ∧
          o.vars.received = rands.length ∧ o.vars.correct = 1 ∧
          o.vars.observed = List.insertionSort (· ≤ ·) rands := by
  have hr : ∀ v ∈ rands, v ≠ -1 := fun v hv h => by
    have := (hrange v hv).1
    omega
  refine ⟨run_exists c hr, fun sched s hrun => ?_⟩
  obtain ⟨o, ho, hgot, hpc, hvars⟩ := run_output hc hcap hn hr hrun
  refine ⟨o, ho, hpc, ?_, ?_, ?_⟩
  · rw [hvars]
    show (OutVars.init.feed (List.insertionSort (· ≤ ·) rands)).received = _
    rw [feed_received _ _ (by simp [OutVars.init])
      (by simp only [OutVars.init, List.length_insertionSort]; omega)]
    simp [OutVars.init]
  · rw [hvars]
    apply feed_correct_sorted (List.sorted_insertionSort _ _)
    intro v hv
    have := (hrange v ((List.perm_insertionSort _ _).subset hv)).1
    omega
  · rw [hvars]
    simp [feed_observed, OutVars.init]

set_option maxRecDepth 100000 in
theorem run_reports_correct_witness :
    (1 ≤ 1 ∧ 1 ≤ ([5, 3, 8, 1] : List Int).length + 1 ∧ 1 ≤ ([5, 3, 8, 1] : List Int).length ∧
      ([5, 3, 8, 1] : List Int).length < 2147483648 ∧
      ∀ v ∈ ([5, 3, 8, 1] : List Int), 0 ≤ v ∧ v ≤ 2147483647) ∧
      List.insertionSort (· ≤ ·) ([5, 3, 8, 1] : List Int) = [1, 3, 5, 8] ∧
      ((exec 1 (Sys.init 1 [5, 3, 8, 1]) demoSchedule).map fun s =>
          (terminal 1 s, s.threads[5]?.map Thread.got)) =
        some (true, some [-1, 1, 3, 5, 8, -1]) ∧
      ((∃ sched s, Run 1 [5, 3, 8, 1] sched s) ∧
        ∀ sched s, Run 1 [5, 3, 8, 1] sched s →
          ∃ o, s.threads[([5, 3, 8, 1] : List Int).length + 1]? = some (.output o) ∧
            o.pc = .done ∧ o.vars.received = ([5, 3, 8, 1] : List Int).length ∧
            o.vars.correct = 1 ∧
            o.vars.observed = List.insertionSort (· ≤ ·) [5, 3, 8, 1]) :=
  ⟨⟨by decide, by decide, by decide, by decide, by decide⟩, by decide, by decide,
    run_reports_correct 1 2147483647 [5, 3, 8, 1] (by decide) (by decide) (by decide)
      (by decide) (by decide)⟩

/-- The comparator of stage `k + 1` in a complete run on at least one value. -/
theorem run_comparator {c : Nat} {rands : List Int} (hc : 1 ≤ c) (hcap : c ≤ rands.length + 1)
    (hr : ∀ v ∈ rands, v ≠ -1) {sched : List Nat} {s : Sys} (hrun : Run c rands sched s)
    {k : Nat} (hk : k < rands.length) :
    ∃ x, s.threads[k + 1]? = some (.comparator x) ∧ x.got = stream rands k ∧
      x.put = stream rands (k + 1) ∧ x.pc = .done ∧
      x.stored_number = (comparator_loop Trace.init (stream rands k)).stored_number := by
  have hne : rands ≠ [] := by
    intro h
    rw [h] at hk
    simp at hk
  obtain ⟨x, hx, hgot, hput, _, hpc, hst, _⟩ :=
    stuck_comparator (inv_reach sched hrun.1) hrun.2 hc hr
      (not_dangling (inv_reach sched hrun.1) hr hcap)
      (k := k) (by rw [stages_of_ne_nil hne]; exact hk)
  exact ⟨x, hx, hgot, hput, hpc hne, hst⟩

/-- For every input of `N ≥ 1` values, none of them the marker, and every capacity from 1 to
`N + 1`: a complete run exists, and every complete run ends with `N + 2` threads: the generator,
`N` comparator threads and one output thread; the `pthread_create` calls made are, in order, one
for a comparator by the generator (thread 0), one for a comparator by each of the comparator
threads `1 .. N - 1`, and one for the output thread by comparator thread `N`. -/
theorem run_creates (c : Nat) (rands : List Int) (hc : 1 ≤ c) (hcap : c ≤ rands.length + 1)
    (hn : 1 ≤ rands.length) (hr : ∀ v ∈ rands, v ≠ -1) :
    (∃ sched s, Run c rands sched s) ∧
      ∀ sched s, Run c rands sched s →
        s.threads.length = rands.length + 2 ∧
          (∃ g, s.threads[0]? = some (.generator g)) ∧
          (∀ k, 1 ≤ k → k ≤ rands.length → ∃ x, s.threads[k]? = some (.comparator x)) ∧
          (∃ o, s.threads[rands.length + 1]? = some (.output o)) ∧
          s.created =
            (List.range rands.length).map (fun i => (i, Routine.comparator)) ++
              [(rands.length, .output)] := by
  have hne : rands ≠ [] := by
    intro h
    rw [h] at hn
    simp at hn
  refine ⟨run_exists c hr, fun sched s hrun => ?_⟩
  have inv := inv_reach sched hrun.1
  have hnd := not_dangling inv hr hcap
  have hlen := stuck_length inv hrun.2 hc hr hnd
  rw [stages_of_ne_nil hne] at hlen
  obtain ⟨g, hg, _, _⟩ := stuck_generator inv hrun.2 hc hr
  obtain ⟨o, ho, _, _, _⟩ := run_output hc hcap hn hr hrun
  have hcmp : ∀ k, 1 ≤ k → k ≤ rands.length → ∃ x, s.threads[k]? = some (.comparator x) := by
    intro k hk1 hk2
    obtain ⟨j, rfl⟩ : ∃ j, k = j + 1 := ⟨k - 1, by omega⟩
    obtain ⟨x, hx, _⟩ := run_comparator hc hcap hr hrun (k := j) (by omega)
    exact ⟨x, hx⟩
  refine ⟨hlen, ⟨g, hg⟩, hcmp, ⟨o, ho⟩, ?_⟩
  rw [inv.log]
  apply created_log
  · rw [List.length_map, List.length_tail, hlen]
    rfl
  · intro i hi
    obtain ⟨x, hx⟩ := hcmp (i + 1) (by omega) (by omega)
    rw [List.getElem?_map, List.getElem?_tail, hx]
    rfl
  · rw [List.getElem?_map, List.getElem?_tail, ho]
    rfl

set_option maxRecDepth 100000 in
theorem run_creates_witness :
    (1 ≤ 1 ∧ 1 ≤ ([5, 3, 8, 1] : List Int).length + 1 ∧ 1 ≤ ([5, 3, 8, 1] : List Int).length ∧
      ∀ v ∈ ([5, 3, 8, 1] : List Int), v ≠ -1) ∧
      ((exec 1 (Sys.init 1 [5, 3, 8, 1]) demoSchedule).map fun s =>
          (terminal 1 s, s.threads.length, s.created)) =
        some (true, 6, [(0, .comparator), (1, .comparator), (2, .comparator),
          (3, .comparator), (4, .output)]) ∧
      ((∃ sched s, Run 1 [5, 3, 8, 1] sched s) ∧
        ∀ sched s, Run 1 [5, 3, 8, 1] sched s →
          s.threads.length = ([5, 3, 8, 1] : List Int).length + 2 ∧
            (∃ g, s.threads[0]? = some (.generator g)) ∧
            (∀ k, 1 ≤ k → k ≤ ([5, 3, 8, 1] : List Int).length →
              ∃ x, s.threads[k]? = some (.comparator x)) ∧
            (∃ o, s.threads[([5, 3, 8, 1] : List Int).length + 1]? = some (.output o)) ∧
            s.created =
              (List.range ([5, 3, 8, 1] : List Int).length).map
                  (fun i => (i, Routine.comparator)) ++
                [(([5, 3, 8, 1] : List Int).length, .output)]) :=
  ⟨⟨by decide, by decide, by decide, by decide⟩, by decide,
    run_creates 1 [5, 3, 8, 1] (by decide) (by decide) (by decide) (by decide)⟩

/-- For every input of `N ≥ 1` values, none of them the marker, and every capacity from 1 to
`N + 1`: a complete run exists; no schedule is longer than `workBound N` steps; and in every
state in which no thread can take a step, the generator, each of the `N` comparator threads and
the output thread have reached the end of their routine, every comparator and the output thread
has read exactly the values its predecessor has written, every comparator has written a stream
with two markers of which the second is the last value, every channel is empty and `sorted` has
been posted exactly once. A comparator leaves its loop in exactly one case: in state `END` on
reading a marker, which is then the one value it sends. -/
theorem run_terminates (c : Nat) (rands : List Int) (hc : 1 ≤ c)
    (hcap : c ≤ rands.length + 1) (hn : 1 ≤ rands.length) (hr : ∀ v ∈ rands, v ≠ -1) :
    (∃ sched s, Run c rands sched s) ∧
      (∀ sched s, exec c (Sys.init c rands) sched = some s →
        sched.length ≤ workBound rands.length) ∧
      (∀ sched s, Run c rands sched s →
        (∀ (k : Nat) (t : Thread), s.threads[k]? = some t → t.finished = true) ∧
          (∀ k, 1 ≤ k → k ≤ rands.length →
            ∃ u x, s.threads[k - 1]? = some u ∧ s.threads[k]? = some (.comparator x) ∧
              x.pc = .done ∧ x.got = u.put ∧ markers x.put = 2 ∧ x.put.getLast? = some (-1)) ∧
          (∃ u o, s.threads[rands.length]? = some u ∧
            s.threads[rands.length + 1]? = some (.output o) ∧ o.pc = .done ∧ o.got = u.put) ∧
          (∀ k, k ≤ rands.length → ∃ ch, s.chans[k]? = some ch ∧ ch.full = 0 ∧ ch.empty = c) ∧
          s.sorted = 1) ∧
      ∀ (st : State) (h v : Int),
        ((comparator_body st h v).brk = true ↔ st = .END ∧ v = -1) ∧
          (st = .END → (comparator_body st h v).sends = [v]) := by
  have hne : rands ≠ [] := by
    intro h
    rw [h] at hn
    simp at hn
  refine ⟨run_exists c hr, fun sched s h => exec_length_le hr sched h, fun sched s hrun => ?_,
    fun st h v => ⟨body_brk_iff st h v, fun hst => by simp [hst, comparator_body]⟩⟩
  have inv := inv_reach sched hrun.1
  have hnd := not_dangling inv hr hcap
  have hlen := stuck_length inv hrun.2 hc hr hnd
  have hst := stages_of_ne_nil hne
  rw [hst] at hlen
  obtain ⟨g, hg, hgdone, _⟩ := stuck_generator inv hrun.2 hc hr
  obtain ⟨o, ho, _, hodone, _⟩ := run_output hc hcap hn hr hrun
  have hchan : ∀ k, k ≤ rands.length →
      ∃ ch, s.chans[k]? = some ch ∧ ch.full = 0 ∧ ch.empty = c ∧
        ∃ u t, s.threads[k]? = some u ∧ s.threads[k + 1]? = some t ∧ t.got = u.put := by
    intro k hk
    exact stuck_chans inv hrun.2 hc hr hnd (by rw [hst]; exact hk)
  refine ⟨?_, ?_, ?_, ?_, ?_⟩
  · intro k t ht
    have hklt := lt_of_getElem?_eq_some ht
    by_cases hk0 : k = 0
    · subst hk0
      rw [hg] at ht
      cases ht
      simpa [Thread.finished] using hgdone
    · by_cases hkl : k = rands.length + 1
      · subst hkl
        rw [ho] at ht
        cases ht
        simpa [Thread.finished] using hodone
      · obtain ⟨j, rfl⟩ : ∃ j, k = j + 1 := ⟨k - 1, by omega⟩
        obtain ⟨x, hx, _, _, hpc, _⟩ := run_comparator hc hcap hr hrun (k := j) (by omega)
        rw [hx] at ht
        cases ht
        simpa [Thread.finished] using hpc
  · intro k hk1 hk2
    obtain ⟨j, rfl⟩ : ∃ j, k = j + 1 := ⟨k - 1, by omega⟩
    obtain ⟨x, hx, _, hput, hpc, _⟩ := run_comparator hc hcap hr hrun (k := j) (by omega)
    obtain ⟨ch, _, _, _, u, t, hu, ht, hgu⟩ := hchan j (by omega)
    rw [hx] at ht
    cases ht
    obtain ⟨y, hy, hy1⟩ := stream_sealed hr (k := j + 1) (by rw [hst]; omega)
    refine ⟨u, x, hu, hx, hpc, hgu, ?_, ?_⟩
    · rw [hput, hy, markers_append, hy1]
      decide
    · rw [hput, hy]
      simp
  · obtain ⟨ch, _, _, _, u, t, hu, ht, hgu⟩ := hchan rands.length (le_refl _)
    rw [ho] at ht
    cases ht
    exact ⟨u, o, hu, ho, hodone, hgu⟩
  · intro k hk
    obtain ⟨ch, hch, h1, h2, _⟩ := hchan k hk
    exact ⟨ch, hch, h1, h2⟩
  · rw [inv.posted, sum_map_single Thread.posted s.threads (rands.length + 1) _ ho]
    · simp [Thread.posted, hodone]
    · intro k u hk hu
      have hklt := lt_of_getElem?_eq_some hu
      by_cases hk0 : k = 0
      · subst hk0
        rw [hg] at hu
        cases hu
        rfl
      · obtain ⟨j, rfl⟩ : ∃ j, k = j + 1 := ⟨k - 1, by omega⟩
        obtain ⟨x, hx, _⟩ := run_comparator hc hcap hr hrun (k := j) (by omega)
        rw [hx] at hu
        cases hu
        rfl

set_option maxRecDepth 100000 in
theorem run_terminates_witness :
    (1 ≤ 1 ∧ 1 ≤ ([5, 3, 8, 1] : List Int).length + 1 ∧ 1 ≤ ([5, 3, 8, 1] : List Int).length ∧
      ∀ v ∈ ([5, 3, 8, 1] : List Int), v ≠ -1) ∧
      ((exec 1 (Sys.init 1 [5, 3, 8, 1]) demoSchedule).map fun s =>
          (terminal 1 s, s.threads.map Thread.finished, s.chans.map Channel.full, s.sorted)) =
        some (true, [true, true, true, true, true, true], [0, 0, 0, 0, 0], 1) ∧
      ((∃ sched s, Run 1 [5, 3, 8, 1] sched s) ∧
      (∀ sched s, exec 1 (Sys.init 1 [5, 3, 8, 1]) sched = some s →
        sched.length ≤ workBound ([5, 3, 8, 1] : List Int).length) ∧
      (∀ sched s, Run 1 [5, 3, 8, 1] sched s →
        (∀ (k : Nat) (t : Thread), s.threads[k]? = some t → t.finished = true) ∧
          (∀ k, 1 ≤ k → k ≤ ([5, 3, 8, 1] : List Int).length →
            ∃ u x, s.threads[k - 1]? = some u ∧ s.threads[k]? = some (.comparator x) ∧
              x.pc = .done ∧ x.got = u.put ∧ markers x.put = 2 ∧ x.put.getLast? = some (-1)) ∧
          (∃ u o, s.threads[([5, 3, 8, 1] : List Int).length]? = some u ∧
            s.threads[([5, 3, 8, 1] : List Int).length + 1]? = some (.output o) ∧
            o.pc = .done ∧ o.got = u.put) ∧
          (∀ k, k ≤ ([5, 3, 8, 1] : List Int).length →
            ∃ ch, s.chans[k]? = some ch ∧ ch.full = 0 ∧ ch.empty = 1) ∧
          s.sorted = 1) ∧
      ∀ (st : State) (h v : Int),
        ((comparator_body st h v).brk = true ↔ st = .END ∧ v = -1) ∧
          (st = .END → (comparator_body st h v).sends = [v])) :=
  ⟨⟨by decide, by decide, by decide, by decide⟩, by decide,
    run_terminates 1 [5, 3, 8, 1] (by decide) (by decide) (by decide) (by decide)⟩

/-- The loop of a comparator after a first value and further real values. -/
theorem loop_head (v0 : Int) (a : List Int) (ha : ∀ v ∈ a, v ≠ -1) :
    Comparing (comparator_loop Trace.init (v0 :: a)) ∧
      (comparator_loop Trace.init (v0 :: a)).stored_number = kept v0 a := by
  have h0 : Comparing (Trace.init.next v0) := by
    rw [loop_first]; exact ⟨Or.inl ⟨rfl, rfl⟩, rfl⟩
  rw [comparator_loop_cons, loop_reals h0 a ha, loop_first]
  by_cases hnil : a = [] <;> simp [hnil, Comparing]

/-- For every input of `N ≥ 1` values, none of them the marker, every capacity from 1 to
`N + 1`, and every `k` with `1 ≤ k ≤ N`: a complete run exists, and in every complete run the
`k`-th comparator thread has read real values `a`, then its first marker, then more; the value
it holds after `a` (when it receives its first marker) is the value it sends right after that
marker and the value it still holds at the end, and it is element `k - 1` of the input sorted in
non-increasing order. -/
theorem stage_holds_kth_largest (c : Nat) (rands : List Int) (k : Nat) (hc : 1 ≤ c)
    (hcap : c ≤ rands.length + 1) (hr : ∀ v ∈ rands, v ≠ -1) (hk1 : 1 ≤ k)
    (hk2 : k ≤ rands.length) :
    (∃ sched s, Run c rands sched s) ∧
      ∀ sched s, Run c rands sched s →
        ∃ x a rest, s.threads[k]? = some (.comparator x) ∧ x.got = a ++ -1 :: rest ∧
          (∀ v ∈ a, v ≠ -1) ∧
          (comparator_loop Trace.init a).stored_number = x.stored_number ∧
          ((comparator_loop Trace.init a).next (-1)).sent =
            (comparator_loop Trace.init a).sent ++ [-1, x.stored_number] ∧
          (List.insertionSort (· ≥ ·) rands)[k - 1]? = some x.stored_number := by
  refine ⟨run_exists c hr, fun sched s hrun => ?_⟩
  obtain ⟨j, rfl⟩ : ∃ j, k = j + 1 := ⟨k - 1, by omega⟩
  obtain ⟨x, hx, hgot, _, _, hst⟩ := run_comparator hc hcap hr hrun (k := j) (by omega)
  have hlen := unsorted_length rands j
  have hreal := unsorted_real hr j
  have hshape := stream_shape hr j (by omega)
  obtain ⟨_, _, hhead⟩ := loop_on_stream hr (k := j) (by omega)
  cases h : unsorted rands j with
  | nil => rw [h] at hlen; simp at hlen; omega
  | cons v0 a =>
    rw [h] at hreal hshape
    have ha : ∀ v ∈ a, v ≠ -1 := fun w hw => hreal w (by simp [hw])
    obtain ⟨hcmp, hkept⟩ := loop_head v0 a ha
    have hfin : (comparator_loop Trace.init (stream rands j)).stored_number = kept v0 a := by
      rw [hshape, loop_stream v0 a (flushed rands j) ha (flushed_real hr j)]
    refine ⟨x, v0 :: a, flushed rands j ++ [-1], hx, by rw [hgot, hshape], hreal, ?_, ?_, ?_⟩
    · rw [hkept, hst, hfin]
    · rw [loop_flush hcmp, hst, hfin, hkept]
    · rw [← flushed_head rands (by omega) hk2, hhead, hst]

set_option maxRecDepth 100000 in
theorem stage_holds_kth_largest_witness :
    (1 ≤ 1 ∧ 1 ≤ ([5, 3, 8, 1] : List Int).length + 1 ∧
      (∀ v ∈ ([5, 3, 8, 1] : List Int), v ≠ -1) ∧ 1 ≤ 2 ∧
      2 ≤ ([5, 3, 8, 1] : List Int).length) ∧
      (List.insertionSort (· ≥ ·) ([5, 3, 8, 1] : List Int))[2 - 1]? = some 5 ∧
      ((exec 1 (Sys.init 1 [5, 3, 8, 1]) demoSchedule).map fun s =>
          (terminal 1 s, s.threads[2]?)) =
        some (true, some (.comparator ⟨1, 2, 0, 0, 5, .END, .done, [3, 5, 1, -1, 8, -1],
          [3, 1, -1, 5, 8, -1]⟩)) ∧
      ((∃ sched s, Run 1 [5, 3, 8, 1] sched s) ∧
        ∀ sched s, Run 1 [5, 3, 8, 1] sched s →
          ∃ x a rest, s.threads[2]? = some (.comparator x) ∧ x.got = a ++ -1 :: rest ∧
            (∀ v ∈ a, v ≠ -1) ∧
            (comparator_loop Trace.init a).stored_number = x.stored_number ∧
            ((comparator_loop Trace.init a).next (-1)).sent =
              (comparator_loop Trace.init a).sent ++ [-1, x.stored_number] ∧
            (List.insertionSort (· ≥ ·) ([5, 3, 8, 1] : List Int))[2 - 1]? =
              some x.stored_number) :=
  ⟨⟨by decide, by decide, by decide, by decide, by decide⟩, by decide, by decide,
    stage_holds_kth_largest 1 [5, 3, 8, 1] 2 (by decide) (by decide) (by decide) (by decide)
      (by decide)⟩

/-- Where there is an output thread, every thread before it has read its parameter. -/
theorem not_dangling_of_output {c : Nat} {rands : List Int} {s : Sys} (inv : Inv c rands s)
    {i : Nat} {o : Output} (ho : s.threads[i]? = some (.output o)) : s.dangling = false := by
  cases h : s.dangling with
  | false => rfl
  | true =>
    obtain ⟨k, r, p, u, hk, _, _⟩ := entry_of_dangling h
    have h1 := inv.succ k _ hk
    have h2 := inv.succ i _ ho
    simp only [Thread.created] at h1 h2
    have hki : k = i := by omega
    subst hki
    rw [hk] at ho
    cases ho

/-- Every output thread of a complete run is the one at the end of the pipeline. -/
theorem run_output_any {c : Nat} {rands : List Int} (hc : 1 ≤ c) (hr : ∀ v ∈ rands, v ≠ -1)
    {sched : List Nat} {s : Sys} (hrun : Run c rands sched s) {i : Nat} {o : Output}
    (ho : s.threads[i]? = some (.output o)) :
    o.pc = .done ∧
      o.vars = { (OutVars.init.feed (List.insertionSort (· ≤ ·) rands)) with state := .END } := by
  have inv := inv_reach sched hrun.1
  obtain ⟨o1, ho1, _, hpc, hvars⟩ :=
    stuck_output inv hrun.2 hc hr (not_dangling_of_output inv ho)
  obtain ⟨hi, hkind⟩ := inv_kinds inv hr i _ ho
  have hi1 : i = stages rands + 1 := by
    by_cases h0 : i = 0
    · simp [h0, Thread.routine] at hkind
    · by_cases h1 : i ≤ stages rands
      · simp [h0, h1, Thread.routine] at hkind
      · omega
  subst hi1
  rw [ho1] at ho
  cases ho
  exact ⟨hpc, hvars⟩

/-- For every input of `N` values without the marker among them and every two capacities from 1
to `N + 1`: complete runs exist for both, and for every two complete runs, whatever their
schedules, each has an output thread, these have left their loops, and their observed
sequences, their counts of received values and their correctness flags are the same. -/
theorem capacity_independent (c1 c2 : Nat) (rands : List Int) (h1 : 1 ≤ c1) (h2 : 1 ≤ c2)
    (hcap1 : c1 ≤ rands.length + 1) (hcap2 : c2 ≤ rands.length + 1)
    (hr : ∀ v ∈ rands, v ≠ -1) :
    (∃ sched s, Run c1 rands sched s) ∧ (∃ sched s, Run c2 rands sched s) ∧
      ∀ sched1 s1 sched2 s2, Run c1 rands sched1 s1 → Run c2 rands sched2 s2 →
        (∃ (i : Nat) (o : Output), s1.threads[i]? = some (.output o)) ∧
          (∃ (i : Nat) (o : Output), s2.threads[i]? = some (.output o)) ∧
          ∀ (i1 : Nat) (o1 : Output) (i2 : Nat) (o2 : Output),
            s1.threads[i1]? = some (.output o1) →
            s2.threads[i2]? = some (.output o2) →
            o1.pc = .done ∧ o2.pc = .done ∧ o1.vars.observed = o2.vars.observed ∧
              o1.vars.received = o2.vars.received ∧ o1.vars.correct = o2.vars.correct := by
  refine ⟨run_exists c1 hr, run_exists c2 hr, fun sched1 s1 sched2 s2 hrun1 hrun2 => ?_⟩
  obtain ⟨o1, ho1, _⟩ := stuck_output (inv_reach sched1 hrun1.1) hrun1.2 h1 hr
    (not_dangling (inv_reach sched1 hrun1.1) hr hcap1)
  obtain ⟨o2, ho2, _⟩ := stuck_output (inv_reach sched2 hrun2.1) hrun2.2 h2 hr
    (not_dangling (inv_reach sched2 hrun2.1) hr hcap2)
  refine ⟨⟨_, o1, ho1⟩, ⟨_, o2, ho2⟩, fun i1 p1 i2 p2 hp1 hp2 => ?_⟩
  obtain ⟨hd1, hv1⟩ := run_output_any h1 hr hrun1 hp1
  obtain ⟨hd2, hv2⟩ := run_output_any h2 hr hrun2 hp2
  refine ⟨hd1, hd2, ?_, ?_, ?_⟩ <;> rw [hv1, hv2]

theorem capacity_independent_witness :
    (1 ≤ 1 ∧ 1 ≤ 5 ∧ 1 ≤ ([5, 3, 8, 1] : List Int).length + 1 ∧
      5 ≤ ([5, 3, 8, 1] : List Int).length + 1 ∧ ∀ v ∈ ([5, 3, 8, 1] : List Int), v ≠ -1) ∧
      ((∃ sched s, Run 1 [5, 3, 8, 1] sched s) ∧ (∃ sched s, Run 5 [5, 3, 8, 1] sched s) ∧
        ∀ sched1 s1 sched2 s2, Run 1 [5, 3, 8, 1] sched1 s1 → Run 5 [5, 3, 8, 1] sched2 s2 →
          (∃ (i : Nat) (o : Output), s1.threads[i]? = some (.output o)) ∧
            (∃ (i : Nat) (o : Output), s2.threads[i]? = some (.output o)) ∧
            ∀ (i1 : Nat) (o1 : Output) (i2 : Nat) (o2 : Output),
            s1.threads[i1]? = some (.output o1) →
              s2.threads[i2]? = some (.output o2) →
              o1.pc = .done ∧ o2.pc = .done ∧ o1.vars.observed = o2.vars.observed ∧
                o1.vars.received = o2.vars.received ∧ o1.vars.correct = o2.vars.correct) :=
  ⟨⟨by decide, by decide, by decide, by decide, by decide⟩,
    capacity_independent 1 5 [5, 3, 8, 1] (by decide) (by decide) (by decide) (by decide)
      (by decide)⟩

/-! ## The steps of a comparator, state by state -/

theorem body_compare (st : State) (h v : Int)
    (hst : st = .COMPARE_NO_THREAD ∨ st = .COMPARE) (hv : v ≠ -1) :
    comparator_body st h v =
      { state := .COMPARE, stored_number := max v h
        create := if st = .COMPARE_NO_THREAD then some .comparator else none
        sends := [min v h], brk := false } := by
  rcases hst with rfl | rfl
  · by_cases hlt : h > v
    · have h1 : max v h = h := max_eq_right (le_of_lt hlt)
      have h2 : min v h = v := min_eq_left (le_of_lt hlt)
      simp [comparator_body, hv, hlt, h1, h2]
    · have h1 : max v h = v := max_eq_left (not_lt.mp hlt)
      have h2 : min v h = h := min_eq_right (not_lt.mp hlt)
      simp [comparator_body, hv, hlt, h1, h2]
  · by_cases hlt : h > v
    · have h1 : max v h = h := max_eq_right (le_of_lt hlt)
      have h2 : min v h = v := min_eq_left (le_of_lt hlt)
      simp [comparator_body, hv, hlt, h1, h2]
    · have h1 : max v h = v := max_eq_left (not_lt.mp hlt)
      have h2 : min v h = h := min_eq_right (not_lt.mp hlt)
      simp [comparator_body, hv, hlt, h1, h2]

theorem min_max_perm (v h : Int) : [min v h, max v h].Perm [v, h] := by
  by_cases hle : v ≤ h
  · rw [min_eq_left hle, max_eq_right hle]
  · have hle' : h ≤ v := le_of_lt (not_le.mp hle)
    rw [min_eq_right hle', max_eq_left hle']
    exact List.Perm.swap _ _ _

/-- C14. A comparator in state `COMPARE_NO_THREAD` or `COMPARE` that holds `h` and reads a real
value `v` (not the marker) sends exactly one value, the smaller of `v` and `h`, holds the larger
of the two afterwards, goes to state `COMPARE` and stays in its loop; the value sent and the
value held are `v` and `h` in some order. -/
theorem compare_step (st : State) (h v : Int)
    (hst : st = .COMPARE_NO_THREAD ∨ st = .COMPARE) (hv : v ≠ -1) :
    (comparator_body st h v).sends = [min v h] ∧
      (comparator_body st h v).stored_number = max v h ∧
      (comparator_body st h v).state = .COMPARE ∧
      (comparator_body st h v).brk = false ∧
      ((comparator_body st h v).sends ++ [(comparator_body st h v).stored_number]).Perm
        [v, h] := by
  rw [body_compare st h v hst hv]
  exact ⟨rfl, rfl, rfl, rfl, min_max_perm v h⟩

theorem compare_step_witness :
    ((State.COMPARE = .COMPARE_NO_THREAD ∨ State.COMPARE = .COMPARE) ∧ (3 : Int) ≠ -1) ∧
      comparator_body .COMPARE 5 3 =
        { state := .COMPARE, stored_number := 5, create := none, sends := [3],
          brk := false } ∧
      ((comparator_body .COMPARE 5 3).sends = [min 3 5] ∧
        (comparator_body .COMPARE 5 3).stored_number = max 3 5 ∧
        (comparator_body .COMPARE 5 3).state = .COMPARE ∧
        (comparator_body .COMPARE 5 3).brk = false ∧
        ((comparator_body .COMPARE 5 3).sends ++
          [(comparator_body .COMPARE 5 3).stored_number]).Perm [3, 5]) :=
  ⟨⟨by decide, by decide⟩, by decide, compare_step .COMPARE 5 3 (by decide) (by decide)⟩

/-- C15. A comparator in state `COMPARE_NO_THREAD` or `COMPARE` that holds `h` and reads the
marker sends exactly two values, the marker first and `h` second, keeps `h`, goes to state `END`
and stays in its loop; in state `COMPARE_NO_THREAD` the thread it creates before sending is the
output thread, in state `COMPARE` it creates none. -/
theorem flush_step (st : State) (h : Int) (hst : st = .COMPARE_NO_THREAD ∨ st = .COMPARE) :
    (comparator_body st h (-1)).sends = [-1, h] ∧
      (comparator_body st h (-1)).state = .END ∧
      (comparator_body st h (-1)).stored_number = h ∧
      (comparator_body st h (-1)).brk = false ∧
      (st = .COMPARE_NO_THREAD → (comparator_body st h (-1)).create = some .output) ∧
      (st = .COMPARE → (comparator_body st h (-1)).create = none) := by
  rcases hst with rfl | rfl <;> simp [comparator_body]

theorem flush_step_witness :
    (State.COMPARE_NO_THREAD = .COMPARE_NO_THREAD ∨ State.COMPARE_NO_THREAD = .COMPARE) ∧
      comparator_body .COMPARE_NO_THREAD 7 (-1) =
        { state := .END, stored_number := 7, create := some .output, sends := [-1, 7],
          brk := false } ∧
      ((comparator_body .COMPARE_NO_THREAD 7 (-1)).sends = [-1, 7] ∧
        (comparator_body .COMPARE_NO_THREAD 7 (-1)).state = .END ∧
        (comparator_body .COMPARE_NO_THREAD 7 (-1)).stored_number = 7 ∧
        (comparator_body .COMPARE_NO_THREAD 7 (-1)).brk = false ∧
        (State.COMPARE_NO_THREAD = .COMPARE_NO_THREAD →
          (comparator_body .COMPARE_NO_THREAD 7 (-1)).create = some .output) ∧
        (State.COMPARE_NO_THREAD = .COMPARE →
          (comparator_body .COMPARE_NO_THREAD 7 (-1)).create = none)) :=
  ⟨by decide, by decide, flush_step .COMPARE_NO_THREAD 7 (by decide)⟩

/-- C16. A comparator in state `END` that holds `h` and reads a value `x` sends exactly `x`,
keeps `h`, stays in state `END`, creates no thread, and leaves its loop exactly when `x` is the
marker: after the value is written the thread is at its end when `x` is the marker and back at
its `sem_wait(read_full)` otherwise. Real values read one after the other in state `END` are
sent in the order in which they are read. -/
theorem drain_step (h x : Int) :
    comparator_body .END h x =
        { state := .END, stored_number := h, create := none, sends := [x],
          brk := decide (x = -1) } ∧
      Pc.after (comparator_body .END h x).sends (comparator_body .END h x).brk =
        .send [x] (decide (x = -1)) ∧
      Pc.after [] (comparator_body .END h x).brk = (if x = -1 then .done else .recv) ∧
      ∀ (t : Trace) (vs : List Int), t.state = .END → t.brk = false → (∀ v ∈ vs, v ≠ -1) →
        comparator_loop t vs = { t with sent := t.sent ++ vs } := by
  refine ⟨rfl, rfl, ?_, fun t vs hs hb hvs => loop_drain hs hb vs hvs⟩
  by_cases hx : x = -1 <;> simp [comparator_body, Pc.after, hx]

/-- C18, as the claim states it, fails: a comparator in state `COMPARE` that holds 5 and reads 3
sends 3, the smaller of the two, and not 5, the bigger. -/
theorem forwards_bigger_counterexample :
    (comparator_body .COMPARE 5 3).sends = [3] ∧ max (5 : Int) 3 = 5 ∧
      (comparator_body .COMPARE 5 3).sends ≠ [max 5 3] ∧
      (comparator_body .COMPARE 5 3).stored_number = 5 := by
  decide

/-- C18, amended. For every stored number `h` and every real number `v` read in state
`COMPARE_NO_THREAD` or `COMPARE`, the comparator sends the smaller of the two to the next thread
and keeps the bigger; when the two differ, the bigger is not what it sends. -/
theorem forwards_smaller (st : State) (h v : Int)
    (hst : st = .COMPARE_NO_THREAD ∨ st = .COMPARE) (hv : v ≠ -1) :
    (comparator_body st h v).sends = [min h v] ∧
      (comparator_body st h v).stored_number = max h v ∧
      (h ≠ v → (comparator_body st h v).sends ≠ [max h v]) := by
  rw [body_compare st h v hst hv, min_comm, max_comm]
  refine ⟨rfl, rfl, fun hne heq => ?_⟩
  simp only [List.cons.injEq, and_true] at heq
  have h1 : min h v ≤ v := min_le_right _ _
  have h2 : min h v ≤ h := min_le_left _ _
  have h3 : h ≤ max h v := le_max_left _ _
  have h4 : v ≤ max h v := le_max_right _ _
  omega

theorem forwards_smaller_witness :
    ((State.COMPARE = .COMPARE_NO_THREAD ∨ State.COMPARE = .COMPARE) ∧ (8 : Int) ≠ -1) ∧
      comparator_body .COMPARE 5 8 =
        { state := .COMPARE, stored_number := 8, create := none, sends := [5],
          brk := false } ∧
      ((comparator_body .COMPARE 5 8).sends = [min 5 8] ∧
        (comparator_body .COMPARE 5 8).stored_number = max 5 8 ∧
        ((5 : Int) ≠ 8 → (comparator_body .COMPARE 5 8).sends ≠ [max 5 8])) :=
  ⟨⟨by decide, by decide⟩, by decide, forwards_smaller .COMPARE 5 8 (by decide) (by decide)⟩

/-! ## The marker and the values -/

/-- C12, as the claim states it, fails at the payload `-1`: a comparator in state `COMPARE` that
holds 5 and reads the value `-1` flushes (it sends `-1` and 5 and goes to state `END`) instead
of comparing, and the output thread does not count it. In the complete run with capacity 1 on
the three values `[5, -1, 3]` the output thread reports 2 received values and observes
`[5, 3]`. -/
theorem marker_collision_counterexample :
    comparator_body .COMPARE 5 (-1) =
        { state := .END, stored_number := 5, create := none, sends := [-1, 5],
          brk := false } ∧
      output_body OutVars.init (-1) = ({ OutVars.init with state := .END }, false) ∧
      (output_body OutVars.init (-1)).1.received = 0 ∧
      ((exec 1 (Sys.init 1 [5, -1, 3]) collisionSchedule).map fun s =>
          (terminal 1 s, s.threads[2]?)) =
        some (true, some (.output ⟨1, 0, ⟨.END, 2, 0, 3, [5, 3]⟩, .done, [-1, 5, 3, -1]⟩)) := by
  refine ⟨by decide, by decide, by decide, by decide⟩

/-- C12, amended. An item that carries a payload `v` other than `-1` is handled as a real value
and never as the marker: a comparator stays in its loop on it and does not create the output
thread; in state `INITIAL` it stores it, in the two comparing states it compares it (sends the
smaller, keeps the bigger, goes to `COMPARE`), in state `END` it sends it on and stays in `END`;
the output thread counts it, records it and stays in its loop and in its state. -/
theorem payload_is_real (v : Int) (hv : v ≠ -1) (st : State) (h : Int) (o : OutVars) :
    (comparator_body st h v).brk = false ∧
      (comparator_body st h v).create ≠ some .output ∧
      (st = .INITIAL → (comparator_body st h v).stored_number = v ∧
        (comparator_body st h v).sends = []) ∧
      (st = .COMPARE_NO_THREAD ∨ st = .COMPARE →
        (comparator_body st h v).sends = [min v h] ∧
          (comparator_body st h v).stored_number = max v h ∧
          (comparator_body st h v).state = .COMPARE) ∧
      (st = .END → (comparator_body st h v).sends = [v] ∧
        (comparator_body st h v).state = .END) ∧
      output_body o v = (o.real v, false) ∧
      (o.real v).received = int_incr o.received ∧
      (o.real v).observed = o.observed ++ [v] ∧
      (o.real v).state = o.state := by
  refine ⟨?_, ?_, ?_, ?_, ?_, output_body_real o hv, rfl, rfl, rfl⟩
  · cases hb : (comparator_body st h v).brk with
    | false => rfl
    | true => exact absurd ((body_brk_iff st h v).mp hb).2 hv
  · cases st with
    | INITIAL => simp [comparator_body]
    | COMPARE_NO_THREAD => rw [body_compare _ h v (Or.inl rfl) hv]; simp
    | COMPARE => rw [body_compare _ h v (Or.inr rfl) hv]; simp
    | END => simp [comparator_body]
  · rintro rfl
    simp [comparator_body]
  · intro hst
    rw [body_compare st h v hst hv]
    exact ⟨rfl, rfl, rfl⟩
  · rintro rfl
    simp [comparator_body]

theorem payload_is_real_witness :
    (3 : Int) ≠ -1 ∧
      comparator_body .COMPARE 5 3 =
        { state := .COMPARE, stored_number := 5, create := none, sends := [3],
          brk := false } ∧
      output_body OutVars.init 3 = (⟨.INITIAL, 1, 1, 3, [3]⟩, false) ∧
      ((comparator_body .COMPARE 5 3).brk = false ∧
      (comparator_body .COMPARE 5 3).create ≠ some .output ∧
      (State.COMPARE = .INITIAL → (comparator_body .COMPARE 5 3).stored_number = 3 ∧
        (comparator_body .COMPARE 5 3).sends = []) ∧
      (State.COMPARE = .COMPARE_NO_THREAD ∨ State.COMPARE = .COMPARE →
        (comparator_body .COMPARE 5 3).sends = [min 3 5] ∧
          (comparator_body .COMPARE 5 3).stored_number = max 3 5 ∧
          (comparator_body .COMPARE 5 3).state = .COMPARE) ∧
      (State.COMPARE = .END → (comparator_body .COMPARE 5 3).sends = [3] ∧
        (comparator_body .COMPARE 5 3).state = .END) ∧
      output_body OutVars.init 3 = (OutVars.init.real 3, false) ∧
      (OutVars.init.real 3).received = int_incr OutVars.init.received ∧
      (OutVars.init.real 3).observed = OutVars.init.observed ++ [3] ∧
      (OutVars.init.real 3).state = OutVars.init.state) :=
  ⟨by decide, by decide, by decide, payload_is_real 3 (by decide) .COMPARE 5 OutVars.init⟩

/-! ## The creation of the successor -/

/-- The state after an iteration, from the state before it. -/
theorem body_state (st : State) (h v : Int) :
    (comparator_body st h v).state ≠ .INITIAL ∧
      (st = .INITIAL →
        (comparator_body st h v).state = .COMPARE_NO_THREAD ∧
          (comparator_body st h v).create = none) ∧
      (st = .COMPARE_NO_THREAD →
        ((comparator_body st h v).state = .COMPARE ∨ (comparator_body st h v).state = .END) ∧
          (comparator_body st h v).create =
            some (if v = -1 then .output else .comparator)) ∧
      (st = .COMPARE →
        ((comparator_body st h v).state = .COMPARE ∨ (comparator_body st h v).state = .END) ∧
          (comparator_body st h v).create = none) ∧
      (st = .END →
        (comparator_body st h v).state = .END ∧ (comparator_body st h v).create = none) := by
  cases st with
  | INITIAL => simp [comparator_body]
  | COMPARE_NO_THREAD =>
    by_cases hv : v = -1 <;> by_cases hlt : h > v <;> simp [comparator_body, hv, hlt]
  | COMPARE =>
    by_cases hv : v = -1 <;> by_cases hlt : h > v <;> simp [comparator_body, hv, hlt]
  | END => simp [comparator_body]

theorem next_state_late {t : Trace} (h : t.state = .COMPARE ∨ t.state = .END) (v : Int) :
    (t.next v).state = .COMPARE ∨ (t.next v).state = .END := by
  cases hb : t.brk with
  | true => rw [next_of_brk hb]; exact h
  | false =>
    rw [next_eq_body hb]
    rcases h with h | h
    · exact ((body_state t.state t.stored_number v).2.2.2.1 h).1
    · exact Or.inr ((body_state t.state t.stored_number v).2.2.2.2 h).1

/-- A comparator in state `COMPARE` or `END` creates no thread any more. -/
theorem creates_late {t : Trace} (h : t.state = .COMPARE ∨ t.state = .END) (vs : List Int) :
    comparator_creates t vs = [] := by
  induction vs generalizing t with
  | nil => rfl
  | cons v vs ih =>
    rw [comparator_creates, ih (next_state_late h v)]
    cases hb : t.brk with
    | true => simp
    | false =>
      have hc : (comparator_body t.state t.stored_number v).create = none := by
        rcases h with h | h
        · exact ((body_state t.state t.stored_number v).2.2.2.1 h).2
        · exact ((body_state t.state t.stored_number v).2.2.2.2 h).2
      simp [hc]

theorem next_second (v0 v1 : Int) :
    ((Trace.init.next v0).next v1).created = some (if v1 = -1 then .output else .comparator) ∧
      (((Trace.init.next v0).next v1).state = .COMPARE ∨
        ((Trace.init.next v0).next v1).state = .END) := by
  rw [loop_first, next_eq_body rfl]
  have := (body_state .COMPARE_NO_THREAD v0 v1).2.2.1 rfl
  refine ⟨?_, this.1⟩
  simp only [this.2]
  rfl

/-- The thread a comparator has created, from the values it has read: none before the second
value, and then the one the second value decides. -/
theorem loop_created_eq (got : List Int) :
    (comparator_loop Trace.init got).created =
      match got with
      | _ :: v1 :: _ => some (if v1 = -1 then .output else .comparator)
      | _ => none := by
  match got with
  | [] => rfl
  | [v0] => simp [loop_first]
  | v0 :: v1 :: rest =>
    simp only [comparator_loop_cons]
    exact loop_created_stable (traceWf_next (traceWf_next traceWf_init v0) v1)
      (next_second v0 v1).1 rest

/-- C17. On every stream of values a comparator makes no `pthread_create` call while it reads
its first value, exactly one while it reads its second value (for a comparator when that value
is real, for the output thread when it is the marker) and none afterwards: its state leaves
`INITIAL` for `COMPARE_NO_THREAD`, the only state that creates a thread, and from there goes to
`COMPARE` or `END`, never back. In every state of the process that a schedule reaches, whatever
the values: a comparator thread that has read fewer than two values is the last thread, one that
has read two has the successor its second value decides, and thread `i` has made the `i`-th
`pthread_create` call and no other. -/
theorem lazy_creation (c : Nat) (rands : List Int) :
    comparator_creates Trace.init [] = [] ∧
      (∀ v0, comparator_creates Trace.init [v0] = []) ∧
      (∀ v0 v1 rest, comparator_creates Trace.init (v0 :: v1 :: rest) =
        [if v1 = -1 then .output else .comparator]) ∧
      (∀ (st : State) (h v : Int),
        (comparator_body st h v).state ≠ .INITIAL ∧
          (st ≠ .INITIAL → (comparator_body st h v).state ≠ .COMPARE_NO_THREAD) ∧
          ((comparator_body st h v).create ≠ none ↔ st = .COMPARE_NO_THREAD)) ∧
      ∀ sched s, exec c (Sys.init c rands) sched = some s →
        s.created.map Prod.fst = List.range s.created.length ∧
          s.threads.length = s.created.length + 1 ∧
          ∀ (i : Nat) (x : Comparator), s.threads[i]? = some (.comparator x) →
            (x.got.length < 2 → s.threads.length = i + 1) ∧
              ∀ v0 v1 rest, x.got = v0 :: v1 :: rest →
                ∃ u, s.threads[i + 1]? = some u ∧
                  u.routine = some (if v1 = -1 then .output else .comparator) := by
  refine ⟨rfl, fun v0 => ?_, fun v0 v1 rest => ?_, fun st h v => ?_, fun sched s hs => ?_⟩
  · simp [comparator_creates, Trace.init, comparator_body]
  · have h2 := (body_state .COMPARE_NO_THREAD v0 v1).2.2.1 rfl
    rw [comparator_creates, comparator_creates, creates_late (next_second v0 v1).2, loop_first]
    have hi : (comparator_body Trace.init.state Trace.init.stored_number v0).create = none :=
      ((body_state .INITIAL Trace.init.stored_number v0).2.1 rfl).2
    have hb : Trace.init.brk = false := rfl
    simp only [hi, hb]
    simp [h2.2]
  · obtain ⟨h0, h1, h2, h3, h4⟩ := body_state st h v
    refine ⟨h0, fun hst => ?_, ?_⟩
    · cases st with
      | INITIAL => exact absurd rfl hst
      | COMPARE_NO_THREAD => rcases (h2 rfl).1 with h | h <;> simp [h]
      | COMPARE => rcases (h3 rfl).1 with h | h <;> simp [h]
      | END => simp [(h4 rfl).1]
    · cases st with
      | INITIAL => simp [(h1 rfl).2]
      | COMPARE_NO_THREAD => simp [(h2 rfl).2]
      | COMPARE => simp [(h3 rfl).2]
      | END => simp [(h4 rfl).2]
  · have inv := inv_reach sched hs
    have hpos := inv.pos
    refine ⟨?_, ?_, fun i x hx => ⟨fun hlt => ?_, fun v0 v1 rest hgot => ?_⟩⟩
    · rw [inv.log, List.enum_map_fst, List.enum_length]
    · rw [inv.log, List.enum_length, List.length_map, List.length_tail]
      omega
    · have := inv.succ i _ hx
      have hc : (comparator_loop Trace.init x.got).created = none := by
        rw [loop_created_eq]
        match hg : x.got with
        | [] => rfl
        | [v0] => rfl
        | v0 :: v1 :: rest => rw [hg] at hlt; simp at hlt; omega
      simpa [Thread.created, hc] using this
    · have := inv.succ i _ hx
      have hc : (comparator_loop Trace.init x.got).created =
          some (if v1 = -1 then .output else .comparator) := by
        rw [loop_created_eq, hgot]
      simpa [Thread.created, hc] using this

/-! ## The options of `main` -/

theorem main_loop_error {cfg : Config} {opts : List GetOpt} {status : Int}
    (h : main_loop cfg opts = .error status) : status = -1 := by
  induction opts generalizing cfg with
  | nil => simp [main_loop] at h
  | cons o opts ih =>
    cases o with
    | l a => exact ih (by simpa [main_loop] using h)
    | s a => exact ih (by simpa [main_loop] using h)
    | b a => exact ih (by simpa [main_loop] using h)
    | v => exact ih (by simpa [main_loop] using h)
    | err => simp only [main_loop, Except.error.injEq] at h; exact h.symm
    | other => simp only [main_loop, Except.error.injEq] at h; exact h.symm

theorem main_loop_error_iff (cfg : Config) (opts : List GetOpt) :
    main_loop cfg opts = .error (-1) ↔ GetOpt.err ∈ opts ∨ GetOpt.other ∈ opts := by
  induction opts generalizing cfg with
  | nil => simp [main_loop]
  | cons o opts ih =>
    cases o with
    | l a => simp [main_loop, ih]
    | s a => simp [main_loop, ih]
    | b a => simp [main_loop, ih]
    | v => simp [main_loop, ih]
    | err => simp [main_loop]
    | other => simp [main_loop]

/-- The result of `atoi` is a 32-bit `int`. -/
theorem atoi_range (a : String) : -2147483648 ≤ atoi a ∧ atoi a < 2147483648 := by
  simp only [atoi, int_of_long]
  omega

theorem is_int_atoi (a : String) : is_int (atoi a) = true := by
  have := atoi_range a
  simp [is_int, this.1, this.2]

/-- The option loop keeps every field of the configuration within the range of `int`. -/
theorem main_loop_range {cfg cfg1 : Config} {opts : List GetOpt}
    (h : main_loop cfg opts = .ok cfg1)
    (hcfg : is_int cfg.length = true ∧ is_int cfg.seed = true ∧
      is_int cfg.buffer_size = true ∧ is_int cfg.verbose = true) :
    is_int cfg1.length = true ∧ is_int cfg1.seed = true ∧ is_int cfg1.buffer_size = true ∧
      is_int cfg1.verbose = true := by
  induction opts generalizing cfg with
  | nil =>
    simp only [main_loop, Except.ok.injEq] at h
    exact h ▸ hcfg
  | cons o opts ih =>
    cases o with
    | l a =>
      exact @ih { cfg with length := atoi a } (by simpa [main_loop] using h)
        ⟨is_int_atoi a, hcfg.2.1, hcfg.2.2⟩
    | s a =>
      exact @ih { cfg with seed := atoi a } (by simpa [main_loop] using h)
        ⟨hcfg.1, is_int_atoi a, hcfg.2.2⟩
    | b a =>
      exact @ih { cfg with buffer_size := atoi a } (by simpa [main_loop] using h)
        ⟨hcfg.1, hcfg.2.1, is_int_atoi a, hcfg.2.2.2⟩
    | v =>
      exact @ih { cfg with verbose := 1 } (by simpa [main_loop] using h)
        ⟨hcfg.1, hcfg.2.1, hcfg.2.2.1, rfl⟩
    | err => simp [main_loop] at h
    | other => simp [main_loop] at h

theorem isspace_of_isdigit {c : Char} (h : isdigit c = true) :
    isspace c = false ∧ c.toNat ≠ 45 ∧ c.toNat ≠ 43 := by
  simp only [isdigit, Bool.and_eq_true, decide_eq_true_eq] at h
  refine ⟨?_, by omega, by omega⟩
  simp only [isspace, Bool.or_eq_false_iff, decide_eq_false_iff_not, Bool.and_eq_false_imp,
    decide_eq_true_eq]
  omega

/-- The digits are read up to the first character that is not one. -/
theorem atoi_digits_append (acc : Int) (ds rest : List Char)
    (hds : ∀ c ∈ ds, isdigit c = true) (hrest : ∀ c, rest.head? = some c → isdigit c = false) :
    atoi_digits acc (ds ++ rest) = atoi_digits acc ds := by
  induction ds generalizing acc with
  | nil =>
    cases rest with
    | nil => rfl
    | cons c cs => simp [atoi_digits, hrest c rfl]
  | cons d ds ih =>
    have hd := hds d (by simp)
    simp only [List.cons_append, atoi_digits, hd, ↓reduceIte]
    exact ih _ (fun c hc => hds c (by simp [hc]))

theorem dropWhile_isspace_append (ws l : List Char) (hws : ∀ c ∈ ws, isspace c = true) :
    (ws ++ l).dropWhile isspace = l.dropWhile isspace := by
  induction ws with
  | nil => rfl
  | cons w ws ih =>
    have hw := hws w (by simp)
    simp only [List.cons_append, List.dropWhile_cons, hw, ↓reduceIte]
    exact ih (fun c hc => hws c (by simp [hc]))

/-- A string in which no digit follows the white space and the optional sign at its head has
the number 0. -/
theorem leading_number_zero (ws sign rest : List Char) (hws : ∀ c ∈ ws, isspace c = true)
    (hsign : sign = [] ∨ sign = ['-'] ∨ sign = ['+'])
    (hrest : ∀ c, rest.head? = some c →
      isdigit c = false ∧ (sign = [] → isspace c = false ∧ c.toNat ≠ 45 ∧ c.toNat ≠ 43)) :
    leading_number (String.mk (ws ++ (sign ++ rest))) = 0 := by
  simp only [leading_number, String.toList, dropWhile_isspace_append ws _ hws]
  rcases hsign with rfl | rfl | rfl
  · cases rest with
    | nil => rfl
    | cons c cs =>
      obtain ⟨hd, hn⟩ := hrest c rfl
      obtain ⟨hs, h45, h43⟩ := hn rfl
      simp [List.dropWhile, hs, h45, h43, atoi_digits, hd]
  · have hm : isspace '-' = false := by decide
    cases rest with
    | nil => simp [List.dropWhile, hm, atoi_digits]
    | cons c cs => simp [List.dropWhile, hm, atoi_digits, (hrest c rfl).1]
  · have hm : isspace '+' = false := by decide
    cases rest with
    | nil => simp [List.dropWhile, hm, atoi_digits]
    | cons c cs => simp [List.dropWhile, hm, atoi_digits, (hrest c rfl).1]

/-- What follows the number at the head of a string does not count. -/
theorem leading_number_append (d : Char) (ds rest : List Char) (hd : isdigit d = true)
    (hds : ∀ c ∈ ds, isdigit c = true) (hrest : ∀ c, rest.head? = some c → isdigit c = false) :
    leading_number (String.mk (d :: ds ++ rest)) = leading_number (String.mk (d :: ds)) := by
  obtain ⟨hs, h45, h43⟩ := isspace_of_isdigit hd
  have h := atoi_digits_append 0 (d :: ds) rest
    (fun c hc => by
      rcases List.mem_cons.mp hc with rfl | hc
      · exact hd
      · exact hds c hc) hrest
  simp only [List.cons_append] at h
  simp only [leading_number, String.toList, List.cons_append, List.dropWhile_cons, hs,
    Bool.false_eq_true, ↓reduceIte, h45, h43, h]

/-- With capacity 0 the generator creates the first comparator, which reads its parameter, and
then no thread can take a step: the generator waits for a free slot and the comparator for a
value, for ever. -/
theorem exec_zero (rands : List Int) (sched : List Nat) (s : Sys)
    (h : exec 0 (Sys.init 0 rands) sched = some s) :
    sched.length ≤ 2 ∧ s.sorted = 0 ∧ s.threads.length ≤ 2 := by
  have h0 : ∀ i s1, step 0 (Sys.init 0 rands) i = some s1 →
      i = 0 ∧ s1 =
        { threads := [.generator ⟨.wait, rands, 2, 0, 0, []⟩, .entry .comparator 0],
          chans := [newChannel 0], sorted := 0, created := [(0, .comparator)] } := by
    intro i s1 hs
    match i with
    | 0 =>
      simp only [step, Sys.init, Generator.init, stepGenerator, Sys.spawn,
        List.getElem?_cons_zero, Option.some.injEq] at hs
      exact ⟨rfl, hs.symm⟩
    | i + 1 => simp [step, Sys.init] at hs
  have h1 : ∀ i s2,
      step 0
        { threads := [.generator ⟨.wait, rands, 2, 0, 0, []⟩, .entry .comparator 0],
          chans := [newChannel 0], sorted := 0, created := [(0, .comparator)] } i = some s2 →
      i = 1 ∧ s2 =
        { threads := [.generator ⟨.wait, rands, 2, 0, 0, []⟩,
            .comparator (Comparator.init 0 1)],
          chans := [newChannel 0, newChannel 0], sorted := 0,
          created := [(0, .comparator)] } := by
    intro i s2 hs
    match i with
    | 0 => simp [step, stepGenerator, newChannel, waitEmpty, sem_wait] at hs
    | 1 =>
      simp only [step, stepEntry, Thread.finished, Thread.params_next, List.getElem?_cons_zero,
        List.getElem?_cons_succ, Option.some.injEq] at hs
      exact ⟨rfl, by simpa using hs.symm⟩
    | i + 2 => simp [step] at hs
  have h2 : ∀ i,
      step 0
        { threads := [.generator ⟨.wait, rands, 2, 0, 0, []⟩,
            .comparator (Comparator.init 0 1)],
          chans := [newChannel 0, newChannel 0], sorted := 0,
          created := [(0, .comparator)] } i = none := by
    intro i
    match i with
    | 0 => simp [step, stepGenerator, newChannel, waitEmpty, sem_wait]
    | 1 => simp [step, stepComparator, Comparator.init, newChannel, waitFull, sem_wait]
    | i + 2 => simp [step]
  match sched with
  | [] =>
    simp only [exec, Option.some.injEq] at h
    subst h
    simp [Sys.init]
  | i :: sched =>
    simp only [exec] at h
    cases hs : step 0 (Sys.init 0 rands) i with
    | none => simp [hs] at h
    | some s1 =>
      simp only [hs] at h
      obtain ⟨_, rfl⟩ := h0 i s1 hs
      match sched with
      | [] =>
        simp only [exec, Option.some.injEq] at h
        subst h
        simp
      | j :: sched =>
        simp only [exec] at h
        cases hs1 : step 0
            { threads := [.generator ⟨.wait, rands, 2, 0, 0, []⟩, .entry .comparator 0],
              chans := [newChannel 0], sorted := 0, created := [(0, .comparator)] } j with
        | none => simp [hs1] at h
        | some s2 =>
          simp only [hs1] at h
          obtain ⟨_, rfl⟩ := h1 j s2 hs1
          match sched with
          | [] =>
            simp only [exec, Option.some.injEq] at h
            subst h
            simp
          | k :: sched => simp [exec, h2 k] at h

/-- C13, the claim fails: with the option `-b 0` main creates the generator with a channel
capacity 0, with `-b -3` with a capacity -3, and with a count, seed or capacity that is not a
number with the value 0 for it. -/
theorem main_accepts_counterexample :
    main [.b "0"] = .started ⟨100, 42, 0, 0⟩ ∧
      main [.b "-3"] = .started ⟨100, 42, -3, 0⟩ ∧
      main [.l "abc"] = .started ⟨0, 42, 1, 0⟩ ∧
      main [.s "x1"] = .started ⟨100, 0, 1, 0⟩ ∧
      main [.b "two"] = .started ⟨100, 42, 0, 0⟩ := by
  decide

/-- C13, amended. The driver `main` returns before it has created a thread exactly when
`getopt` reports an unknown option or an option without its argument (or a character outside
the `switch`), and the status is then -1. Otherwise it creates the generator thread, whatever
the values: the arguments of `-l`, `-s` and `-b` go through `atoi` without any check, and every
field of the configuration is a 32-bit `int`. The result of `atoi` is a 32-bit `int`: the number the argument starts with, capped at the range of `long`
and cut to its low 32 bits (`99999999999` gives `1215752191`). An argument in which no digit
follows the white space and the optional sign at its head counts as 0, and what follows the
number at the head does not count (`12abc` counts as 12). A capacity below 1 is accepted; with
the capacity 0 the generator creates the first comparator and then no thread can move: `sorted`
is never posted. -/
theorem main_returns_iff (opts : List GetOpt) :
    (main opts = .returned (-1) ↔ GetOpt.err ∈ opts ∨ GetOpt.other ∈ opts) ∧
      (∀ status, main opts = .returned status → status = -1) ∧
      (GetOpt.err ∉ opts → GetOpt.other ∉ opts → ∃ cfg, main opts = .started cfg) ∧
      (∀ a, main [.l a] = .started { Config.init with length := atoi a }) ∧
      (∀ a, main [.s a] = .started { Config.init with seed := atoi a }) ∧
      (∀ a, main [.b a] = .started { Config.init with buffer_size := atoi a }) ∧
      (∀ cfg, main opts = .started cfg →
        is_int cfg.length = true ∧ is_int cfg.seed = true ∧ is_int cfg.buffer_size = true ∧
          is_int cfg.verbose = true) ∧
      (∀ a, atoi a = int_of_long (max (-9223372036854775808)
        (min (leading_number a) 9223372036854775807)) ∧
        -2147483648 ≤ atoi a ∧ atoi a < 2147483648) ∧
      (∀ (ws sign rest : List Char), (∀ c ∈ ws, isspace c = true) →
        (sign = [] ∨ sign = ['-'] ∨ sign = ['+']) →
        (∀ c, rest.head? = some c →
          isdigit c = false ∧ (sign = [] → isspace c = false ∧ c.toNat ≠ 45 ∧ c.toNat ≠ 43)) →
        atoi (String.mk (ws ++ (sign ++ rest))) = 0) ∧
      (∀ (d : Char) (ds rest : List Char), isdigit d = true → (∀ c ∈ ds, isdigit c = true) →
        (∀ c, rest.head? = some c → isdigit c = false) →
        atoi (String.mk (d :: ds ++ rest)) = atoi (String.mk (d :: ds))) ∧
      atoi "0" = 0 ∧ atoi "12abc" = 12 ∧ atoi "99999999999" = 1215752191 ∧
      ∀ rands sched s, exec 0 (Sys.init 0 rands) sched = some s →
        sched.length ≤ 2 ∧ s.sorted = 0 ∧ s.threads.length ≤ 2 := by
  have hiff : main opts = .returned (-1) ↔ GetOpt.err ∈ opts ∨ GetOpt.other ∈ opts := by
    rw [← main_loop_error_iff Config.init opts, main]
    cases h : main_loop Config.init opts with
    | error e => simp
    | ok cfg => simp
  have hst : ∀ status, main opts = .returned status → status = -1 := by
    intro status h
    rw [main] at h
    cases h1 : main_loop Config.init opts with
    | error e =>
      rw [h1] at h
      simp only [MainResult.returned.injEq] at h
      exact h ▸ main_loop_error h1
    | ok cfg => rw [h1] at h; simp at h
  have hrange : ∀ cfg, main opts = .started cfg →
      is_int cfg.length = true ∧ is_int cfg.seed = true ∧ is_int cfg.buffer_size = true ∧
        is_int cfg.verbose = true := by
    intro cfg h
    rw [main] at h
    cases h1 : main_loop Config.init opts with
    | error e => rw [h1] at h; simp at h
    | ok cfg1 =>
      rw [h1] at h
      simp only [MainResult.started.injEq] at h
      subst h
      exact main_loop_range h1 (by decide)
  refine ⟨hiff, hst, fun h1 h2 => ?_, fun a => rfl, fun a => rfl, fun a => rfl, hrange,
    fun a => ⟨rfl, atoi_range a⟩, fun ws sign rest hws hsign hrest => ?_,
    fun d ds rest hd hds hrest => ?_, by decide, by decide, by decide, exec_zero⟩
  · cases h : main opts with
    | started cfg => exact ⟨cfg, rfl⟩
    | returned status =>
      have := hst status h
      subst this
      exact absurd (hiff.1 h) (by simp [h1, h2])
  · simp only [atoi, strtol, leading_number_zero ws sign rest hws hsign hrest]
    decide
  · simp only [atoi, strtol, leading_number_append d ds rest hd hds hrest]

/-! ## The run on no value -/

theorem pre_two_markers {got : List Int} (h : Pre got [-1, -1]) :
    got = [] ∨ got = [-1] ∨ got = [-1, -1] := by
  obtain ⟨e, he⟩ := h
  match got, he with
  | [], _ => exact Or.inl rfl
  | [a], he =>
    simp only [List.singleton_append, List.cons.injEq] at he
    exact Or.inr (Or.inl (by rw [← he.1]))
  | [a, b], he =>
    simp only [List.cons_append, List.cons.injEq] at he
    exact Or.inr (Or.inr (by rw [← he.1, ← he.2.1]))
  | a :: b :: d :: l, he => simp at he

/-- On the two markers alone the loop of a comparator does not reach its `break`. -/
theorem loop_two_markers_brk {got : List Int} (h : Pre got [-1, -1]) :
    (comparator_loop Trace.init got).brk = false := by
  rcases pre_two_markers h with h | h | h <;> subst h <;> decide

theorem no_values : ∀ v ∈ ([] : List Int), v ≠ -1 := by
  intro v hv
  simp at hv

/-- With no value at all (`N = 0`) and the capacity 1: a comparator that holds nothing takes the first marker as its held value and creates no thread; on the second marker it
creates the output thread, sends the marker and then the held marker, and goes to state `END`
without the `break`. A complete run exists; in no state that a schedule reaches has a comparator
thread left its loop, and a comparator thread is thread 1; and every complete run ends with
exactly three threads: the generator, done, having written the two markers; one comparator that
has read and written the two markers, holds -1, is in state `END` and waits for a value that
never comes; and the output thread, done, having read the two markers, with `received = 0` and
`correct = 1`. The `pthread_create` calls are one for the comparator by the generator and one
for the output thread by the comparator, and `sorted` is posted once. -/
theorem empty_run (c : Nat) (hc : 1 ≤ c) (hcap : c ≤ 1) :
    (∀ h : Int, comparator_body .INITIAL h (-1) =
        { state := .COMPARE_NO_THREAD, stored_number := -1, create := none, sends := [],
          brk := false }) ∧
      comparator_body .COMPARE_NO_THREAD (-1) (-1) =
        { state := .END, stored_number := -1, create := some .output, sends := [-1, -1],
          brk := false } ∧
      (∃ sched s, Run c [] sched s) ∧
      (∀ sched s, exec c (Sys.init c []) sched = some s →
        ∀ (i : Nat) (x : Comparator), s.threads[i]? = some (.comparator x) →
          i = 1 ∧ x.pc ≠ .done) ∧
      ∀ sched s, Run c [] sched s →
        ∃ g x o, s.threads = [.generator g, .comparator x, .output o] ∧
          g.pc = .done ∧ g.put = [-1, -1] ∧
          x.got = [-1, -1] ∧ x.stored_number = -1 ∧ x.state = .END ∧ x.put = [-1, -1] ∧
          x.pc = .recv ∧
          o.got = [-1, -1] ∧ o.pc = .done ∧ o.vars.received = 0 ∧ o.vars.correct = 1 ∧
          o.vars.observed = [] ∧
          s.created = [(0, .comparator), (1, .output)] ∧ s.sorted = 1 := by
  refine ⟨fun h => rfl, rfl, run_exists c no_values, fun sched s hs i x hx => ?_,
    fun sched s hrun => ?_⟩
  · have inv := inv_reach sched hs
    have hok := inv.ok i _ hx
    obtain ⟨hinp, _, _, _, _, hpc⟩ := hok
    obtain ⟨j, rfl⟩ : ∃ j, i = j + 1 := ⟨i - 1, by omega⟩
    have hpre : Pre x.got [-1, -1] := by
      have := (inv_pre inv j).2 _ hx
      rwa [stream_nil] at this
    have hkind := (inv_kinds inv no_values _ _ hx).2
    refine ⟨?_, fun hd => ?_⟩
    · by_contra hne
      have : ¬ j + 1 ≤ stages [] := by
        simp only [stages, List.length_nil]
        omega
      simp [this, Thread.routine] at hkind
    · rw [hd, PcOk, loop_two_markers_brk hpre] at hpc
      exact absurd hpc (by decide)
  · have inv := inv_reach sched hrun.1
    have hnd : s.dangling = false := not_dangling inv no_values (by simpa using hcap)
    have hlen := stuck_length inv hrun.2 hc no_values hnd
    obtain ⟨g, hg, hgdone, hgput⟩ := stuck_generator inv hrun.2 hc no_values
    obtain ⟨x, hx, hxgot, hxput, hxpend, _, hxst, hxstate⟩ :=
      stuck_comparator inv hrun.2 hc no_values hnd (k := 0) (by decide)
    obtain ⟨o, ho, hogot, hodone, hovars⟩ := stuck_output inv hrun.2 hc no_values hnd
    have hst : stages [] = 1 := rfl
    rw [hst] at hlen ho
    have hthreads : s.threads = [.generator g, .comparator x, .output o] := by
      match hs : s.threads, hlen with
      | [a, b, d], _ =>
        rw [hs] at hg hx ho
        simp only [List.getElem?_cons_zero, List.getElem?_cons_succ, Option.some.injEq,
          zero_add] at hg hx ho
        rw [hg, hx, ho]
    rw [stream_nil] at hxgot hxput
    have hxpc : x.pc = .recv := by
      have hbrk : PcOk x.pc (comparator_loop Trace.init x.got).brk := (inv.ok 1 _ hx).2.2.2.2.2
      rw [loop_two_markers_brk (by rw [hxgot]; exact Pre.refl _)] at hbrk
      have hr := (stuck_thread inv hx (terminal_step hrun.2 1)).2.1
      cases hpc : x.pc with
      | recv => rfl
      | read => simp [Thread.rheld, hpc] at hr
      | send vs b => rw [hpc] at hxpend hbrk; exact absurd hxpend hbrk.1
      | write vs b => rw [hpc] at hxpend hbrk; exact absurd hxpend hbrk.1
      | done => rw [hpc] at hbrk; simp [PcOk] at hbrk
    refine ⟨g, x, o, hthreads, hgdone, by simpa using hgput, hxgot, ?_, ?_, hxput, hxpc, ?_,
      hodone, ?_, ?_, ?_, ?_, ?_⟩
    · rw [hxst, stream_nil]; decide
    · rw [hxstate, stream_nil]; decide
    · simpa using hogot
    · rw [hovars]; rfl
    · rw [hovars]; rfl
    · rw [hovars]; rfl
    · rw [inv.log, hthreads]
      rfl
    · rw [inv.posted, hthreads]
      simp [Thread.posted, hodone]

theorem empty_run_witness :
    (1 ≤ 1 ∧ 1 ≤ 1) ∧
      ((exec 1 (Sys.init 1 []) emptySchedule).map fun s =>
          (terminal 1 s, s.threads.length, s.created, s.sorted)) =
        some (true, 3, [(0, .comparator), (1, .output)], 1) ∧
      ((∀ h : Int, comparator_body .INITIAL h (-1) =
        { state := .COMPARE_NO_THREAD, stored_number := -1, create := none, sends := [],
          brk := false }) ∧
      comparator_body .COMPARE_NO_THREAD (-1) (-1) =
        { state := .END, stored_number := -1, create := some .output, sends := [-1, -1],
          brk := false } ∧
      (∃ sched s, Run 1 [] sched s) ∧
      (∀ sched s, exec 1 (Sys.init 1 []) sched = some s →
        ∀ (i : Nat) (x : Comparator), s.threads[i]? = some (.comparator x) →
          i = 1 ∧ x.pc ≠ .done) ∧
      ∀ sched s, Run 1 [] sched s →
        ∃ g x o, s.threads = [.generator g, .comparator x, .output o] ∧
          g.pc = .done ∧ g.put = [-1, -1] ∧
          x.got = [-1, -1] ∧ x.stored_number = -1 ∧ x.state = .END ∧ x.put = [-1, -1] ∧
          x.pc = .recv ∧
          o.got = [-1, -1] ∧ o.pc = .done ∧ o.vars.received = 0 ∧ o.vars.correct = 1 ∧
          o.vars.observed = [] ∧
          s.created = [(0, .comparator), (1, .output)] ∧ s.sorted = 1) :=
  ⟨by decide, by decide, empty_run 1 (by decide) (by decide)⟩

/-! ## The shape of the stream on every channel -/

/-- The value at position `i` of the values flushed by the first `m` stages is the one stage
`m - i` has flushed. -/
theorem flushed_getElem (rands : List Int) {m i : Nat} (hm : m ≤ rands.length) (hi : i < m) :
    (flushed rands m)[i]? = (flushed rands (m - i)).head? := by
  obtain ⟨pre, hpre⟩ := flushed_suffix rands (m - i) i
  have hmi : m - i + i = m := by omega
  rw [hmi] at hpre
  have hl := congrArg List.length hpre
  rw [List.length_append, flushed_length, flushed_length] at hl
  have hprelen : pre.length = i := by
    have h1 : min m rands.length = m := min_eq_left hm
    have h2 : min (m - i) rands.length = m - i := min_eq_left (by omega)
    omega
  rw [hpre, List.getElem?_append_right (by omega), hprelen, Nat.sub_self,
    List.head?_eq_getElem?]

theorem filter_real {a : List Int} (h : ∀ v ∈ a, v ≠ -1) :
    a.filter (fun v => decide (v ≠ -1)) = a :=
  List.filter_eq_self.mpr fun v hv => by simpa using h v hv

/-- The real values of a stream of the shape `a, -1, b, -1`. -/
theorem filter_shape {a b : List Int} (ha : ∀ v ∈ a, v ≠ -1) (hb : ∀ v ∈ b, v ≠ -1) :
    (a ++ -1 :: (b ++ [-1])).filter (fun v => decide (v ≠ -1)) = a ++ b := by
  rw [List.filter_append, filter_real ha, List.filter_cons_of_neg (by simp), List.filter_append,
    filter_real hb]
  simp

/-- For every input of `N ≥ 1` values, none of them the marker, every capacity from 1 to
`N + 1`, and every `k` with `1 ≤ k ≤ N`: a complete run exists, and in every complete run the
values written to the channel into comparator thread `k` by thread `k - 1`, which are the
values thread `k` has read, are `N - k + 1` real values, the first marker, `k - 1` real values
in non-decreasing order, and the second marker, `N + 2` values in all; the value at position
`i` of the `k - 1` is the one held by comparator thread `k - 1 - i`, so that they are the values
flushed by the stages `k - 1` down to 1; thread `k` has written as many values as it has read;
and the real values on the channel into thread `k` and on the channel out of it are the input
up to their order. -/
theorem stream_invariant (c : Nat) (rands : List Int) (k : Nat) (hc : 1 ≤ c)
    (hcap : c ≤ rands.length + 1) (hn : 1 ≤ rands.length) (hr : ∀ v ∈ rands, v ≠ -1)
    (hk1 : 1 ≤ k) (hk : k ≤ rands.length) :
    (∃ sched s, Run c rands sched s) ∧
      ∀ sched s, Run c rands sched s →
        ∃ u x a b, s.threads[k - 1]? = some u ∧ s.threads[k]? = some (.comparator x) ∧
          u.put = a ++ -1 :: (b ++ [-1]) ∧ x.got = u.put ∧
          a.length = rands.length - k + 1 ∧ (∀ v ∈ a, v ≠ -1) ∧
          b.length = k - 1 ∧ (∀ v ∈ b, v ≠ -1) ∧ List.Sorted (· ≤ ·) b ∧
          (∀ i, i < k - 1 → ∃ y, s.threads[k - 1 - i]? = some (.comparator y) ∧
            b[i]? = some y.stored_number) ∧
          x.got.length = rands.length + 2 ∧ x.put.length = x.got.length ∧
          (a ++ b).Perm rands ∧
          (x.got.filter fun v => decide (v ≠ -1)).Perm rands ∧
          (x.put.filter fun v => decide (v ≠ -1)).Perm rands := by
  refine ⟨run_exists c hr, fun sched s hrun => ?_⟩
  obtain ⟨j, rfl⟩ : ∃ j, k = j + 1 := ⟨k - 1, by omega⟩
  have hne : rands ≠ [] := by
    intro h
    rw [h] at hn
    simp at hn
  have inv := inv_reach sched hrun.1
  obtain ⟨x, hx, hgot, hput, _, _⟩ := run_comparator hc hcap hr hrun (k := j) (by omega)
  obtain ⟨ch, _, _, _, u, t, hu, ht, hgu⟩ :=
    stuck_chans inv hrun.2 hc hr (not_dangling inv hr hcap) (k := j)
      (by rw [stages_of_ne_nil hne]; omega)
  rw [hx] at ht
  cases ht
  have hgu' : x.got = u.put := hgu
  have hshape := stream_shape hr j (by omega)
  have hshape1 := stream_shape hr (j + 1) hk
  have ha := unsorted_real hr j
  have hb := flushed_real hr j
  have hperm := unsorted_flushed_perm rands j
  refine ⟨u, x, unsorted rands j, flushed rands j, hu, hx, ?_, hgu', ?_, ha, ?_, hb,
    (unsorted_le_flushed rands j).1, fun i hi => ?_, ?_, ?_, hperm, ?_, ?_⟩
  · rw [← hgu', hgot, hshape]
  · rw [unsorted_length]
    omega
  · rw [flushed_length]
    simp only [Nat.add_sub_cancel]
    exact min_eq_left (by omega)
  · simp only [Nat.add_sub_cancel] at hi ⊢
    obtain ⟨m, hm⟩ : ∃ m, j - i = m + 1 := ⟨j - i - 1, by omega⟩
    obtain ⟨y, hy, _, _, _, hst⟩ := run_comparator hc hcap hr hrun (k := m) (by omega)
    refine ⟨y, by rw [hm]; exact hy, ?_⟩
    rw [flushed_getElem rands (by omega) hi, hm, hst]
    exact (loop_on_stream hr (by omega)).2.2
  · rw [hgot, stream_length hr (by omega)]
  · rw [hgot, hput, stream_length hr hk, stream_length hr (by omega)]
  · rw [hgot, hshape, filter_shape ha hb]
    exact hperm
  · rw [hput, hshape1, filter_shape (unsorted_real hr (j + 1)) (flushed_real hr (j + 1))]
    exact unsorted_flushed_perm rands (j + 1)

set_option maxRecDepth 100000 in
theorem stream_invariant_witness :
    (1 ≤ 1 ∧ 1 ≤ ([5, 3, 8, 1] : List Int).length + 1 ∧ 1 ≤ ([5, 3, 8, 1] : List Int).length ∧
      (∀ v ∈ ([5, 3, 8, 1] : List Int), v ≠ -1) ∧ 1 ≤ 3 ∧
      3 ≤ ([5, 3, 8, 1] : List Int).length) ∧
      ((exec 1 (Sys.init 1 [5, 3, 8, 1]) demoSchedule).map fun s =>
          (terminal 1 s, (s.threads[2]?).map Thread.put, (s.threads[3]?).map Thread.got,
            (s.threads[3]?).map Thread.put)) =
        some (true, some [3, 1, -1, 5, 8, -1], some [3, 1, -1, 5, 8, -1],
          some [1, -1, 3, 5, 8, -1]) ∧
      ((∃ sched s, Run 1 [5, 3, 8, 1] sched s) ∧
        ∀ sched s, Run 1 [5, 3, 8, 1] sched s →
          ∃ u x a b, s.threads[3 - 1]? = some u ∧ s.threads[3]? = some (.comparator x) ∧
            u.put = a ++ -1 :: (b ++ [-1]) ∧ x.got = u.put ∧
            a.length = ([5, 3, 8, 1] : List Int).length - 3 + 1 ∧ (∀ v ∈ a, v ≠ -1) ∧
            b.length = 3 - 1 ∧ (∀ v ∈ b, v ≠ -1) ∧ List.Sorted (· ≤ ·) b ∧
            (∀ i, i < 3 - 1 → ∃ y, s.threads[3 - 1 - i]? = some (.comparator y) ∧
              b[i]? = some y.stored_number) ∧
            x.got.length = ([5, 3, 8, 1] : List Int).length + 2 ∧
            x.put.length = x.got.length ∧
            (a ++ b).Perm [5, 3, 8, 1] ∧
            (x.got.filter fun v => decide (v ≠ -1)).Perm [5, 3, 8, 1] ∧
            (x.put.filter fun v => decide (v ≠ -1)).Perm [5, 3, 8, 1]) :=
  ⟨⟨by decide, by decide, by decide, by decide, by decide, by decide⟩, by decide,
    stream_invariant 1 [5, 3, 8, 1] 3 (by decide) (by decide) (by decide) (by decide)
      (by decide) (by decide)⟩

/-! ## The generator -/

theorem spawn_threads (s : Sys) (i : Nat) (r : Option Routine) :
    ∃ extra, (s.spawn i r).threads = s.threads ++ extra := by
  cases r with
  | none => exact ⟨[], by simp [Sys.spawn]⟩
  | some r => exact ⟨_, rfl⟩

/-- A step changes the thread that takes it, and may add a thread at the end; no step leaves the
generator before its `pthread_create`. -/
theorem step_threads {c : Nat} {s s1 : Sys} {i : Nat} (h : step c s i = some s1) :
    ∃ t t1 extra, s.threads[i]? = some t ∧ s1.threads = s.threads.set i t1 ++ extra ∧
      ∀ g1, t1 = .generator g1 → g1.pc ≠ .start := by
  unfold step at h
  cases ht : s.threads[i]? with
  | none => simp [ht] at h
  | some t =>
    simp only [ht] at h
    cases t with
    | generator g =>
      obtain ⟨pc, rs, ends, outp, next_in, put⟩ := g
      unfold stepGenerator at h
      cases pc with
      | start =>
        simp only [Option.some.injEq] at h
        subst h
        obtain ⟨extra, he⟩ := spawn_threads
          { s with threads := s.threads.set i (.generator ⟨.wait, rs, ends, outp, next_in, put⟩) }
          i (some .comparator)
        exact ⟨_, _, extra, rfl, he, by
          intro g1 hg1
          cases hg1
          simp⟩
      | wait =>
        simp only at h
        cases hch : s.chans[outp]? with
        | none => simp [hch] at h
        | some ch =>
          simp only [hch] at h
          cases hw : waitEmpty ch with
          | none => simp [hw] at h
          | some ch1 =>
            simp only [hw, Option.some.injEq] at h
            subst h
            exact ⟨_, _, [], rfl, (List.append_nil _).symm, by
              intro g1 hg1
              cases hg1
              simp⟩
      | write =>
        simp only at h
        cases hch : s.chans[outp]? with
        | none => simp [hch] at h
        | some ch =>
          simp only [hch, Option.some.injEq] at h
          subst h
          refine ⟨_, _, [], rfl, (List.append_nil _).symm, ?_⟩
          intro g1 hg1
          cases hg1
          cases rs with
          | nil =>
            simp only [Generator.advance]
            split <;> simp
          | cons v rs => simp [Generator.advance]
      | done => simp [stepGenerator] at h
    | comparator x =>
      obtain ⟨inp, outp, read_out, write_in, stored, state, pc, got, put⟩ := x
      unfold stepComparator at h
      cases pc with
      | recv =>
        simp only at h
        cases hch : s.chans[inp]? with
        | none => simp [hch] at h
        | some ch =>
          simp only [hch] at h
          cases hw : waitFull ch with
          | none => simp [hw] at h
          | some ch1 =>
            simp only [hw, Option.some.injEq] at h
            subst h
            exact ⟨_, _, [], rfl, (List.append_nil _).symm, by simp⟩
      | read =>
        simp only at h
        cases hch : s.chans[inp]? with
        | none => simp [hch] at h
        | some ch =>
          simp only [hch, Option.some.injEq] at h
          subst h
          obtain ⟨extra, he⟩ := spawn_threads
            { s with
                threads := s.threads.set i (.comparator
                  ⟨inp, outp, (readSlot c ch read_out).2.2, write_in,
                    (comparator_body state stored (readSlot c ch read_out).1).stored_number,
                    (comparator_body state stored (readSlot c ch read_out).1).state,
                    Pc.after (comparator_body state stored (readSlot c ch read_out).1).sends
                      (comparator_body state stored (readSlot c ch read_out).1).brk,
                    got ++ [(readSlot c ch read_out).1], put⟩)
                chans := s.chans.set inp (readSlot c ch read_out).2.1 }
            i (comparator_body state stored (readSlot c ch read_out).1).create
          exact ⟨_, _, extra, rfl, he, by simp⟩
      | send vs b =>
        simp only at h
        cases hch : s.chans[outp]? with
        | none => simp [hch] at h
        | some ch =>
          simp only [hch] at h
          cases hw : waitEmpty ch with
          | none => simp [hw] at h
          | some ch1 =>
            simp only [hw, Option.some.injEq] at h
            subst h
            exact ⟨_, _, [], rfl, (List.append_nil _).symm, by simp⟩
      | write vs b =>
        simp only at h
        cases vs with
        | nil => simp at h
        | cons v rest =>
          cases hch : s.chans[outp]? with
          | none => simp [hch] at h
          | some ch =>
            simp only [hch, Option.some.injEq] at h
            subst h
            exact ⟨_, _, [], rfl, (List.append_nil _).symm, by simp⟩
      | done => simp at h
    | output o =>
      obtain ⟨inp, read_out, vars, pc, got⟩ := o
      unfold stepOutput at h
      cases pc with
      | recv =>
        simp only at h
        cases hch : s.chans[inp]? with
        | none => simp [hch] at h
        | some ch =>
          simp only [hch] at h
          cases hw : waitFull ch with
          | none => simp [hw] at h
          | some ch1 =>
            simp only [hw, Option.some.injEq] at h
            subst h
            exact ⟨_, _, [], rfl, (List.append_nil _).symm, by simp⟩
      | read =>
        simp only at h
        cases hch : s.chans[inp]? with
        | none => simp [hch] at h
        | some ch =>
          simp only [hch, Option.some.injEq] at h
          subst h
          exact ⟨_, _, [], rfl, (List.append_nil _).symm, by simp⟩
      | done => simp at h
    | entry r p =>
      unfold stepEntry at h
      cases hu : s.threads[p]? with
      | none => simp [hu] at h
      | some u =>
        simp only [hu] at h
        cases hf : u.finished with
        | true => simp [hf] at h
        | false =>
          simp only [hf, Bool.false_eq_true, ↓reduceIte] at h
          cases r with
          | comparator =>
            simp only [Option.some.injEq] at h
            subst h
            exact ⟨_, _, [], rfl, (List.append_nil _).symm, by simp⟩
          | output =>
            simp only [Option.some.injEq] at h
            subst h
            exact ⟨_, _, [], rfl, (List.append_nil _).symm, by simp⟩

/-- Thread 0 after a step: once it is not the generator before its `pthread_create`, it never
is again; and it is not after a step of thread 0. -/
theorem step_started {c : Nat} {s s1 : Sys} {i : Nat} (h : step c s i = some s1)
    (hq : i = 0 ∨ ∀ g, s.threads[0]? = some (.generator g) → g.pc ≠ .start) :
    ∀ g, s1.threads[0]? = some (.generator g) → g.pc ≠ .start := by
  obtain ⟨t, t1, extra, ht, hth, hpc⟩ := step_threads h
  have hi := lt_of_getElem?_eq_some ht
  intro g hg
  rw [hth, List.getElem?_append_left (by rw [List.length_set]; omega)] at hg
  by_cases h0 : i = 0
  · subst h0
    rw [getElem?_set_self_of ht] at hg
    cases hg
    exact hpc g rfl
  · rw [List.getElem?_set_ne h0] at hg
    rcases hq with hq | hq
    · exact absurd hq h0
    · exact hq g hg

theorem exec_started {c : Nat} {s s1 : Sys} (sched : List Nat) (h : exec c s sched = some s1)
    (hq : ∀ g, s.threads[0]? = some (.generator g) → g.pc ≠ .start) :
    ∀ g, s1.threads[0]? = some (.generator g) → g.pc ≠ .start := by
  induction sched generalizing s with
  | nil =>
    simp only [exec, Option.some.injEq] at h
    subst h
    exact hq
  | cons i sched ih =>
    simp only [exec] at h
    cases hs : step c s i with
    | none => simp [hs] at h
    | some s2 =>
      simp only [hs] at h
      exact ih h (step_started hs (Or.inr hq))

/-- The generator is before its `pthread_create` in the initial state only. -/
theorem start_init {c : Nat} {rands : List Int} {sched : List Nat} {s : Sys}
    (h : exec c (Sys.init c rands) sched = some s) {g : Generator}
    (hg : s.threads[0]? = some (.generator g)) (hpc : g.pc = .start) :
    s = Sys.init c rands := by
  match sched with
  | [] =>
    simp only [exec, Option.some.injEq] at h
    exact h.symm
  | i :: sched =>
    simp only [exec] at h
    cases hs : step c (Sys.init c rands) i with
    | none => simp [hs] at h
    | some s2 =>
      simp only [hs] at h
      obtain ⟨t, _, _, ht, _⟩ := step_threads hs
      have hi : i < 1 := lt_of_getElem?_eq_some ht
      exact absurd hpc (exec_started sched h (step_started hs (Or.inl (by omega))) g hg)

/-- C11. For every capacity of at least 1 and every list of `N ≥ 0` results of `rand()`, none of
them the marker (`rand()` gives no negative number): a complete run exists, and in every
complete run the generator has reached its end and has written exactly `N + 2` values to the
first channel, the `N` results in order and then two markers. In every state that a schedule
reaches, the generator has written an initial segment of these `N + 2` values to the first
channel, which exists, and as long as it has not made its `pthread_create` call it has written
nothing and there is no other thread; from the call on, thread 1 is the first comparator, which
has still to read its parameter from the frame of the generator or reads the first channel, and
the call is the first in the log. -/
theorem generator_stream (c : Nat) (rands : List Int) (hc : 1 ≤ c) (hr : ∀ v ∈ rands, v ≠ -1) :
    (∃ sched s, Run c rands sched s) ∧
      (∀ sched s, Run c rands sched s →
        ∃ g, s.threads[0]? = some (.generator g) ∧ g.pc = .done ∧
          g.put = rands ++ [-1, -1] ∧ g.put.length = rands.length + 2) ∧
      ∀ sched s, exec c (Sys.init c rands) sched = some s →
        ∃ g ch, s.threads[0]? = some (.generator g) ∧ s.chans[0]? = some ch ∧
          g.outp = 0 ∧ Pre g.put (rands ++ [-1, -1]) ∧
          (g.pc = .start → g.put = [] ∧ s.threads.length = 1 ∧ s.created = []) ∧
          (g.pc ≠ .start →
            (s.threads[1]? = some (.entry .comparator 0) ∨
              ∃ x, s.threads[1]? = some (.comparator x) ∧ x.inp = 0) ∧
              s.created[0]? = some (0, .comparator)) := by
  refine ⟨run_exists c hr, fun sched s hrun => ?_, fun sched s hs => ?_⟩
  · obtain ⟨g, hg, hdone, hput⟩ := stuck_generator (inv_reach sched hrun.1) hrun.2 hc hr
    exact ⟨g, hg, hdone, hput, by rw [hput]; simp⟩
  · have inv := inv_reach sched hs
    obtain ⟨t, ht⟩ : ∃ t, s.threads[0]? = some t := ⟨_, List.getElem?_eq_getElem inv.pos⟩
    have hkind := (inv_kinds inv hr 0 t ht).2
    cases t with
    | comparator x => simp [Thread.routine] at hkind
    | output o => simp [Thread.routine] at hkind
    | entry r p => simp [Thread.routine] at hkind
    | generator g =>
      obtain ⟨_, houtp, hput, _, _⟩ := inv.ok 0 _ ht
      obtain ⟨ch, hch, _⟩ := inv.chan 0 _ ht rfl
      refine ⟨g, ch, ht, hch, houtp, ⟨_, hput.symm⟩, fun hpc => ?_, fun hpc => ?_⟩
      · have := start_init hs ht hpc
        subst this
        simp only [Sys.init, List.getElem?_cons_zero, Option.some.injEq,
          Thread.generator.injEq] at ht
        subst ht
        exact ⟨rfl, rfl, rfl⟩
      · have hsucc := inv.succ 0 _ ht
        simp only [Thread.created, hpc, if_false] at hsucc
        obtain ⟨u, hu, hur⟩ := hsucc
        have hlog : s.created[0]? = some (0, .comparator) := by
          rw [inv.log]
          match hth : s.threads, ht, hu with
          | a :: b :: l, _, hu =>
            simp only [List.getElem?_cons_succ, List.getElem?_cons_zero, Option.some.injEq,
              zero_add] at hu
            subst hu
            simp [List.enum, List.enumFrom, hur]
        refine ⟨?_, hlog⟩
        cases u with
        | generator g1 => simp [Thread.routine] at hur
        | output o => simp [Thread.routine] at hur
        | comparator x =>
          obtain ⟨hinp, _⟩ := inv.ok 1 _ hu
          exact Or.inr ⟨x, hu, by omega⟩
        | entry r p =>
          have hp : p + 1 = 1 := inv.ok 1 _ hu
          have hr1 : r = .comparator := by simpa [Thread.routine] using hur
          have hp0 : p = 0 := by omega
          subst hr1 hp0
          exact Or.inl hu

theorem generator_stream_witness :
    (1 ≤ 2 ∧ ∀ v ∈ ([7, 7, 2] : List Int), v ≠ -1) ∧
      ((∃ sched s, Run 2 [7, 7, 2] sched s) ∧
        (∀ sched s, Run 2 [7, 7, 2] sched s →
          ∃ g, s.threads[0]? = some (.generator g) ∧ g.pc = .done ∧
            g.put = [7, 7, 2] ++ [-1, -1] ∧ g.put.length = ([7, 7, 2] : List Int).length + 2) ∧
        ∀ sched s, exec 2 (Sys.init 2 [7, 7, 2]) sched = some s →
          ∃ g ch, s.threads[0]? = some (.generator g) ∧ s.chans[0]? = some ch ∧
            g.outp = 0 ∧ Pre g.put ([7, 7, 2] ++ [-1, -1]) ∧
            (g.pc = .start → g.put = [] ∧ s.threads.length = 1 ∧ s.created = []) ∧
            (g.pc ≠ .start →
              (s.threads[1]? = some (.entry .comparator 0) ∨
                ∃ x, s.threads[1]? = some (.comparator x) ∧ x.inp = 0) ∧
                s.created[0]? = some (0, .comparator))) :=
  ⟨⟨by decide, by decide⟩, generator_stream 2 [7, 7, 2] (by decide) (by decide)⟩

/-! ## The run in which the generator returns before the first comparator has run

With a capacity of at least the number of values plus two the generator never waits: it can
write all its values and return while the first comparator has not run yet. The parameter of
the comparator then points into a frame that is gone. -/

/-- A step of the generator while no other thread has run. -/
theorem gen_only_step {c : Nat} {s s1 : Sys} {g : Generator} {rest : List Thread}
    (hth : s.threads = .generator g :: rest) (h : step c s 0 = some s1) :
    ∃ g1, g1.pc ≠ .start ∧ s1.sorted = s.sorted ∧ s1.chans.length = s.chans.length ∧
      s1.threads =
        .generator g1 :: (rest ++ if g.pc = .start then [.entry .comparator 0] else []) ∧
      s1.created = s.created ++ if g.pc = .start then [(0, .comparator)] else [] := by
  obtain ⟨pc, rs, ends, outp, next_in, put⟩ := g
  simp only [step, hth, List.getElem?_cons_zero] at h
  unfold stepGenerator at h
  cases pc with
  | start =>
    simp only [Option.some.injEq] at h
    subst h
    exact ⟨⟨.wait, rs, ends, outp, next_in, put⟩, by simp, rfl, rfl, by simp [Sys.spawn, hth],
      by simp [Sys.spawn]⟩
  | wait =>
    simp only at h
    cases hch : s.chans[outp]? with
    | none => simp [hch] at h
    | some ch =>
      simp only [hch] at h
      cases hw : waitEmpty ch with
      | none => simp [hw] at h
      | some ch1 =>
        simp only [hw, Option.some.injEq] at h
        subst h
        exact ⟨⟨.write, rs, ends, outp, next_in, put⟩, by simp, rfl, by simp, by simp [hth],
          by simp⟩
  | write =>
    simp only at h
    cases hch : s.chans[outp]? with
    | none => simp [hch] at h
    | some ch =>
      simp only [hch, Option.some.injEq] at h
      subst h
      refine ⟨Generator.advance
        { pc := .write, rands := rs, ends := ends, outp := outp
          next_in := (writeSlot c ch next_in (Generator.value
            ⟨.write, rs, ends, outp, next_in, put⟩)).2
          put := put ++ [Generator.value ⟨.write, rs, ends, outp, next_in, put⟩] },
        ?_, rfl, by simp, by simp [hth], by simp⟩
      cases rs with
      | nil =>
        simp only [Generator.advance]
        split <;> simp
      | cons v rs => simp [Generator.advance]
  | done => simp at h

/-- The generator alone runs until it cannot take a step any more. -/
theorem gen_only_exec (c : Nat) (rands : List Int) :
    ∀ (m : Nat) (s : Sys) (g : Generator), Inv c rands s → s.sorted = 0 →
      s.chans.length = 1 →
      (g.pc = .start ∧ s.threads = [.generator g] ∧ s.created = [] ∨
        g.pc ≠ .start ∧ s.threads = [.generator g, .entry .comparator 0] ∧
          s.created = [(0, .comparator)]) →
      2 * (rands.length + 2) + 2 - s.work ≤ m →
      ∃ sched s1 g1, exec c s sched = some s1 ∧ step c s1 0 = none ∧ s1.sorted = 0 ∧
        s1.chans.length = 1 ∧ s1.threads = [.generator g1, .entry .comparator 0] ∧
        s1.created = [(0, .comparator)] := by
  intro m
  induction m with
  | zero =>
    intro s g inv hsorted hchans hform hm
    cases hs : step c s 0 with
    | none =>
      rcases hform with ⟨hpc, hth, _⟩ | ⟨_, hth, hcr⟩
      · obtain ⟨pc, rs, ends, outp, next_in, put⟩ := g
        simp only at hpc
        subst hpc
        simp [step, hth, stepGenerator] at hs
      · exact ⟨[], s, g, rfl, hs, hsorted, hchans, hth, hcr⟩
    | some s1 =>
      exfalso
      have hw := step_work hs
      have inv1 := inv_step inv hs
      have hth0 : ∃ rest, s.threads = .generator g :: rest := by
        rcases hform with ⟨_, hth, _⟩ | ⟨_, hth, _⟩ <;> exact ⟨_, hth⟩
      obtain ⟨rest, hth⟩ := hth0
      obtain ⟨g1, hne, _, _, hth1, _⟩ := gen_only_step hth hs
      have hrest : rest ++ (if g.pc = .start then [Thread.entry .comparator 0] else []) =
          [.entry .comparator 0] := by
        rcases hform with ⟨hpc, hth2, _⟩ | ⟨hpc, hth2, _⟩
        · rw [hth] at hth2
          simp only [List.cons.injEq, true_and] at hth2
          simp [hth2, hpc]
        · rw [hth] at hth2
          simp only [List.cons.injEq, true_and] at hth2
          simp [hth2, hpc]
      rw [hrest] at hth1
      have hok := inv1.ok 0 (.generator g1) (by rw [hth1]; rfl)
      obtain ⟨_, _, hput, _, _⟩ := hok
      have hlen := congrArg List.length hput
      simp only [List.length_append, List.length_cons, List.length_nil] at hlen
      have hwork : s1.work ≤ 2 * (rands.length + 2) + 2 := by
        simp only [Sys.work, hth1, List.map_cons, List.map_nil, List.sum_cons, List.sum_nil,
          Thread.work]
        split <;> split <;> omega
      omega
  | succ m ih =>
    intro s g inv hsorted hchans hform hm
    cases hs : step c s 0 with
    | none =>
      rcases hform with ⟨hpc, hth, _⟩ | ⟨_, hth, hcr⟩
      · obtain ⟨pc, rs, ends, outp, next_in, put⟩ := g
        simp only at hpc
        subst hpc
        simp [step, hth, stepGenerator] at hs
      · exact ⟨[], s, g, rfl, hs, hsorted, hchans, hth, hcr⟩
    | some s1 =>
      have hw := step_work hs
      have inv1 := inv_step inv hs
      have hth0 : ∃ rest, s.threads = .generator g :: rest := by
        rcases hform with ⟨_, hth, _⟩ | ⟨_, hth, _⟩ <;> exact ⟨_, hth⟩
      obtain ⟨rest, hth⟩ := hth0
      obtain ⟨g1, hne, hso, hcl, hth1, hcr1⟩ := gen_only_step hth hs
      have hform1 : s1.threads = [.generator g1, .entry .comparator 0] ∧
          s1.created = [(0, .comparator)] := by
        rcases hform with ⟨hpc, hth2, hcr⟩ | ⟨hpc, hth2, hcr⟩
        · rw [hth] at hth2
          simp only [List.cons.injEq, true_and] at hth2
          rw [hth1, hcr1, hth2, hcr]
          simp [hpc]
        · rw [hth] at hth2
          simp only [List.cons.injEq, true_and] at hth2
          rw [hth1, hcr1, hth2, hcr]
          simp [hpc]
      obtain ⟨sched, s2, g2, he, h2⟩ := ih s1 g1 inv1 (by rw [hso, hsorted])
        (by rw [hcl, hchans]) (Or.inr ⟨hne, hform1.1, hform1.2⟩) (by omega)
      exact ⟨0 :: sched, s2, g2, by simp [exec, hs, he], h2⟩

/-- For every input and every capacity of at least the number of values plus two there is a
complete run in which the generator has written all its values and has returned, and the first
comparator, the only other thread, has not run: its parameter points into the frame of the
generator, which is gone. No further thread is ever created and `sorted` is never posted. -/
theorem dangling_run (c : Nat) (rands : List Int) (hcap : rands.length + 2 ≤ c) :
    ∃ sched s g, Run c rands sched s ∧ s.dangling = true ∧
      s.threads = [.generator g, .entry .comparator 0] ∧ g.pc = .done ∧
      g.put = rands ++ [-1, -1] ∧ s.sorted = 0 ∧ s.created = [(0, .comparator)] ∧
      s.chans.length = 1 := by
  obtain ⟨sched, s, g, he, hs0, hsorted, hchans, hth, hcr⟩ :=
    gen_only_exec c rands _ (Sys.init c rands) (Generator.init rands)
      (inv_init c rands) rfl rfl (Or.inl ⟨rfl, rfl, rfl⟩) (le_refl _)
  have inv := inv_exec (inv_init c rands) sched he
  have ht0 : s.threads[0]? = some (.generator g) := by rw [hth]; rfl
  have ht1 : s.threads[1]? = some (.entry .comparator 0) := by rw [hth]; rfl
  obtain ⟨hw, _, h3, h4⟩ := stuck_thread inv ht0 hs0
  obtain ⟨_, _, hput, hdone, _⟩ := inv.ok 0 _ ht0
  have hpend : (Thread.generator g).pend = [] := by
    by_contra hp
    obtain ⟨_, ch, hch, hempty⟩ := h3 hp
    obtain ⟨ch1, hch1, hci⟩ := chan_of_succ inv ht0 ht1
    rw [hch] at hch1
    cases hch1
    have hcount := hci.count
    have hsems := hci.sems
    rw [hw, hempty] at hsems
    simp only [Thread.got, Thread.rheld, Thread.put, List.length_nil, Bool.false_eq_true,
      ↓reduceIte, add_zero, zero_add] at hcount hsems
    have hlen := congrArg List.length hput
    simp only [List.length_append, List.length_cons, List.length_nil] at hlen
    have : (g.rands ++ List.replicate g.ends (-1)).length = 0 := by
      rw [List.length_append]
      omega
    exact hp (List.eq_nil_of_length_eq_zero this)
  have hfin : g.pc = .done := by
    rcases h4 hpend with hf | ⟨j, _, hj, _⟩ | ⟨r, u, he1, _⟩
    · simpa [Thread.finished] using hf
    · omega
    · cases he1
  obtain ⟨hr0, he0⟩ := hdone hfin
  have hputall : g.put = rands ++ [-1, -1] := by
    rw [← hput, hr0, he0]
    simp
  have hterm : terminal c s = true := by
    have h1 : step c s 1 = none := by
      simp [step, ht1, stepEntry, ht0, Thread.finished, hfin]
    simp only [terminal, hth, List.length_cons, List.length_nil, List.all_eq_true,
      List.mem_range]
    intro i hi
    have hi01 : i = 0 ∨ i = 1 := by omega
    rcases hi01 with rfl | rfl
    · rw [hs0]
      rfl
    · rw [h1]
      rfl
  exact ⟨sched, s, g, ⟨he, hterm⟩,
    dangling_of_entry ht1 ht0 (by simp [Thread.finished, hfin]), hth, hfin, hputall, hsorted,
    hcr, hchans⟩

/-! ## What the claims on whole runs lose to the dangling parameter

The run of `dangling_run` on four values with capacity 6 (`-l 4 -b 6`) is evaluated under
`danglingSchedule`; the same happens for every input and every capacity of at least the number
of values plus two. -/

/-- C1, in the code: on four values with capacity 6 the schedule that lets the generator run
ends in a state in which no thread can take a step, with the generator returned and the first
comparator still to read its parameter; and for every input and every capacity of at least the
number of values plus two there is a complete run without an output thread: nothing reads the
sorted values. -/
theorem sink_reads_nothing :
    ((exec 6 (Sys.init 6 [5, 3, 8, 1]) danglingSchedule).map fun s =>
        (terminal 6 s, s.dangling, s.threads)) =
      some (true, true,
        [.generator ⟨.done, [], 0, 0, 0, [5, 3, 8, 1, -1, -1]⟩, .entry .comparator 0]) ∧
      ∀ (c : Nat) (rands : List Int), rands.length + 2 ≤ c →
        ∃ sched s, Run c rands sched s ∧ s.dangling = true ∧
          ∀ (k : Nat) (o : Output), s.threads[k]? ≠ some (.output o) := by
  refine ⟨by decide, fun c rands hcap => ?_⟩
  obtain ⟨sched, s, g, hrun, hd, hth, _⟩ := dangling_run c rands hcap
  refine ⟨sched, s, hrun, hd, fun k o h => ?_⟩
  rw [hth] at h
  match k with
  | 0 => simp at h
  | 1 => simp at h
  | k + 2 => simp at h

/-- C2, in the code: on four values with capacity 6 the schedule that lets the generator run
ends with no thread that has read a value, so that no count of received values exists; and for
every input and every capacity of at least the number of values plus two there is a complete
run in which no thread has read anything. -/
theorem nothing_counted :
    ((exec 6 (Sys.init 6 [5, 3, 8, 1]) danglingSchedule).map fun s =>
        (terminal 6 s, s.threads.map Thread.got,
          s.threads.filterMap fun t =>
            match t with
            | .output o => some o.vars.received
            | _ => none)) =
      some (true, [[], []], []) ∧
      ∀ (c : Nat) (rands : List Int), rands.length + 2 ≤ c →
        ∃ sched s, Run c rands sched s ∧
          ∀ (k : Nat) (t : Thread), s.threads[k]? = some t → t.got = [] := by
  refine ⟨by decide, fun c rands hcap => ?_⟩
  obtain ⟨sched, s, g, hrun, _, hth, _⟩ := dangling_run c rands hcap
  refine ⟨sched, s, hrun, fun k t h => ?_⟩
  rw [hth] at h
  match k with
  | 0 =>
    simp only [List.getElem?_cons_zero, Option.some.injEq] at h
    subst h
    rfl
  | 1 =>
    simp only [List.getElem?_cons_succ, List.getElem?_cons_zero, Option.some.injEq] at h
    subst h
    rfl
  | k + 2 => simp at h

/-- C4, in the code: on four values with capacity 6 the schedule that lets the generator run
ends with `sorted` never posted, so that `main` waits for ever and nothing is reported; and for
every input and every capacity of at least the number of values plus two there is a complete
run with `sorted = 0` and no thread left that could post it. -/
theorem no_report :
    ((exec 6 (Sys.init 6 [5, 3, 8, 1]) danglingSchedule).map fun s =>
        (terminal 6 s, s.sorted, s.threads.map Thread.posted)) =
      some (true, 0, [0, 0]) ∧
      ∀ (c : Nat) (rands : List Int), rands.length + 2 ≤ c →
        ∃ sched s, Run c rands sched s ∧ s.sorted = 0 ∧
          ∀ (k : Nat) (t : Thread), s.threads[k]? = some t → t.posted = 0 := by
  refine ⟨by decide, fun c rands hcap => ?_⟩
  obtain ⟨sched, s, g, hrun, _, hth, _, _, hsorted, _⟩ := dangling_run c rands hcap
  refine ⟨sched, s, hrun, hsorted, fun k t h => ?_⟩
  rw [hth] at h
  match k with
  | 0 =>
    simp only [List.getElem?_cons_zero, Option.some.injEq] at h
    subst h
    rfl
  | 1 =>
    simp only [List.getElem?_cons_succ, List.getElem?_cons_zero, Option.some.injEq] at h
    subst h
    rfl
  | k + 2 => simp at h

/-- C5, in the code: on four values with capacity 6 the schedule that lets the generator run
ends with two threads and one `pthread_create` call, where the claim has six threads and five
calls; and for every input and every capacity of at least the number of values plus two there
is a complete run in which the only thread ever created is the first comparator. -/
theorem one_thread_created :
    ((exec 6 (Sys.init 6 [5, 3, 8, 1]) danglingSchedule).map fun s =>
        (terminal 6 s, s.threads.length, s.created)) =
      some (true, 2, [(0, .comparator)]) ∧
      ∀ (c : Nat) (rands : List Int), rands.length + 2 ≤ c →
        ∃ sched s, Run c rands sched s ∧ s.threads.length = 2 ∧
          s.created = [(0, .comparator)] := by
  refine ⟨by decide, fun c rands hcap => ?_⟩
  obtain ⟨sched, s, g, hrun, _, hth, _, _, _, hcr, _⟩ := dangling_run c rands hcap
  exact ⟨sched, s, hrun, by rw [hth]; rfl, hcr⟩

/-- C6, in the code: on four values with capacity 6 the schedule that lets the generator run
ends in a state in which no thread can take a step although the first comparator has not
finished, all six values lie unread in the first channel and `sorted` is not posted; and for
every input of `N` values and every capacity of at least `N + 2` there is such a complete run,
with `N + 2` unread values in the first channel. -/
theorem run_hangs :
    ((exec 6 (Sys.init 6 [5, 3, 8, 1]) danglingSchedule).map fun s =>
        (terminal 6 s, s.threads.map Thread.finished, s.chans.map Channel.full, s.sorted)) =
      some (true, [true, false], [6], 0) ∧
      ∀ (c : Nat) (rands : List Int), rands.length + 2 ≤ c →
        ∃ sched s, Run c rands sched s ∧ s.sorted = 0 ∧
          (∃ t, s.threads[1]? = some t ∧ t.finished = false) ∧
          ∃ ch, s.chans[0]? = some ch ∧ ch.full = rands.length + 2 := by
  refine ⟨by decide, fun c rands hcap => ?_⟩
  obtain ⟨sched, s, g, hrun, _, hth, _, hput, hsorted, _⟩ := dangling_run c rands hcap
  have inv := inv_reach sched hrun.1
  have ht0 : s.threads[0]? = some (.generator g) := by rw [hth]; rfl
  have ht1 : s.threads[1]? = some (.entry .comparator 0) := by rw [hth]; rfl
  obtain ⟨ch, hch, hci⟩ := chan_of_succ inv ht0 ht1
  refine ⟨sched, s, hrun, hsorted, ⟨_, ht1, rfl⟩, ch, hch, ?_⟩
  have hcount := hci.count
  simp only [Thread.got, Thread.rheld, Thread.put, hput, List.length_nil, Bool.false_eq_true,
    ↓reduceIte, add_zero, zero_add, List.length_append, List.length_cons] at hcount
  exact hcount

/-- C7, in the code: on four values with capacity 6 the schedule that lets the generator run
ends with no comparator thread that has run: thread 1 has not read its parameter and the
threads 2, 3 and 4 do not exist, so that no stage holds a value; and for every input and every
capacity of at least the number of values plus two there is a complete run without a comparator
that has run. -/
theorem no_stage_holds :
    ((exec 6 (Sys.init 6 [5, 3, 8, 1]) danglingSchedule).map fun s =>
        (terminal 6 s, s.threads[1]?, s.threads[2]?, s.threads[3]?, s.threads[4]?)) =
      some (true, some (.entry .comparator 0), none, none, none) ∧
      ∀ (c : Nat) (rands : List Int), rands.length + 2 ≤ c →
        ∃ sched s, Run c rands sched s ∧
          ∀ (k : Nat) (x : Comparator), s.threads[k]? ≠ some (.comparator x) := by
  refine ⟨by decide, fun c rands hcap => ?_⟩
  obtain ⟨sched, s, g, hrun, _, hth, _⟩ := dangling_run c rands hcap
  refine ⟨sched, s, hrun, fun k x h => ?_⟩
  rw [hth] at h
  match k with
  | 0 => simp at h
  | 1 => simp at h
  | k + 2 => simp at h

set_option maxRecDepth 100000 in
/-- C9, in the code: on the values `[5, 3, 8, 1]` a complete run with capacity 1 ends with the
output thread having observed `[1, 3, 5, 8]`, and a complete run with capacity 6 ends without
an output thread; and for every input of `N ≥ 1` values without the marker there are complete
runs with the capacities 1 and `N + 2` of which the first has an output thread and the second
has none. -/
theorem capacity_changes_result :
    ((exec 1 (Sys.init 1 [5, 3, 8, 1]) demoSchedule).map fun s =>
        (terminal 1 s,
          s.threads.filterMap fun t =>
            match t with
            | .output o => some (o.vars.observed, o.vars.received, o.vars.correct)
            | _ => none)) =
      some (true, [([1, 3, 5, 8], 4, 1)]) ∧
      ((exec 6 (Sys.init 6 [5, 3, 8, 1]) danglingSchedule).map fun s =>
        (terminal 6 s,
          s.threads.filterMap fun t =>
            match t with
            | .output o => some (o.vars.observed, o.vars.received, o.vars.correct)
            | _ => none)) =
      some (true, []) ∧
      ∀ (rands : List Int), 1 ≤ rands.length → (∀ v ∈ rands, v ≠ -1) →
        ∃ sched1 s1 sched2 s2, Run 1 rands sched1 s1 ∧
          Run (rands.length + 2) rands sched2 s2 ∧
          (∃ (k : Nat) (o : Output), s1.threads[k]? = some (.output o) ∧
            o.vars.observed = List.insertionSort (· ≤ ·) rands) ∧
          ∀ (k : Nat) (o : Output), s2.threads[k]? ≠ some (.output o) := by
  refine ⟨by decide, by decide, fun rands hn hr => ?_⟩
  obtain ⟨⟨sched1, s1, hrun1⟩, hall⟩ := pipeline_sorts 1 rands (le_refl _) (by omega) hn hr
  obtain ⟨o, ho, _, _, hobs, _⟩ := hall sched1 s1 hrun1
  obtain ⟨sched2, s2, g, hrun2, _, hth, _⟩ := dangling_run (rands.length + 2) rands (le_refl _)
  refine ⟨sched1, s1, sched2, s2, hrun1, hrun2, ⟨_, o, ho, hobs⟩, fun k o2 h => ?_⟩
  rw [hth] at h
  match k with
  | 0 => simp at h
  | 1 => simp at h
  | k + 2 => simp at h

/-- C19, in the code: on four values with capacity 6 the schedule that lets the generator run
ends with one channel only, the first, which holds the six values the generator has written and
of which nothing has been read; and for every input and every capacity of at least the number
of values plus two there is a complete run with that one channel and the whole stream of the
generator written to it: the channels into the stages after the first never exist. -/
theorem streams_missing :
    ((exec 6 (Sys.init 6 [5, 3, 8, 1]) danglingSchedule).map fun s =>
        (terminal 6 s, s.chans, s.threads.map Thread.put)) =
      some (true, [⟨[5, 3, 8, 1, -1, -1], 6, 0⟩], [[5, 3, 8, 1, -1, -1], []]) ∧
      ∀ (c : Nat) (rands : List Int), rands.length + 2 ≤ c →
        ∃ sched s, Run c rands sched s ∧ s.chans.length = 1 ∧
          s.threads.map Thread.put = [rands ++ [-1, -1], []] := by
  refine ⟨by decide, fun c rands hcap => ?_⟩
  obtain ⟨sched, s, g, hrun, _, hth, _, hput, _, _, hchans⟩ := dangling_run c rands hcap
  refine ⟨sched, s, hrun, hchans, ?_⟩
  rw [hth]
  simp [Thread.put, hput]

/-- C20, in the code: on no value at all with capacity 2 the schedule that lets the generator
run ends in a state in which no thread can take a step, with the generator returned after its
two markers, the one comparator still to read its parameter, no output thread and `sorted` not
posted; and for every capacity of at least 2 there is such a complete run on no value. -/
theorem empty_run_hangs :
    ((exec 2 (Sys.init 2 []) emptyDanglingSchedule).map fun s =>
        (terminal 2 s, s.dangling, s.threads)) =
      some (true, true,
        [.generator ⟨.done, [], 0, 0, 0, [-1, -1]⟩, .entry .comparator 0]) ∧
      ((exec 2 (Sys.init 2 []) emptyDanglingSchedule).map fun s => (s.sorted, s.created)) =
        some (0, [(0, .comparator)]) ∧
      ∀ (c : Nat), 2 ≤ c →
        ∃ sched s g, Run c [] sched s ∧ s.dangling = true ∧
          s.threads = [.generator g, .entry .comparator 0] ∧ g.put = [-1, -1] ∧
          s.sorted = 0 ∧ s.created = [(0, .comparator)] := by
  refine ⟨by decide, by decide, fun c hc => ?_⟩
  obtain ⟨sched, s, g, hrun, hd, hth, _, hput, hsorted, hcr, _⟩ :=
    dangling_run c [] (by simpa using hc)
  exact ⟨sched, s, g, hrun, hd, hth, by simpa using hput, hsorted, hcr⟩

end PipeSort
